import Mathlib

/-!
Verification of the qspeak state-machine core (src-tauri/src/state_machine/*)
against its natural-language specification.  The Rust sources are shallowly
embedded: pure functions become Lean functions, listener closures become step
functions from an event and a state snapshot to a new state plus a list of
observable side effects, and the asynchronous completions of spawned work are
inlined as boolean outcome parameters.  Machine floats (f64 progress values)
are modelled as rationals, timestamps as naturals, and `Uuid::new_v4` as an
explicit supply of fresh identifiers.
-/

/-! ## Generic helpers (Rust string / slice semantics) -/

/-- `updateFirstWhere p f l` rewrites the first element of `l` satisfying `p`
with `f`, like `iter_mut().find(p).map(f)` on a Rust vector. -/
def updateFirstWhere (p : α → Bool) (f : α → α) : List α → List α
  | [] => []
  | x :: xs => if p x then f x :: xs else x :: updateFirstWhere p f xs

/-- Rust `str::to_lowercase`, restricted to the ASCII range (the transcripts
and voice commands exercised by the spec are ASCII). -/
def rustLowercase (s : String) : String :=
  String.mk (s.data.map Char.toLower)

/-- The word accumulator of `rustSplitWhitespace`. -/
def splitWsAux : List Char → List Char → List String
  | [], acc => if acc.isEmpty then [] else [String.mk acc.reverse]
  | c :: t, acc =>
    if c.isWhitespace then
      if acc.isEmpty then splitWsAux t []
      else String.mk acc.reverse :: splitWsAux t []
    else splitWsAux t (c :: acc)

/-- Rust `str::split_whitespace`: split on whitespace, discarding empty
fragments. -/
def rustSplitWhitespace (s : String) : List String :=
  splitWsAux s.data []

/-- Rust `str::trim`: strip leading and trailing whitespace. -/
def rustTrim (s : String) : String :=
  String.mk (((s.data.dropWhile Char.isWhitespace).reverse.dropWhile
    Char.isWhitespace).reverse)

/-- `charsStartsWith hay pat` is true when `pat` is an initial segment
of `hay` (Rust `str::starts_with` at character level). -/
def charsStartsWith : List Char → List Char → Bool
  | _, [] => true
  | [], _ :: _ => false
  | c :: cs, d :: ds => c = d && charsStartsWith cs ds

/-- Rust `str::starts_with` on strings. -/
def rustStartsWith (s pat : String) : Bool :=
  charsStartsWith s.data pat.data

/-- Rust `str::ends_with` on strings. -/
def rustEndsWith (s pat : String) : Bool :=
  charsStartsWith s.data.reverse pat.data.reverse

/-- Fuelled body of `rustReplace`: replace non-overlapping occurrences of
`pat` left to right (empty patterns are left alone; every use in the
sources has a non-empty literal pattern).  The fuel starts at the string
length and each step consumes at least one character, so it never runs
out. -/
def charsReplaceFuel (pat repl : List Char) : Nat → List Char → List Char
  | 0, s => s
  | fuel + 1, s =>
    match s with
    | [] => []
    | c :: t =>
      if ¬ pat.isEmpty && charsStartsWith s pat then
        repl ++ charsReplaceFuel pat repl fuel (s.drop pat.length)
      else c :: charsReplaceFuel pat repl fuel t

/-- Rust `str::replace`. -/
def rustReplace (s pat repl : String) : String :=
  String.mk (charsReplaceFuel pat.data repl.data s.data.length s.data)

/-- Rust `str::contains` for a literal pattern, at character level. -/
def charsContains (pat : List Char) : List Char → Bool
  | [] => charsStartsWith [] pat
  | c :: t => charsStartsWith (c :: t) pat || charsContains pat t

/-- Rust `str::split_once` for a literal separator, at character level:
split at the first occurrence of `sep`, returning the parts before and
after it. -/
def splitOnceChars (sep : List Char) : List Char → Option (List Char × List Char)
  | [] => if charsStartsWith [] sep then some ([], []) else none
  | c :: t =>
    if charsStartsWith (c :: t) sep then some ([], (c :: t).drop sep.length)
    else
      match splitOnceChars sep t with
      | some (pre, post) => some (c :: pre, post)
      | none => none

/-- Rust `String::split_once("--")` on strings. -/
def splitOnceDashDash (s : String) : Option (String × String) :=
  (splitOnceChars ['-', '-'] s.data).map (fun pr => (String.mk pr.1, String.mk pr.2))

/-! ## Personas and voice-command matching (new_conversation.rs) -/

/-- `personas.rs::PersonaExample`. -/
structure PersonaExample where
  question : String
  answer : String
deriving DecidableEq, Repr

/-- `personas.rs::Persona`. -/
structure Persona where
  id : String
  name : String
  system_prompt : String
  description : String
  voice_command : String
  paste_on_finish : Bool
  icon : Option String
  record_output_audio : Bool
  examples : List PersonaExample
deriving DecidableEq, Repr

/-- The per-persona predicate inside the `find` closure of
`get_persona_and_text_from_transcription`: a blank `voice_command` never
matches; otherwise the transcript and the command are lowercased, have
spaces, periods and commas stripped, and the transcript must start with
the command. -/
def personaMatches (text : String) (p : Persona) : Bool :=
  if rustTrim p.voice_command = "" then false
  else
    rustStartsWith
      (rustReplace (rustReplace (rustReplace (rustLowercase text) " " "") "." "") "," "")
      (rustReplace (rustReplace (rustReplace (rustLowercase p.voice_command) " " "") "." "")
        "," "")

/-- Position of the first alphabetic character
(`text.find(|c| c.is_alphabetic()).unwrap_or(0)`). -/
def firstAlphaIdx (cs : List Char) : Nat :=
  match cs.findIdx? Char.isAlpha with
  | some i => i
  | none => 0

/-- The `char_indices` walk locating the end of the command's words: count
whitespace characters; when the count reaches `wordsCount` return that
position, and `0` if the walk ends first. -/
def findTrimPos : List Char → Nat → Nat → Nat → Nat
  | [], _, _, _ => 0
  | c :: t, wordsCount, i, spacesFound =>
    if c.isWhitespace then
      if spacesFound + 1 = wordsCount then i
      else findTrimPos t wordsCount (i + 1) (spacesFound + 1)
    else findTrimPos t wordsCount (i + 1) spacesFound

/-- `text_for_comparison.find(' ').unwrap_or(text_for_comparison.len())`. -/
def findSpaceIdx (cs : List Char) : Nat :=
  match cs.findIdx? (fun c => c = ' ') with
  | some i => i
  | none => cs.length

/-- `trim_start_matches(|c| c.is_whitespace() || c == '!' || c == '.' || c == ',' || c == ':')`. -/
def trimStartPunct (cs : List Char) : List Char :=
  cs.dropWhile (fun c => c.isWhitespace || c = '!' || c = '.' || c = ',' || c = ':')

/-- `new_conversation.rs::get_persona_and_text_from_transcription`: find the
first persona whose normalized voice command prefixes the normalized
transcript; on a match, walk the original-cased transcript (starting at its
first alphabetic character) to cut off the command's words, then strip
leading whitespace and `!.,:` punctuation.  When the original-cased leading
words do not contain the command words, or the walk finds no cut position,
the transcript is returned unchanged. -/
def get_persona_and_text_from_transcription (text : String) (personas : List Persona) :
    Option Persona × String :=
  match personas.find? (personaMatches text) with
  | none => (none, text)
  | some p =>
    let commandWords := rustSplitWhitespace (rustLowercase p.voice_command)
    let textForComparison := text.data.drop (firstAlphaIdx text.data)
    let textStart :=
      String.intercalate " "
        ((rustSplitWhitespace (rustLowercase (String.mk textForComparison))).take
          commandWords.length)
    if charsContains (String.intercalate " " commandWords).data textStart.data then
      let wordsCount := commandWords.length
      let trimPos := findTrimPos textForComparison wordsCount 0 0
      if trimPos > 0 || wordsCount = 1 then
        let trimPos :=
          if wordsCount = 1 && trimPos = 0 then findSpaceIdx textForComparison else trimPos
        (some p, String.mk (trimStartPunct (textForComparison.drop trimPos)))
      else (some p, text)
    else (some p, text)

/-- The spec's normalization: lowercase and strip spaces, periods and
commas.  (Spec-side definition, to be compared with the code's inline
normalization.) -/
def specNormalize (s : String) : String :=
  rustReplace (rustReplace (rustReplace (rustLowercase s) " " "") "." "") "," ""

/-- Spec-side match predicate, amended with the blank-command exclusion the
code enforces. -/
def specVoiceMatch (text : String) (p : Persona) : Bool :=
  ¬ rustTrim p.voice_command = "" &&
    rustStartsWith (specNormalize text) (specNormalize p.voice_command)

/-! ## State tree (state.rs), events (events.rs) -/

/-- `state.rs::ConversationState`. -/
inductive ConversationState
  | Idle
  | Listening
  | Transcribing
  | Transforming
  | Error
deriving DecidableEq, Repr

/-- `state.rs::CopyTextState`. -/
inductive CopyTextState
  | Idle
  | Copying
deriving DecidableEq, Repr

/-- `state.rs::ScreenshotState`. -/
inductive ScreenshotState
  | Idle
  | Screenshotting
deriving DecidableEq, Repr

/-- `llm::ChatCompletionMessageContent`: either plain text or an image data
URL. -/
inductive MsgContent
  | text (t : String)
  | image (url : String)
deriving DecidableEq, Repr

/-- `state.rs::ToolCallFunction`. -/
structure ToolCallFunction where
  client_name : String
  name : String
  arguments : String
deriving DecidableEq, Repr

/-- `state.rs::ToolCall`. -/
structure ToolCall where
  id : String
  function : ToolCallFunction
deriving DecidableEq, Repr

/-- `state.rs::ConversationTextMessage` (timestamps modelled as naturals). -/
structure ConversationTextMessage where
  audio_file_path : Option String
  role : String
  content : List MsgContent
  created_at : Nat
deriving DecidableEq, Repr

/-- `state.rs::ConversationToolCallMessage`. -/
structure ConversationToolCallMessage where
  role : String
  tool_calls : List ToolCall
  created_at : Nat
deriving DecidableEq, Repr

/-- `state.rs::ConversationToolCallResultMessage`. -/
structure ConversationToolCallResultMessage where
  role : String
  tool_call_id : String
  content : String
  created_at : Nat
deriving DecidableEq, Repr

/-- `state.rs::ConversationMessage`. -/
inductive ConversationMessage
  | textMsg (m : ConversationTextMessage)
  | toolCallMsg (m : ConversationToolCallMessage)
  | toolCallResultMsg (m : ConversationToolCallResultMessage)
deriving DecidableEq, Repr

/-- `state.rs::ConversationContext`. -/
structure ConversationContext where
  dictionary : List String
  replacements : List (String × String)
  transcription_text : String
  current_audio_file_path : Option String
  conversation : List ConversationMessage
  state : ConversationState
  copy_text_state : CopyTextState
  screenshot_state : ScreenshotState
  pending_tool_call_ids : List String
deriving DecidableEq, Repr

/-- `history.rs::History`, trimmed to the fields the conversation processor
reads (id and conversation snapshot). -/
structure History where
  id : String
  conversation : List ConversationMessage
deriving DecidableEq, Repr

/-- `history.rs::HistoryContext`, trimmed to the fields the conversation
processor touches. -/
structure HistoryContext where
  history : List History
  current_history_id : Option String
deriving DecidableEq, Repr

/-- `new_mcp_processor.rs::MCPServerKind`. -/
inductive MCPServerKind
  | Local (command : String) (env_vars : List (String × String))
  | External (url : String)
deriving DecidableEq, Repr

/-- `new_mcp_processor.rs::MCPServerState`. -/
inductive MCPServerState
  | Disabled
  | Starting
  | Enabled
  | Stopping
  | Error
deriving DecidableEq, Repr

/-- `new_mcp_processor.rs::MCPServerConfig`. -/
structure MCPServerConfig where
  id : String
  name : String
  key : String
  description : String
  kind : MCPServerKind
  enabled : Bool
  state : MCPServerState
deriving DecidableEq, Repr

/-- `new_mcp_processor.rs::MCPContext`. -/
structure MCPContext where
  server_configs : List MCPServerConfig
deriving DecidableEq, Repr

/-- `state.rs::WebsocketServerContext` (`u16` port modelled as a natural). -/
structure WebsocketServerContext where
  enabled : Bool
  port : Nat
  password : Option String
deriving DecidableEq, Repr

/-- `events.rs::Shortcuts`. -/
structure Shortcuts where
  recording : List String
  close : List String
  personas : List String
  screenshot : List String
  copy_text : List String
  toggle_minimized : List String
  switch_language : List String
deriving DecidableEq, Repr

/-- `Shortcuts::default()`. -/
def shortcutsDefault : Shortcuts :=
  { recording := ["Control", "Space"]
    close := ["Escape"]
    personas := ["Control", "Alt", "Space"]
    screenshot := ["Control", "Shift", "S"]
    copy_text := ["Control", "Shift", "C"]
    toggle_minimized := ["Control", "M"]
    switch_language := ["Control", "Shift", "L"] }

/-- `challenges.rs::ChallengeStatus`. -/
inductive ChallengeStatus
  | Available
  | InProgress
  | Completed
deriving DecidableEq, Repr

/-- `challenges.rs::ChallengeName`. -/
inductive ChallengeName
  | OpenSettingsFromTray
  | MaximizeMinimizeWindow
  | ChangePersonaByVoice
  | Reach1000WordsDictated
  | Reach2000WordsDictated
  | ChangePersona
  | CustomizeShortcuts
deriving DecidableEq, Repr

/-- `events.rs::NewPersona`. -/
structure NewPersona where
  name : String
  description : String
  system_prompt : String
  voice_command : String
  paste_on_finish : Bool
  icon : String
  record_output_audio : Bool
  examples : List PersonaExample
deriving DecidableEq, Repr

/-- `llm::ChatCompletionChunkToolCallFunction`. -/
structure ChunkToolCallFunction where
  name : Option String
  arguments : String
deriving DecidableEq, Repr

/-- `llm::ChatCompletionChunkToolCall`. -/
structure ChunkToolCall where
  id : Option String
  function : ChunkToolCallFunction
deriving DecidableEq, Repr

/-- `new_conversation.rs::ToolCallResult`. -/
structure ToolCallResult where
  tool_call_id : String
  content : String
  created_at : Nat
deriving DecidableEq, Repr

/-- `events.rs::WebsocketServerSettingsPayload`. -/
structure WebsocketServerSettingsPayload where
  enabled : Bool
  port : Nat
  password : Option String
deriving DecidableEq, Repr

/-- `events.rs::Event`, restricted to the variants handled by the processors
modelled here (conversation, personas, MCP, challenges, websocket).  The
remaining variants fall into the listeners' catch-all arms and are not
needed by any claim. -/
inductive Event
  | ActionRecording
  | ActionCloseRecordingWindow
  | ActionTextMessage (text : String)
  | ActionLoadHistoryConversation (id : String)
  | ActionTranscriptionSuccess (text : String)
  | ActionTranscriptionError (e : String)
  | ActionTransformationChunk (chunk : String)
  | ActionTransformationToolCall (tc : ChunkToolCall)
  | ActionTransformationToolCallResult (r : ToolCallResult)
  | ActionTransformationSuccess
  | ActionTransformationError (e : String)
  | ActionChangePersona (p : Option Persona)
  | ActionPersonaCycleNext
  | ActionPersonaCycleEnd
  | ActionAddImage (dataUrl : String)
  | ActionAddText (text : String)
  | ActionAddDictionaryItem (term : String)
  | ActionDeleteDictionaryItem (term : String)
  | ActionStartNewConversation
  | ActionScreenshot
  | ActionCopyText
  | ActionPersona
  | ActionToggleRecordingWindowMinimized
  | ActionOpenSettingsFromTray
  | CloseSettings
  | ShortcutUpdate (s : Shortcuts)
  | ActionChangePersonaByVoice
  | ActionChallengeCompleted (name : ChallengeName)
  | ActionResetRecordingShortcutTimer
  | ActionSwitchToNextPreferredLanguage
  | ActionAddPersona (p : NewPersona)
  | ActionUpdatePersona (p : Persona)
  | ActionDeletePersona (id : String)
  | ActionDuplicatePersona (p : Persona)
  | ActionAddTool (tool : MCPServerConfig)
  | ActionUpdateTool (tool : MCPServerConfig)
  | ActionDeleteTool (id : String)
  | ActionEnableTool (id : String)
  | ActionDisableTool (id : String)
  | ActionUpdateWebsocketServerSettings (settings : WebsocketServerSettingsPayload)
deriving DecidableEq, Repr

/-- `challenges.rs::ChallengeCondition` (`f64` target modelled as a
rational). -/
inductive ChallengeCondition
  | Occurred
  | ProgressGoal (target : Rat)
deriving DecidableEq, Repr

/-- `challenges.rs::ChallengeRequirement`. -/
structure ChallengeRequirement where
  event : Event
  condition : ChallengeCondition
  current_progress : Option Rat
  completed_at : Option Nat
deriving DecidableEq, Repr

/-- `challenges.rs::Challenge`. -/
structure Challenge where
  id : ChallengeName
  title : String
  description : String
  status : ChallengeStatus
  requirements : List ChallengeRequirement
  completed_at : Option Nat
deriving DecidableEq, Repr

/-- `challenges.rs::ChallengeContext`. -/
structure ChallengeContext where
  challenges : List Challenge
deriving DecidableEq, Repr

/-- `personas.rs::PersonasContext`. -/
structure PersonasContext where
  personas : List Persona
deriving DecidableEq, Repr

/-- `errors.rs::AppError` messages, abstracted to tags carrying the data
interpolated by the corresponding `format!` call (the random error id and
timestamp of `AppError::with_message` are not modelled). -/
inductive ErrMsg
  | transcriptionModelNotPicked
  | transformationModelNotFound
  | invalidToolCallName (name : String)
  | duplicateToolKey (key : String)
  | toolUpdateRestartFailed (key : String)
  | toolUpdateUncleanShutdown (key : String)
  | toolDeleteUncleanShutdown (key : String)
  | failedToEnableTool (key : String)
  | failedToDisableTool (key : String)
  | clipboardError (e : String)
  | custom (msg : String)
deriving DecidableEq, Repr

/-- `state.rs::AppStateContext`, restricted to the sub-contexts the
modelled processors read or write. -/
structure AppStateContext where
  errors : List ErrMsg
  input_device : Option String
  transcription_model : Option String
  conversation_model : Option String
  active_persona : Option Persona
  personas_context : PersonasContext
  conversation_context : ConversationContext
  history_context : HistoryContext
  challenge_context : ChallengeContext
  mcp_context : MCPContext
  websocket_server_context : WebsocketServerContext
deriving DecidableEq, Repr

/-! ## Conversation processor (new_conversation.rs) -/

/-- Reasons for `unwrap`/`expect` panics in the listener code. -/
inductive PanicReason
  | emptyConversation
  | toolCallFieldMissing
  | noAudioFilePath
  | noConversationModel
  | personaNotFound
  | dictionaryItemNotFound
deriving DecidableEq, Repr

/-- Observable side effects of one listener invocation: commands to the
recorder thread, spawned background work, emissions of follow-up events,
clipboard/paste interactions and panics. -/
inductive Effect
  | startRecordingCmd (path : String) (device : Option String) (recordOutput : Bool)
  | stopRecordingCmd
  | cancelRecordingCmd
  | spawnTranscription (file : String)
  | spawnModelCall
  | spawnToolCall (client : String) (tool : String) (id : String) (args : String)
  | pasteText (t : String)
  | setClipboard (t : String)
  | emitChangePersonaByVoice
  | emitUpdateOrCreateHistory
  | emitAddText (t : String)
  | spawnScreenshot
  | spawnEnableServer (key : String)
  | spawnDisableServer (key : String)
  | toolNotFound (key : String)
  | panic (r : PanicReason)
deriving DecidableEq, Repr

/-- Environment of one listener invocation: the wall-clock timestamp, the
fresh audio file path derived from it, and the result of
`get_selected_text()` for the copy-text flow. -/
structure ConvEnv where
  now : Nat
  audioPath : String
  selectedText : Option String
deriving Repr

/-- `ConversationContext::set_idle_state`. -/
def set_idle_state (c : ConversationContext) : ConversationContext :=
  { c with
    state := ConversationState.Idle
    copy_text_state := CopyTextState.Idle
    screenshot_state := ScreenshotState.Idle
    pending_tool_call_ids := [] }

/-- `AppStateContext::reset_state_with_error`: push the error, go idle,
clear the pending tool-call ids. -/
def reset_state_with_error (ctx : AppStateContext) (e : ErrMsg) : AppStateContext :=
  { ctx with
    errors := ctx.errors ++ [e]
    conversation_context :=
      { set_idle_state ctx.conversation_context with pending_tool_call_ids := [] } }

/-- `AppStateContext::update_active_persona`: set the active persona and
clear the conversation. -/
def ctx_update_active_persona (ctx : AppStateContext) (p : Option Persona) : AppStateContext :=
  { ctx with
    active_persona := p
    conversation_context := { ctx.conversation_context with conversation := [] } }

/-- `ConversationProcessor::reset_conversation_state`. -/
def reset_conversation_state (ctx : AppStateContext) : AppStateContext :=
  { ctx with
    history_context := { ctx.history_context with current_history_id := none }
    conversation_context :=
      { ctx.conversation_context with
        state := ConversationState.Idle
        conversation := []
        pending_tool_call_ids := [] } }

/-- `content.last_mut()` update in `add_chunk`: extend the final text part
if there is one. -/
def appendChunkToLastContent (content : List MsgContent) (chunk : String) : List MsgContent :=
  match content.getLast? with
  | some (MsgContent.text t) => content.dropLast ++ [MsgContent.text (t ++ chunk)]
  | _ => content

/-- `ConversationContext::add_chunk`: push a fresh assistant message after a
user or tool-result message, extend the trailing assistant text otherwise;
panics when the conversation is empty. -/
def add_chunk (now : Nat) (c : ConversationContext) (chunk : String) :
    ConversationContext × List Effect :=
  match c.conversation.getLast? with
  | none => (c, [Effect.panic PanicReason.emptyConversation])
  | some (ConversationMessage.textMsg m) =>
    if m.role = "user" then
      ({ c with conversation := c.conversation ++
          [ConversationMessage.textMsg
            ⟨none, "assistant", [MsgContent.text chunk], now⟩] }, [])
    else
      ({ c with conversation := c.conversation.dropLast ++
          [ConversationMessage.textMsg
            { m with content := appendChunkToLastContent m.content chunk }] }, [])
  | some (ConversationMessage.toolCallResultMsg _) =>
    ({ c with conversation := c.conversation ++
        [ConversationMessage.textMsg
          ⟨none, "assistant", [MsgContent.text chunk], now⟩] }, [])
  | some (ConversationMessage.toolCallMsg _) => (c, [])

/-- `new_conversation.rs::TransformationContext`. -/
structure TransformationContext where
  is_text_message : Bool
deriving DecidableEq, Repr

/-- Whether the conversation already holds a system text message. -/
def hasSystemMessage (conversation : List ConversationMessage) : Bool :=
  conversation.any (fun m =>
    match m with
    | ConversationMessage.textMsg tm => tm.role = "system"
    | _ => false)

/-- `new_conversation.rs::start_transformation`: clear the pending ids, go
`Transforming` (or `Idle` plus paste when persona or model is missing),
record the transcription text, insert the persona's system prompt when
absent, append the user message, and spawn the chat-completion call unless
idle. -/
def start_transformation (env : ConvEnv) (ctx : AppStateContext) (text : String)
    (tcx : TransformationContext) : AppStateContext × List Effect :=
  let c0 := { ctx.conversation_context with pending_tool_call_ids := [] }
  let activePersona := ctx.active_persona
  let activeModel := ctx.conversation_model
  let goIdle := activePersona.isNone || activeModel.isNone
  let c1 :=
    if goIdle then { c0 with state := ConversationState.Idle }
    else { c0 with state := ConversationState.Transforming }
  let pasteEffs := if goIdle then [Effect.pasteText text] else []
  let c2 := { c1 with transcription_text := text }
  let c3 :=
    match activePersona with
    | some p =>
      if ¬ hasSystemMessage c2.conversation then
        let sysMsg := ConversationMessage.textMsg
          ⟨none, "system", [MsgContent.text p.system_prompt], env.now⟩
        { c2 with conversation := sysMsg :: c2.conversation }
      else c2
    | none => c2
  let userMsg := ConversationMessage.textMsg
    ⟨(if tcx.is_text_message then none else c3.current_audio_file_path),
     "user", [MsgContent.text text], env.now⟩
  let c4 := { c3 with conversation := c3.conversation ++ [userMsg] }
  let ctx1 := { ctx with conversation_context := c4 }
  if ctx1.conversation_context.state = ConversationState.Idle then (ctx1, pasteEffs)
  else
    match ctx1.conversation_model with
    | none => (ctx1, pasteEffs ++ [Effect.panic PanicReason.noConversationModel])
    | some _ => (ctx1, pasteEffs ++ [Effect.spawnModelCall])

/-- `start_recording`: store the fresh audio path, enter `Listening`, and
command the recorder thread to start (with the configured input device and
the active persona's output-audio flag). -/
def start_recording (env : ConvEnv) (ctx : AppStateContext) : AppStateContext × List Effect :=
  let recordOutputAudio := (ctx.active_persona.map (fun p => p.record_output_audio)).getD false
  let ctx1 := { ctx with conversation_context :=
      { ctx.conversation_context with
        current_audio_file_path := some env.audioPath
        state := ConversationState.Listening } }
  (ctx1, [Effect.startRecordingCmd env.audioPath ctx.input_device recordOutputAudio])

/-- `cancel_recording`: command the recorder to cancel and go idle. -/
def cancel_recording (ctx : AppStateContext) : AppStateContext × List Effect :=
  ({ ctx with conversation_context :=
      { ctx.conversation_context with state := ConversationState.Idle } },
   [Effect.cancelRecordingCmd])

/-- `start_transcription`: fails when no transcription model is picked;
otherwise reads the current audio file path (panicking when absent), enters
`Transcribing` and spawns the transcription job.  The bounded wait for the
echo-cancelled combined file (`get_transcription_file_path`) is a
file-system race and is not modelled; the spawned job is recorded with the
raw input path. -/
def start_transcription_step (ctx : AppStateContext) : AppStateContext × List Effect :=
  match ctx.transcription_model with
  | none => (reset_state_with_error ctx ErrMsg.transcriptionModelNotPicked, [])
  | some _ =>
    match ctx.conversation_context.current_audio_file_path with
    | none => (ctx, [Effect.panic PanicReason.noAudioFilePath])
    | some fp =>
      ({ ctx with conversation_context :=
          { ctx.conversation_context with state := ConversationState.Transcribing } },
       [Effect.spawnTranscription fp])

/-- The `ActionTransformationToolCall` arm: unwrap the chunk's name and id,
split the namespaced name on the first `--` (pushing an error and going idle
when absent), track the pending id, extend or append the assistant
tool-call message, and spawn the tool invocation. -/
def tool_call_arm (env : ConvEnv) (ctx : AppStateContext) (tc : ChunkToolCall) :
    AppStateContext × List Effect :=
  match tc.function.name, tc.id with
  | none, _ => (ctx, [Effect.panic PanicReason.toolCallFieldMissing])
  | _, none => (ctx, [Effect.panic PanicReason.toolCallFieldMissing])
  | some toolCallName, some toolCallId =>
    match splitOnceDashDash toolCallName with
    | none =>
      ({ ctx with
          errors := ctx.errors ++ [ErrMsg.invalidToolCallName toolCallName]
          conversation_context :=
            { ctx.conversation_context with state := ConversationState.Idle } }, [])
    | some (clientName, toolName) =>
      let cc := ctx.conversation_context
      let cc1 := { cc with pending_tool_call_ids := cc.pending_tool_call_ids ++ [toolCallId] }
      let newCall : ToolCall := ⟨toolCallId, ⟨clientName, toolName, tc.function.arguments⟩⟩
      let cc2 :=
        match cc1.conversation.getLast? with
        | some (ConversationMessage.toolCallMsg m) =>
          { cc1 with conversation := cc1.conversation.dropLast ++
              [ConversationMessage.toolCallMsg
                { m with tool_calls := m.tool_calls ++ [newCall] }] }
        | _ =>
          { cc1 with conversation := cc1.conversation ++
              [ConversationMessage.toolCallMsg ⟨"assistant", [newCall], env.now⟩] }
      ({ ctx with conversation_context := cc2 },
       [Effect.spawnToolCall clientName toolName toolCallId tc.function.arguments])

/-- The `ActionTransformationToolCallResult` arm: append the tool-result
message, drop the arriving id from the pending list, emit the history
update, and only when the conversation is still live and the pending list
has emptied spawn the next chat-completion turn. -/
def tool_call_result_arm (ctx : AppStateContext) (r : ToolCallResult) :
    AppStateContext × List Effect :=
  let cc := ctx.conversation_context
  let cc1 := { cc with
    conversation := cc.conversation ++
      [ConversationMessage.toolCallResultMsg ⟨"tool", r.tool_call_id, r.content, r.created_at⟩]
    pending_tool_call_ids :=
      cc.pending_tool_call_ids.filter (fun id => id ≠ r.tool_call_id) }
  let ctx1 := { ctx with conversation_context := cc1 }
  if ctx1.conversation_context.state = ConversationState.Idle then
    (ctx1, [Effect.emitUpdateOrCreateHistory])
  else if ¬ ctx1.conversation_context.pending_tool_call_ids.isEmpty then
    (ctx1, [Effect.emitUpdateOrCreateHistory])
  else
    match ctx1.conversation_model with
    | none => (ctx1, [Effect.emitUpdateOrCreateHistory, Effect.panic PanicReason.noConversationModel])
    | some _ => (ctx1, [Effect.emitUpdateOrCreateHistory, Effect.spawnModelCall])

/-- The `ActionTransformationSuccess` arm: when the conversation ends in an
assistant text message with a trailing text part, go idle, paste when the
persona asks for it, and copy to the clipboard; always re-emit the history
update. -/
def transformation_success_arm (ctx : AppStateContext) : AppStateContext × List Effect :=
  let activePersona := ctx.active_persona
  let finish : AppStateContext × List Effect :=
    match ctx.conversation_context.conversation.getLast? with
    | some (ConversationMessage.textMsg m) =>
      if m.role = "assistant" then
        match m.content.getLast? with
        | some (MsgContent.text t) =>
          let ctx1 := { ctx with conversation_context :=
              { ctx.conversation_context with state := ConversationState.Idle } }
          let pasteEffs :=
            match activePersona with
            | some p => if p.paste_on_finish then [Effect.pasteText t] else []
            | none => []
          (ctx1, pasteEffs ++ [Effect.setClipboard t])
        | _ => (ctx, [])
      else (ctx, [])
    | _ => (ctx, [])
  (finish.1, finish.2 ++ [Effect.emitUpdateOrCreateHistory])

/-- One invocation of the `"conversation"` listener
(`ConversationProcessor::start`), keyed on the event and the conversation
state snapshot. -/
def convStep (env : ConvEnv) (ev : Event) (ctx : AppStateContext) :
    AppStateContext × List Effect :=
  match ev, ctx.conversation_context.state with
  | Event.ActionRecording, ConversationState.Idle => start_recording env ctx
  | Event.ActionCloseRecordingWindow, ConversationState.Listening => cancel_recording ctx
  | Event.ActionRecording, ConversationState.Listening =>
    let (ctx1, effs) := start_transcription_step ctx
    (ctx1, Effect.stopRecordingCmd :: effs)
  | Event.ActionTextMessage text, ConversationState.Listening
  | Event.ActionTextMessage text, ConversationState.Idle =>
    start_transformation env ctx text ⟨true⟩
  | Event.ActionLoadHistoryConversation convId, ConversationState.Idle =>
    match ctx.history_context.history.find? (fun h => h.id = convId) with
    | some h =>
      ({ ctx with
          conversation_context :=
            { ctx.conversation_context with conversation := h.conversation }
          history_context := { ctx.history_context with current_history_id := none } }, [])
    | none => (ctx, [])
  | Event.ActionTranscriptionSuccess text, ConversationState.Transcribing =>
    let (newPersona, text2) :=
      get_persona_and_text_from_transcription text ctx.personas_context.personas
    let (ctx1, effs0) :=
      if newPersona.isSome then
        (ctx_update_active_persona ctx newPersona, [Effect.emitChangePersonaByVoice])
      else (ctx, [])
    let (ctx2, effs1) := start_transformation env ctx1 text2 ⟨false⟩
    (ctx2, effs0 ++ effs1)
  | Event.ActionTranscriptionError e, ConversationState.Transcribing =>
    (reset_state_with_error ctx (ErrMsg.custom e), [])
  | Event.ActionTransformationChunk chunk, ConversationState.Transforming =>
    let (cc, effs) := add_chunk env.now ctx.conversation_context chunk
    ({ ctx with conversation_context := cc }, effs)
  | Event.ActionTransformationToolCall tc, ConversationState.Transforming =>
    tool_call_arm env ctx tc
  | Event.ActionTransformationToolCallResult r, ConversationState.Transforming =>
    tool_call_result_arm ctx r
  | Event.ActionTransformationSuccess, ConversationState.Transforming =>
    transformation_success_arm ctx
  | Event.ActionTransformationError e, ConversationState.Transforming =>
    (reset_state_with_error ctx (ErrMsg.custom e), [])
  | Event.ActionChangePersona _, _ => (reset_conversation_state ctx, [])
  | Event.ActionPersonaCycleNext, _ => (reset_conversation_state ctx, [])
  | Event.ActionAddImage dataUrl, ConversationState.Idle
  | Event.ActionAddImage dataUrl, ConversationState.Listening =>
    let msg := ConversationMessage.textMsg
      ⟨none, "user", [MsgContent.image dataUrl], env.now⟩
    ({ ctx with conversation_context :=
        { ctx.conversation_context with
          conversation := ctx.conversation_context.conversation ++ [msg] } },
     [Effect.emitUpdateOrCreateHistory])
  | Event.ActionScreenshot, ConversationState.Idle
  | Event.ActionScreenshot, ConversationState.Listening =>
    if ctx.conversation_context.screenshot_state = ScreenshotState.Screenshotting then
      (ctx, [])
    else
      ({ ctx with conversation_context :=
          { ctx.conversation_context with
            screenshot_state := ScreenshotState.Screenshotting } },
       [Effect.spawnScreenshot])
  | Event.ActionCopyText, ConversationState.Listening
  | Event.ActionCopyText, ConversationState.Idle =>
    if ctx.conversation_context.copy_text_state = CopyTextState.Copying then (ctx, [])
    else
      let ctx1 := { ctx with conversation_context :=
          { ctx.conversation_context with copy_text_state := CopyTextState.Copying } }
      match env.selectedText with
      | some t =>
        ({ ctx1 with conversation_context :=
            { ctx1.conversation_context with copy_text_state := CopyTextState.Idle } },
         [Effect.emitAddText t])
      | none => (ctx1, [])
  | Event.ActionAddText text, ConversationState.Listening
  | Event.ActionAddText text, ConversationState.Idle =>
    let msg := ConversationMessage.textMsg
      ⟨none, "user", [MsgContent.text text], env.now⟩
    ({ ctx with conversation_context :=
        { ctx.conversation_context with
          conversation := ctx.conversation_context.conversation ++ [msg] } },
     [Effect.emitUpdateOrCreateHistory])
  | Event.ActionAddDictionaryItem term, ConversationState.Idle
  | Event.ActionAddDictionaryItem term, ConversationState.Listening =>
    ({ ctx with conversation_context :=
        { ctx.conversation_context with
          dictionary := ctx.conversation_context.dictionary ++ [term] } }, [])
  | Event.ActionDeleteDictionaryItem term, ConversationState.Idle
  | Event.ActionDeleteDictionaryItem term, ConversationState.Listening =>
    match ctx.conversation_context.dictionary.findIdx? (fun item => item = term) with
    | none => (ctx, [Effect.panic PanicReason.dictionaryItemNotFound])
    | some i =>
      ({ ctx with conversation_context :=
          { ctx.conversation_context with
            dictionary := ctx.conversation_context.dictionary.eraseIdx i } }, [])
  | Event.ActionStartNewConversation, _ => (reset_conversation_state ctx, [])
  | _, _ => (ctx, [])

/-! ## Personas processor (new_personas.rs) -/

/-- One invocation of the `"personas"` listener (`PersonasProcessor::start`).
`freshId` stands for the `Uuid::new_v4` drawn by the add/duplicate arms. -/
def personasStep (freshId : String) (ev : Event) (ctx : AppStateContext) :
    AppStateContext × List Effect :=
  match ev with
  | Event.ActionAddPersona p =>
    let newP : Persona :=
      { id := freshId, name := p.name, system_prompt := p.system_prompt
        description := p.description, voice_command := p.voice_command
        paste_on_finish := p.paste_on_finish, icon := some p.icon
        record_output_audio := p.record_output_audio, examples := p.examples }
    ({ ctx with personas_context := ⟨ctx.personas_context.personas ++ [newP]⟩ }, [])
  | Event.ActionUpdatePersona p =>
    match ctx.personas_context.personas.findIdx? (fun q => q.id = p.id) with
    | none => (ctx, [Effect.panic PanicReason.personaNotFound])
    | some i =>
      ({ ctx with personas_context := ⟨ctx.personas_context.personas.set i p⟩ }, [])
  | Event.ActionDeletePersona delId =>
    match ctx.personas_context.personas.findIdx? (fun q => q.id = delId) with
    | none => (ctx, [Effect.panic PanicReason.personaNotFound])
    | some i =>
      ({ ctx with personas_context := ⟨ctx.personas_context.personas.eraseIdx i⟩ }, [])
  | Event.ActionDuplicatePersona p =>
    let newP : Persona :=
      { id := freshId, name := p.name ++ " (Copy)", system_prompt := p.system_prompt
        description := p.description, voice_command := p.voice_command
        paste_on_finish := p.paste_on_finish, icon := p.icon
        record_output_audio := p.record_output_audio, examples := p.examples }
    ({ ctx with personas_context := ⟨ctx.personas_context.personas ++ [newP]⟩ }, [])
  | _ => (ctx, [])

/-! ## MCP tool processor (new_mcp_processor.rs)

The enable/disable/update flows spawn threads that run async client
operations and then write the outcome back into the state.  Those threads
are inlined here, with their outcomes supplied as the booleans `disableOk`
and `enableOk`, so a step models the handler's synchronous work together
with the eventual completion of the work it spawned. -/

/-- Replace the first config whose key matches (`iter_mut().find`). -/
def mcpUpdateByKey (ctx : AppStateContext) (key : String)
    (f : MCPServerConfig → MCPServerConfig) : AppStateContext :=
  { ctx with mcp_context :=
      ⟨updateFirstWhere (fun t => t.key = key) f ctx.mcp_context.server_configs⟩ }

/-- Replace the first config whose id matches (`iter_mut().find`). -/
def mcpUpdateById (ctx : AppStateContext) (cfgId : String)
    (f : MCPServerConfig → MCPServerConfig) : AppStateContext :=
  { ctx with mcp_context :=
      ⟨updateFirstWhere (fun t => t.id = cfgId) f ctx.mcp_context.server_configs⟩ }

/-- Push an error into the visible error list. -/
def pushErr (ctx : AppStateContext) (e : ErrMsg) : AppStateContext :=
  { ctx with errors := ctx.errors ++ [e] }

/-- `MCPProcessor::handle_enable_tool` with the spawned enable thread
inlined: look the config up by key (a missing key is a listener error that
the bus swallows), return early when it is already enabled, otherwise mark
it `Starting` and run the enable, writing `Enabled` or `Error` back. -/
def handle_enable_tool (enableOk : Bool) (key : String) (ctx : AppStateContext) :
    AppStateContext × List Effect :=
  match ctx.mcp_context.server_configs.find? (fun t => t.key = key) with
  | none => (ctx, [Effect.toolNotFound key])
  | some cfg =>
    if cfg.enabled then (ctx, [])
    else
      let ctx1 := mcpUpdateByKey ctx key (fun t => { t with state := MCPServerState.Starting })
      if enableOk then
        (mcpUpdateByKey ctx1 key
          (fun t => { t with enabled := true, state := MCPServerState.Enabled }),
         [Effect.spawnEnableServer key])
      else
        (pushErr
          (mcpUpdateByKey ctx1 key (fun t => { t with state := MCPServerState.Error }))
          (ErrMsg.failedToEnableTool key),
         [Effect.spawnEnableServer key])

/-- `MCPProcessor::handle_disable_tool` with the spawned disable thread
inlined. -/
def handle_disable_tool (disableOk : Bool) (key : String) (ctx : AppStateContext) :
    AppStateContext × List Effect :=
  match ctx.mcp_context.server_configs.find? (fun t => t.key = key) with
  | none => (ctx, [Effect.toolNotFound key])
  | some cfg =>
    if ¬ cfg.enabled then (ctx, [])
    else
      let ctx1 := mcpUpdateByKey ctx key (fun t => { t with state := MCPServerState.Stopping })
      if disableOk then
        (mcpUpdateByKey ctx1 key
          (fun t => { t with enabled := false, state := MCPServerState.Disabled }),
         [Effect.spawnDisableServer key])
      else
        (pushErr
          (mcpUpdateByKey ctx1 key (fun t => { t with state := MCPServerState.Error }))
          (ErrMsg.failedToDisableTool key),
         [Effect.spawnDisableServer key])

/-- The `ActionAddTool` arm: reject when any existing config (regardless of
id) already uses the key, pushing a user error and leaving the list
untouched; otherwise append the config with state forced to `Disabled` and,
when it arrives enabled, run `handle_enable_tool` (which finds the appended
config already flagged enabled and returns without work). -/
def add_tool_arm (enableOk : Bool) (tool : MCPServerConfig) (ctx : AppStateContext) :
    AppStateContext × List Effect :=
  if ctx.mcp_context.server_configs.any (fun existing => existing.key = tool.key) then
    (pushErr ctx (ErrMsg.duplicateToolKey tool.key), [])
  else
    let ctx1 := { ctx with mcp_context :=
        ⟨ctx.mcp_context.server_configs ++ [{ tool with state := MCPServerState.Disabled }]⟩ }
    if tool.enabled then handle_enable_tool enableOk tool.key ctx1
    else (ctx1, [])

/-- The `ActionUpdateTool` arm: reject when a config with a *different* id
already uses the key; otherwise, for a running tool set it `Stopping` and
(in the spawned thread) disable under the old key, swap in the new config,
and re-enable under the new key when requested; for a stopped tool swap the
config in place preserving its state; for an unknown id append it as a new
tool. -/
def update_tool_arm (disableOk enableOk : Bool) (tool : MCPServerConfig)
    (ctx : AppStateContext) : AppStateContext × List Effect :=
  if ctx.mcp_context.server_configs.any
      (fun existing => existing.key = tool.key && existing.id ≠ tool.id) then
    (pushErr ctx (ErrMsg.duplicateToolKey tool.key), [])
  else
    match ctx.mcp_context.server_configs.find? (fun existing => existing.id = tool.id) with
    | some existing =>
      if existing.enabled then
        let ctx1 := mcpUpdateById ctx tool.id
          (fun t => { t with state := MCPServerState.Stopping })
        let oldKey :=
          ((ctx1.mcp_context.server_configs.find? (fun t => t.id = tool.id)).map
            (fun t => t.key)).getD tool.key
        let newState :=
          if ¬ disableOk then MCPServerState.Error
          else if tool.enabled then MCPServerState.Starting
          else MCPServerState.Disabled
        let ctx2 := mcpUpdateById ctx1 tool.id (fun _ => { tool with state := newState })
        let ctx3 :=
          if tool.enabled then
            if enableOk then
              mcpUpdateById ctx2 tool.id (fun t => { t with state := MCPServerState.Enabled })
            else
              mcpUpdateById ctx2 tool.id (fun t => { t with state := MCPServerState.Error })
          else ctx2
        let ctx4 :=
          if tool.enabled && ¬ enableOk then
            pushErr ctx3 (ErrMsg.toolUpdateRestartFailed tool.key)
          else ctx3
        let ctx5 :=
          if ¬ disableOk then pushErr ctx4 (ErrMsg.toolUpdateUncleanShutdown tool.key)
          else ctx4
        (ctx5, Effect.spawnDisableServer oldKey ::
          (if tool.enabled then [Effect.spawnEnableServer tool.key] else []))
      else
        let ctx1 := mcpUpdateById ctx tool.id
          (fun existing0 => { tool with state := existing0.state })
        if tool.enabled then handle_enable_tool enableOk tool.key ctx1
        else (ctx1, [])
    | none =>
      let ctx1 := { ctx with mcp_context :=
          ⟨ctx.mcp_context.server_configs ++ [{ tool with state := MCPServerState.Disabled }]⟩ }
      if tool.enabled then handle_enable_tool enableOk tool.key ctx1
      else (ctx1, [])

/-- The `ActionDeleteTool` arm: a running tool is set `Stopping`, disabled
in a spawned thread, then removed by id; a stopped tool is removed
directly. -/
def delete_tool_arm (disableOk : Bool) (delId : String) (ctx : AppStateContext) :
    AppStateContext × List Effect :=
  match ctx.mcp_context.server_configs.find? (fun tool => tool.id = delId) with
  | some tool =>
    if tool.enabled then
      let ctx1 := mcpUpdateById ctx delId (fun t => { t with state := MCPServerState.Stopping })
      let ctx2 := { ctx1 with mcp_context :=
          ⟨ctx1.mcp_context.server_configs.filter (fun t => t.id ≠ delId)⟩ }
      let ctx3 :=
        if ¬ disableOk then pushErr ctx2 (ErrMsg.toolDeleteUncleanShutdown tool.key)
        else ctx2
      (ctx3, [Effect.spawnDisableServer tool.key])
    else
      ({ ctx with mcp_context :=
          ⟨ctx.mcp_context.server_configs.filter (fun t => t.id ≠ delId)⟩ }, [])
  | none => (ctx, [])

/-- One invocation of the `"mcp_processor"` listener
(`MCPProcessor::register_event_handlers`), with the async outcomes of the
spawned enable/disable operations supplied as booleans. -/
def mcpStep (disableOk enableOk : Bool) (ev : Event) (ctx : AppStateContext) :
    AppStateContext × List Effect :=
  match ev with
  | Event.ActionAddTool tool => add_tool_arm enableOk tool ctx
  | Event.ActionUpdateTool tool => update_tool_arm disableOk enableOk tool ctx
  | Event.ActionDeleteTool delId => delete_tool_arm disableOk delId ctx
  | Event.ActionDisableTool disId =>
    match ctx.mcp_context.server_configs.find? (fun tool => tool.id = disId) with
    | some tool => handle_disable_tool disableOk tool.key ctx
    | none => (ctx, [])
  | Event.ActionEnableTool enId =>
    match ctx.mcp_context.server_configs.find? (fun tool => tool.id = enId) with
    | some tool => handle_enable_tool enableOk tool.key ctx
    | none => (ctx, [])
  | _ => (ctx, [])

/-! ## Challenge processor (challenges.rs) -/

/-- The progress of a requirement, with `None` read as `0.0`
(`current_progress.unwrap_or(0.0)`). -/
def progVal (r : ChallengeRequirement) : Rat :=
  r.current_progress.getD 0

/-- A requirement still below its goal. -/
def reqIncomplete (r : ChallengeRequirement) : Bool :=
  progVal r < 1

/-- The inner `match (&requirement.event, &event, &requirement.condition)`
of `record_challenge_progress`: occurred-style pairs jump to `1.0`;
transcription success against a progress goal adds `word_count / target`
capped at `1.0`. -/
def applyReqUpdate (now : Nat) (event : Event) (req : ChallengeRequirement) :
    ChallengeRequirement :=
  match req.event, event, req.condition with
  | Event.CloseSettings, Event.CloseSettings, _
  | Event.ActionOpenSettingsFromTray, Event.ActionOpenSettingsFromTray, _
  | Event.ActionChangePersonaByVoice, Event.ActionChangePersonaByVoice, _
  | Event.ActionPersonaCycleNext, Event.ActionPersonaCycleNext, _
  | Event.ShortcutUpdate _, Event.ShortcutUpdate _, _
  | Event.ActionPersona, Event.ActionPersona, _
  | Event.ActionToggleRecordingWindowMinimized,
      Event.ActionToggleRecordingWindowMinimized, _
  | Event.ActionChangePersona _, Event.ActionChangePersona _, _ =>
    { req with current_progress := some 1, completed_at := some now }
  | Event.ActionTranscriptionSuccess _, Event.ActionTranscriptionSuccess text,
      ChallengeCondition.ProgressGoal target =>
    let wordCount : Rat := (rustSplitWhitespace text).length
    let current := req.current_progress.getD 0
    let newProgress := current + wordCount / target
    { req with
      current_progress := some (min newProgress 1)
      completed_at :=
        if 1 ≤ newProgress ∧ req.completed_at = none then some now else req.completed_at }
  | _, _, _ => req

/-- `record_challenge_progress`: for every not-yet-completed challenge,
advance only its first incomplete requirement. -/
def record_challenge_progress (now : Nat) (event : Event) (challenges : List Challenge) :
    List Challenge :=
  challenges.map (fun ch =>
    if ch.status = ChallengeStatus.Completed then ch
    else
      { ch with requirements :=
          updateFirstWhere reqIncomplete (applyReqUpdate now event) ch.requirements })

/-- `check_challenge_requirements`, status part: a not-yet-completed
challenge with some progress moves from `Available` to `InProgress`. -/
def checkChallengeStatuses (challenges : List Challenge) : List Challenge :=
  challenges.map (fun ch =>
    if ch.status = ChallengeStatus.Completed then ch
    else if ch.requirements.all (fun r => ¬ reqIncomplete r) then ch
    else if ch.status = ChallengeStatus.Available ∧
        ch.requirements.any (fun r => 0 < progVal r) then
      { ch with status := ChallengeStatus.InProgress }
    else ch)

/-- `check_challenge_requirements`, emission part: every not-yet-completed
challenge whose requirements are all met emits `ActionChallengeCompleted`. -/
def checkChallengeEmissions (challenges : List Challenge) : List ChallengeName :=
  (challenges.filter (fun ch =>
      ch.status ≠ ChallengeStatus.Completed &&
        ch.requirements.all (fun r => ¬ reqIncomplete r))).map (fun ch => ch.id)

/-- The `ActionChallengeCompleted` arm: mark the first challenge with the
given name completed. -/
def completeChallenge (now : Nat) (name : ChallengeName) (challenges : List Challenge) :
    List Challenge :=
  updateFirstWhere (fun ch => ch.id = name)
    (fun ch => { ch with status := ChallengeStatus.Completed, completed_at := some now })
    challenges

/-- One invocation of the `"challenges"` listener
(`ChallengeProcessor::start`): for the tracked events run
`record_challenge_progress` then `check_challenge_requirements`, returning
the updated challenge list and the emitted completion events; the
`ActionChallengeCompleted` arm applies the completion. -/
def challengeStep (now : Nat) (ev : Event) (challenges : List Challenge) :
    List Challenge × List ChallengeName :=
  match ev with
  | Event.CloseSettings
  | Event.ActionOpenSettingsFromTray
  | Event.ActionChangePersonaByVoice
  | Event.ActionTranscriptionSuccess _
  | Event.ActionPersona
  | Event.ActionChangePersona _
  | Event.ActionToggleRecordingWindowMinimized
  | Event.ActionPersonaCycleNext
  | Event.ShortcutUpdate _ =>
    let recorded := record_challenge_progress now ev challenges
    (checkChallengeStatuses recorded, checkChallengeEmissions recorded)
  | Event.ActionChallengeCompleted name => (completeChallenge now name challenges, [])
  | _ => (challenges, [])

/-! ## Audio fan-out (processor.rs) -/

/-- `Processor::process_audio_data`: call every registered audio listener
in order with a clone of the frame, but propagate the first listener error
with `?`, stopping the loop.  Returns the number of listeners that received
the frame together with the overall result. -/
def process_audio_data (listeners : List (List Int → Except String Unit))
    (data : List Int) : Nat × Except String Unit :=
  match listeners with
  | [] => (0, Except.ok ())
  | l :: rest =>
    match l data with
    | Except.error e => (1, Except.error e)
    | Except.ok () =>
      let (n, r) := process_audio_data rest data
      (n + 1, r)

/-! ## Remote-control protocol (websocket_server.rs) -/

/-- `websocket_server.rs::WebsocketServerConfig`. -/
structure WebsocketServerConfig where
  port : Nat
  password : Option String
deriving DecidableEq, Repr

/-- `websocket_server.rs::RemoteAction`. -/
inductive RemoteAction
  | ToggleRecording
  | ShowPersonas
  | CloseRecordingWindow
  | PersonaCycleEnd
  | PersonaCycleNext
  | TakeScreenshot
  | CopyText
  | ToggleMinimized
  | SwitchLanguage
deriving DecidableEq, Repr

/-- `websocket_server.rs::WebsocketCommand` (already parsed). -/
structure WebsocketCommand where
  action : RemoteAction
  password : Option String
deriving DecidableEq, Repr

/-- Response messages, abstracted to tags carrying the interpolated data. -/
inductive WsResponseMsg
  | invalidPayload (e : String)
  | invalidPassword
  | passwordRequired
  | executed (a : RemoteAction)
  | failed (a : RemoteAction) (e : String)
deriving DecidableEq, Repr

/-- `verify_password`: no configured password accepts anything; a
configured password requires an exact match. -/
def verify_password (config : WebsocketServerConfig) (provided : Option String) :
    Except WsResponseMsg Unit :=
  match config.password, provided with
  | none, _ => Except.ok ()
  | some expected, some actual =>
    if expected = actual then Except.ok () else Except.error WsResponseMsg.invalidPassword
  | some _, none => Except.error WsResponseMsg.passwordRequired

/-- The events each remote action translates to (in dispatch order). -/
def eventsForAction : RemoteAction → List Event
  | RemoteAction.ToggleRecording =>
    [Event.ActionResetRecordingShortcutTimer, Event.ActionRecording]
  | RemoteAction.ShowPersonas => [Event.ActionPersona]
  | RemoteAction.CloseRecordingWindow => [Event.ActionCloseRecordingWindow]
  | RemoteAction.PersonaCycleEnd => [Event.ActionPersonaCycleEnd]
  | RemoteAction.PersonaCycleNext => [Event.ActionPersonaCycleNext]
  | RemoteAction.TakeScreenshot => [Event.ActionScreenshot]
  | RemoteAction.CopyText => [Event.ActionCopyText]
  | RemoteAction.ToggleMinimized => [Event.ActionToggleRecordingWindowMinimized]
  | RemoteAction.SwitchLanguage => [Event.ActionSwitchToNextPreferredLanguage]

/-- Dispatch a sequence of events through `Processor::process_event`
(modelled by `send`), stopping at the first failure as the `?` operator
does.  Returns the result and the events actually handed to the bus. -/
def sendSeq (send : Event → Except String Unit) : List Event → Except String Unit × List Event
  | [] => (Except.ok (), [])
  | e :: rest =>
    match send e with
    | Except.error err => (Except.error err, [])
    | Except.ok () =>
      let (r, ds) := sendSeq send rest
      (r, e :: ds)

/-- `execute_action`: translate the action into its event dispatches. -/
def execute_action (send : Event → Except String Unit) (a : RemoteAction) :
    Except String Unit × List Event :=
  sendSeq send (eventsForAction a)

/-- `process_message`: parse (the parse result is supplied), verify the
password against the server config, then execute the action, reporting
per-action success or failure.  The second component lists the events
dispatched to the bus. -/
def process_message (config : WebsocketServerConfig)
    (parsed : Except String WebsocketCommand) (send : Event → Except String Unit) :
    (Bool × WsResponseMsg) × List Event :=
  match parsed with
  | Except.error err => ((false, WsResponseMsg.invalidPayload err), [])
  | Except.ok command =>
    match verify_password config command.password with
    | Except.error m => ((false, m), [])
    | Except.ok () =>
      let (r, dispatched) := execute_action send command.action
      match r with
      | Except.ok () => ((true, WsResponseMsg.executed command.action), dispatched)
      | Except.error e => ((false, WsResponseMsg.failed command.action e), dispatched)

/-- `state.rs::DEFAULT_WEBSOCKET_PORT`. -/
def DEFAULT_WEBSOCKET_PORT : Nat := 4456

/-- `AppState::update_websocket_server_settings_fn`: store the settings,
replacing port `0` with the default port and blank passwords with `None`. -/
def update_websocket_server_settings_fn (ctx : AppStateContext)
    (settings : WebsocketServerSettingsPayload) : AppStateContext :=
  { ctx with websocket_server_context :=
      { enabled := settings.enabled
        port := if settings.port = 0 then DEFAULT_WEBSOCKET_PORT else settings.port
        password := settings.password.filter (fun value => ¬ rustTrim value = "") } }

/-! ## Persisted dump and migrations (state.rs)

`AppStateContextDump` is modelled with exactly the fields the migration
pipeline reads or writes; the remaining dump fields are never touched by
any migration and are carried through unchanged by construction. -/

/-- `models.rs::TranscriptionProvider`. -/
inductive TranscriptionProvider
  | OpenAI
  | Mistral
  | WhisperLocal
deriving DecidableEq, Repr

/-- `models.rs::TranscriptionModel`, trimmed to the fields the migrations
read or write (the numeric size/speed fields and the download state are
untouched by every migration). -/
structure TranscriptionModel where
  name : String
  model : String
  provider : TranscriptionProvider
  is_local : Bool
deriving DecidableEq, Repr

/-- `state.rs::ModelsContextDump`, transcription part. -/
structure ModelsContextDump where
  transcription_models : List TranscriptionModel
deriving DecidableEq, Repr

/-- `state.rs::PersonasContextDump`. -/
structure PersonasContextDump where
  personas : List Persona
deriving DecidableEq, Repr

/-- `state.rs::ChallengeContextDump`. -/
structure ChallengeContextDump where
  challenges : List Challenge
deriving DecidableEq, Repr

/-- `state.rs::AppStateContextDump`, restricted to the fields the four
migrations touch. -/
structure AppStateContextDump where
  shortcuts : Shortcuts
  transcription_model : Option String
  personas_context : PersonasContextDump
  challenge_context : ChallengeContextDump
  models_context : ModelsContextDump
deriving DecidableEq, Repr

/-- `challenges.rs::create_customize_shortcuts_challenge`. -/
def create_customize_shortcuts_challenge : Challenge :=
  { id := ChallengeName.CustomizeShortcuts
    title := "Keyboard Customization"
    description := "Personalize your experience by customizing keyboard shortcuts in settings."
    status := ChallengeStatus.Available
    requirements :=
      [{ event := Event.ShortcutUpdate shortcutsDefault
         condition := ChallengeCondition.Occurred
         current_progress := some 0
         completed_at := none }]
    completed_at := none }

/-- `AddCustomizeShortcutsChallengeMigration::apply`. -/
def migAddCustomizeShortcutsChallenge (d : AppStateContextDump) :
    AppStateContextDump × Bool :=
  if d.challenge_context.challenges.any
      (fun ch => ch.id = ChallengeName.CustomizeShortcuts) then (d, false)
  else
    ({ d with challenge_context :=
        ⟨d.challenge_context.challenges ++ [create_customize_shortcuts_challenge]⟩ }, true)

/-- `MigrateSinglePersonaShortcut::apply`. -/
def migSinglePersonaShortcut (d : AppStateContextDump) : AppStateContextDump × Bool :=
  if d.shortcuts.personas.length = 1 then
    ({ d with shortcuts := { d.shortcuts with personas := shortcutsDefault.personas } }, true)
  else (d, false)

/-- The scan of `MigratePersonasDuplicatedId::apply`: `seen` collects the
ids inserted into the hash set so far, `used` counts the fresh UUIDs drawn
from the supply `fresh`.  A persona whose id was already seen gets the next
fresh id (which, as in the Rust, is *not* added to the seen set). -/
def mig3Go (fresh : Nat → String) : List Persona → List String → Nat → List Persona × Bool
  | [], _, _ => ([], false)
  | p :: ps, seen, used =>
    if p.id ∈ seen then
      let (rest, _) := mig3Go fresh ps seen (used + 1)
      ({ p with id := fresh used } :: rest, true)
    else
      let (rest, m) := mig3Go fresh ps (seen ++ [p.id]) used
      (p :: rest, m)

/-- `MigratePersonasDuplicatedId::apply`, with `Uuid::new_v4` supplied as
the fresh-id function. -/
def migPersonasDuplicatedId (fresh : Nat → String) (d : AppStateContextDump) :
    AppStateContextDump × Bool :=
  let (ps, m) := mig3Go fresh d.personas_context.personas [] 0
  ({ d with personas_context := ⟨ps⟩ }, m)

/-- The per-model body of `MigrateTranscriptionModelIds::apply`: first fix
a defaulted `WhisperLocal` provider on a non-local model, then rename the
old cloud model ids. -/
def mig4Model (m : TranscriptionModel) : TranscriptionModel × Bool :=
  let fix1 :=
    if m.provider = TranscriptionProvider.WhisperLocal ∧ m.is_local = false then
      let correct :=
        if m.model = "use_openai" ∨ m.model = "whisper-1" then
          TranscriptionProvider.OpenAI
        else if m.model = "use_mistral" ∨ m.model = "voxtral-mini-2507" then
          TranscriptionProvider.Mistral
        else if rustEndsWith m.model ".bin" then TranscriptionProvider.WhisperLocal
        else TranscriptionProvider.OpenAI
      ({ m with provider := correct }, true)
    else (m, false)
  let m1 := fix1.1
  if m1.model = "use_openai" then
    ({ m1 with model := "whisper-1", provider := TranscriptionProvider.OpenAI }, true)
  else if m1.model = "use_mistral" then
    ({ m1 with model := "voxtral-mini-2507", provider := TranscriptionProvider.Mistral }, true)
  else (m1, fix1.2)

/-- `MigrateTranscriptionModelIds::apply`. -/
def migTranscriptionModelIds (d : AppStateContextDump) : AppStateContextDump × Bool :=
  let selected :=
    match d.transcription_model with
    | some t =>
      if t = "use_openai" then (some "whisper-1", true)
      else if t = "use_mistral" then (some "voxtral-mini-2507", true)
      else (some t, false)
    | none => (none, false)
  let pairs := d.models_context.transcription_models.map mig4Model
  ({ d with
      transcription_model := selected.1
      models_context := ⟨pairs.map (fun pr => pr.1)⟩ },
   selected.2 || pairs.any (fun pr => pr.2))

/-- `state.rs::run_migrations`: the fixed ordered pipeline (the returned
booleans are only logged). -/
def run_migrations (fresh : Nat → String) (d : AppStateContextDump) : AppStateContextDump :=
  (migTranscriptionModelIds
    (migPersonasDuplicatedId fresh
      (migSinglePersonaShortcut
        (migAddCustomizeShortcutsChallenge d).1).1).1).1

/-! ## JSON documents, `json_patch::diff` and patch application (state.rs)

`AppState::notify_subscribers` serializes the before/after contexts with
`serde_json` (whose maps are ordered by key) and diffs them with
`json_patch::diff`, an RFC 6902 structural diff: objects are compared key
by key (recurse on shared keys, remove left-only keys, add right-only
keys), arrays are compared index by index on the common prefix with the
left-only tail removed and the right-only tail appended, and any other
mismatch is a whole-value replace. -/

/-- A JSON document (`serde_json::Value`; numbers modelled as integers,
object maps as key-sorted association lists). -/
inductive Json where
  | null
  | bool (b : Bool)
  | num (n : Int)
  | str (s : String)
  | arr (elems : List Json)
  | obj (fields : List (String × Json))

mutual

/-- Structural equality on documents (`PartialEq` on `serde_json::Value`). -/
def Json.beq : Json → Json → Bool
  | Json.null, Json.null => true
  | Json.bool a, Json.bool b => a = b
  | Json.num a, Json.num b => a = b
  | Json.str a, Json.str b => a = b
  | Json.arr xs, Json.arr ys => Json.beqList xs ys
  | Json.obj fs, Json.obj gs => Json.beqFields fs gs
  | _, _ => false

/-- Elementwise equality of element lists. -/
def Json.beqList : List Json → List Json → Bool
  | [], [] => true
  | x :: xs, y :: ys => Json.beq x y && Json.beqList xs ys
  | _, _ => false

/-- Elementwise equality of field lists. -/
def Json.beqFields : List (String × Json) → List (String × Json) → Bool
  | [], [] => true
  | (k, v) :: fs, (k2, v2) :: gs => k = k2 && Json.beq v v2 && Json.beqFields fs gs
  | _, _ => false

end

/-- One step of an RFC 6902 JSON pointer. -/
inductive PathStep
  | key (k : String)
  | idx (i : Nat)
deriving DecidableEq, Repr

/-- An RFC 6902 pointer, root first. -/
abbrev PatchPath := List PathStep

/-- An RFC 6902 patch operation (`json_patch::PatchOperation`; `diff` only
emits add, remove and replace). -/
inductive PatchOp
  | add (path : PatchPath) (value : Json)
  | remove (path : PatchPath)
  | replace (path : PatchPath) (value : Json)

/-- Push an operation one level down the tree. -/
def prefixOp (st : PathStep) : PatchOp → PatchOp
  | PatchOp.add p v => PatchOp.add (st :: p) v
  | PatchOp.remove p => PatchOp.remove (st :: p)
  | PatchOp.replace p v => PatchOp.replace (st :: p) v

/-- Map lookup on an object's fields (`serde_json::Map::get`). -/
def getField? (fields : List (String × Json)) (k : String) : Option Json :=
  (fields.find? (fun kv => kv.1 = k)).map (fun kv => kv.2)

/-- The add operations `diff` emits for the keys present only on the right. -/
def diffObjR (lf rf : List (String × Json)) : List PatchOp :=
  rf.filterMap (fun kv =>
    if (getField? lf kv.1).isSome then none
    else some (PatchOp.add [PathStep.key kv.1] kv.2))

/-- The removals and appends `diff` emits for the array tails beyond the
common prefix: the left-only tail is removed (each removal at the first
out-of-range index), the right-only tail is appended in order. -/
def arrTailOps (la ra : List Json) : List PatchOp :=
  let common := min la.length ra.length
  List.replicate (la.length - common) (PatchOp.remove [PathStep.idx common]) ++
    ((ra.drop common).enum.map (fun iv => PatchOp.add [PathStep.idx (common + iv.1)] iv.2))

mutual

/-- `json_patch::diff`. -/
def Json.diff : Json → Json → List PatchOp
  | Json.obj lf, Json.obj rf => Json.diffFieldsL lf rf ++ diffObjR lf rf
  | Json.arr la, Json.arr ra => Json.diffElems 0 la ra ++ arrTailOps la ra
  | l, r => if Json.beq l r then [] else [PatchOp.replace [] r]

/-- The left-to-right pass over the left object's fields: recurse on keys
the right also has, remove keys it lacks. -/
def Json.diffFieldsL : List (String × Json) → List (String × Json) → List PatchOp
  | [], _ => []
  | (k, lv) :: rest, rf =>
    (match getField? rf k with
     | some rv => (Json.diff lv rv).map (prefixOp (PathStep.key k))
     | none => [PatchOp.remove [PathStep.key k]]) ++ Json.diffFieldsL rest rf

/-- The indexwise pass over the common prefix of two arrays. -/
def Json.diffElems : Nat → List Json → List Json → List PatchOp
  | _, [], _ => []
  | _, _ :: _, [] => []
  | i, x :: xs, y :: ys =>
    (Json.diff x y).map (prefixOp (PathStep.idx i)) ++ Json.diffElems (i + 1) xs ys

end

/-- Rewrite the value under key `k`, failing when the key is absent or the
rewrite fails. -/
def updateFieldWith (k : String) (f : Json → Option Json) :
    List (String × Json) → Option (List (String × Json))
  | [] => none
  | (k2, v) :: rest =>
    if k2 = k then (f v).map (fun v2 => (k2, v2) :: rest)
    else (updateFieldWith k f rest).map (fun rest2 => (k2, v) :: rest2)

/-- Rewrite the element at index `i`, failing when out of range or when the
rewrite fails. -/
def updateNthWith (f : Json → Option Json) : Nat → List Json → Option (List Json)
  | _, [] => none
  | 0, x :: rest => (f x).map (fun x2 => x2 :: rest)
  | n + 1, x :: rest => (updateNthWith f n rest).map (fun rest2 => x :: rest2)

/-- Lexicographic order on character lists (Rust's `Ord` on `String`,
restricted as elsewhere to scalar-value comparison). -/
def charsLtB : List Char → List Char → Bool
  | [], [] => false
  | [], _ :: _ => true
  | _ :: _, [] => false
  | a :: as, b :: bs =>
    if a.toNat < b.toNat then true
    else if b.toNat < a.toNat then false
    else charsLtB as bs

/-- Lexicographic order on strings. -/
def strLtB (a b : String) : Bool := charsLtB a.data b.data

/-- Key-sorted insert-or-replace into an object's fields
(`serde_json::Map::insert` on the key-ordered map). -/
def insertKey (k : String) (v : Json) : List (String × Json) → List (String × Json)
  | [] => [(k, v)]
  | (k2, v2) :: rest =>
    if k = k2 then (k, v) :: rest
    else if strLtB k k2 then (k, v) :: (k2, v2) :: rest
    else (k2, v2) :: insertKey k v rest

/-- Insert before index `i` (RFC 6902 array add; `i` = length appends). -/
def insertAt (v : Json) : Nat → List Json → List Json
  | 0, l => v :: l
  | _ + 1, [] => [v]
  | n + 1, x :: xs => x :: insertAt v n xs

/-- RFC 6902 `replace`. -/
def applyReplace : PatchPath → Json → Json → Option Json
  | [], v, _ => some v
  | PathStep.key k :: rest, v, Json.obj fs =>
    (updateFieldWith k (applyReplace rest v) fs).map Json.obj
  | PathStep.idx i :: rest, v, Json.arr xs =>
    (updateNthWith (applyReplace rest v) i xs).map Json.arr
  | _, _, _ => none

/-- RFC 6902 `remove`. -/
def applyRemove : PatchPath → Json → Option Json
  | [], _ => none
  | [PathStep.key k], Json.obj fs =>
    if fs.any (fun kv => kv.1 = k) then
      some (Json.obj (fs.filter (fun kv => kv.1 ≠ k)))
    else none
  | PathStep.key k :: rest, Json.obj fs =>
    (updateFieldWith k (applyRemove rest) fs).map Json.obj
  | [PathStep.idx i], Json.arr xs =>
    if i < xs.length then some (Json.arr (xs.eraseIdx i)) else none
  | PathStep.idx i :: rest, Json.arr xs =>
    (updateNthWith (applyRemove rest) i xs).map Json.arr
  | _, _ => none

/-- RFC 6902 `add`. -/
def applyAdd : PatchPath → Json → Json → Option Json
  | [], v, _ => some v
  | [PathStep.key k], v, Json.obj fs => some (Json.obj (insertKey k v fs))
  | PathStep.key k :: rest, v, Json.obj fs =>
    (updateFieldWith k (applyAdd rest v) fs).map Json.obj
  | [PathStep.idx i], v, Json.arr xs =>
    if i ≤ xs.length then some (Json.arr (insertAt v i xs)) else none
  | PathStep.idx i :: rest, v, Json.arr xs =>
    (updateNthWith (applyAdd rest v) i xs).map Json.arr
  | _, _, _ => none

/-- Apply one operation (`json_patch::patch`, per-operation case). -/
def applyOp : PatchOp → Json → Option Json
  | PatchOp.add p v, doc => applyAdd p v doc
  | PatchOp.remove p, doc => applyRemove p doc
  | PatchOp.replace p v, doc => applyReplace p v doc

/-- Apply a whole patch document in order (`json_patch::patch`). -/
def applyPatch : List PatchOp → Json → Option Json
  | [], doc => some doc
  | op :: rest, doc =>
    match applyOp op doc with
    | some d2 => applyPatch rest d2
    | none => none

/-- Strictly increasing keys in a field list. -/
def sortedKeys : List (String × Json) → Bool
  | [] => true
  | [_] => true
  | (k1, _) :: (k2, v2) :: rest => strLtB k1 k2 && sortedKeys ((k2, v2) :: rest)

mutual

/-- A document as `serde_json` produces it: every object's keys strictly
sorted. -/
def Json.canonical : Json → Bool
  | Json.null => true
  | Json.bool _ => true
  | Json.num _ => true
  | Json.str _ => true
  | Json.arr xs => Json.canonicalList xs
  | Json.obj fs => sortedKeys fs && Json.canonicalFields fs

/-- All elements canonical. -/
def Json.canonicalList : List Json → Bool
  | [] => true
  | x :: xs => Json.canonical x && Json.canonicalList xs

/-- All field values canonical. -/
def Json.canonicalFields : List (String × Json) → Bool
  | [] => true
  | (_, v) :: fs => Json.canonical v && Json.canonicalFields fs

end

/-- `state.rs::AppStateChannelMessage`, over serialized documents. -/
inductive JsonChannelMessage
  | FullState (context : Json)
  | Patch (patch : List PatchOp)

/-- `AppState::notify_subscribers`: diff the serialized before/after
contexts and, unless the diff is empty, send it to every subscriber. -/
def notify_subscribers (previousContext newContext : Json) (subscribers : List Nat) :
    List (Nat × JsonChannelMessage) :=
  let d := Json.diff previousContext newContext
  if d.isEmpty then []
  else subscribers.map (fun s => (s, JsonChannelMessage.Patch d))

/-- `AppState::update_self`: snapshot, apply the closure, notify with the
serialized before/after pair (persistence is debounced file I/O, out of
scope). -/
def update_self (toJson : γ → Json) (f : γ → γ) (ctx : γ) (subs : List Nat) :
    γ × List (Nat × JsonChannelMessage) :=
  (f ctx, notify_subscribers (toJson ctx) (toJson (f ctx)) subs)

/-! ## Sample values used by concrete witnesses -/

/-- An empty conversation context. -/
def emptyConvCtx : ConversationContext :=
  { dictionary := [], replacements := [], transcription_text := ""
    current_audio_file_path := none, conversation := []
    state := ConversationState.Idle, copy_text_state := CopyTextState.Idle
    screenshot_state := ScreenshotState.Idle, pending_tool_call_ids := [] }

/-- The default Translator persona (personas.rs), trimmed to its prompt
fields. -/
def translatorPersona : Persona :=
  { id := "f937a37d-c689-4872-a534-ba1a312f7897", name := "Translator"
    system_prompt := "You are a professional language translator."
    description := "Translate text from any source language into French."
    voice_command := "hey translate", paste_on_finish := true
    icon := some "globe", record_output_audio := false, examples := [] }

/-- A base application context for witnesses. -/
def baseCtx : AppStateContext :=
  { errors := [], input_device := none
    transcription_model := some "whisper-1", conversation_model := some "gpt-4.1-mini"
    active_persona := some translatorPersona
    personas_context := ⟨[translatorPersona]⟩
    conversation_context := emptyConvCtx
    history_context := ⟨[], none⟩
    challenge_context := ⟨[]⟩
    mcp_context := ⟨[]⟩
    websocket_server_context := ⟨false, 4456, none⟩ }

/-! ## Theorems -/

theorem findIdx?_some_lt {p : α → Bool} :
    ∀ {l : List α} {i : Nat}, l.findIdx? p = some i → i < l.length := by
  intro l
  induction l with
  | nil => intro i h; simp [List.findIdx?] at h
  | cons x xs ih =>
    intro i h
    rw [List.findIdx?_cons] at h
    by_cases hp : p x
    · simp [hp] at h
      simp only [List.length_cons]
      omega
    · simp [hp] at h
      obtain ⟨j, hj, rfl⟩ := h
      have := ih hj
      simp
      omega

/-- C7, claim as stated is false: with two registered sinks of which the
first returns an error, `process_audio_data` delivers the frame to only one
of the two sinks — the first sink's error prevents the second sink from
receiving the frame. -/
theorem C7_counterexample :
    process_audio_data
        [fun _ => Except.error "boom", fun _ => Except.ok ()] [0] =
      (1, Except.error "boom") ∧
    (1 : Nat) ≠ 2 := by
  constructor
  · rfl
  · decide

/-- C7 amended: `process_audio_data` delivers the frame to the registered
sinks in order, stopping at the first sink that returns an error; in
particular when every sink accepts the frame, all of them receive it and
the call succeeds. -/
theorem C7_all_ok_delivers_to_all (listeners : List (List Int → Except String Unit))
    (data : List Int) (h : ∀ l ∈ listeners, l data = Except.ok ()) :
    process_audio_data listeners data = (listeners.length, Except.ok ()) := by
  induction listeners with
  | nil => rfl
  | cons l rest ih =>
    have hl : l data = Except.ok () := h l (by simp)
    have hrest := ih (fun x hx => h x (by simp [hx]))
    simp [process_audio_data, hl, hrest]

/-- Witness for C7's amended theorem at two concrete accepting sinks. -/
theorem C7_witness :
    process_audio_data [fun _ => Except.ok (), fun _ => Except.ok ()] [1] =
      (2, Except.ok ()) := by
  have := C7_all_ok_delivers_to_all
    [fun _ => Except.ok (), fun _ => Except.ok ()] [1]
    (by
      intro l hl
      rcases List.mem_cons.mp hl with rfl | hl2
      · rfl
      · rcases List.mem_cons.mp hl2 with rfl | h2
        · rfl
        · cases h2)
  simpa using this

/-- C9: deleting the persona that is currently active removes it from the
personas list (the first entry with that id) but leaves `active_persona`
and every other modelled field of the context untouched — a stale value
copy remains. -/
theorem C9_delete_persona_frame (freshId delId : String) (ctx : AppStateContext)
    (hex : ∃ p ∈ ctx.personas_context.personas, p.id = delId) :
    let res := personasStep freshId (Event.ActionDeletePersona delId) ctx
    res.1.active_persona = ctx.active_persona ∧
    res.1.errors = ctx.errors ∧
    res.1.input_device = ctx.input_device ∧
    res.1.transcription_model = ctx.transcription_model ∧
    res.1.conversation_model = ctx.conversation_model ∧
    res.1.conversation_context = ctx.conversation_context ∧
    res.1.history_context = ctx.history_context ∧
    res.1.challenge_context = ctx.challenge_context ∧
    res.1.mcp_context = ctx.mcp_context ∧
    res.1.websocket_server_context = ctx.websocket_server_context ∧
    res.2 = [] ∧
    ∃ i, ctx.personas_context.personas.findIdx? (fun q => q.id = delId) = some i ∧
      res.1.personas_context.personas = ctx.personas_context.personas.eraseIdx i ∧
      res.1.personas_context.personas.length + 1 =
        ctx.personas_context.personas.length := by
  obtain ⟨p, hp, hpid⟩ := hex
  have hsome : (ctx.personas_context.personas.findIdx? (fun q => q.id = delId)).isSome := by
    rw [List.findIdx?_isSome, List.any_eq_true]
    exact ⟨p, hp, by simp [hpid]⟩
  obtain ⟨i, hi⟩ := Option.isSome_iff_exists.mp hsome
  have hlt : i < ctx.personas_context.personas.length := findIdx?_some_lt hi
  refine ⟨?_, ?_, ?_, ?_, ?_, ?_, ?_, ?_, ?_, ?_, ?_, i, hi, ?_, ?_⟩ <;>
    simp [personasStep, hi, List.length_eraseIdx, hlt, Nat.succ_pred_eq_of_pos]
  omega

/-- Witness for C9 at a concrete context whose active persona is the one
deleted. -/
theorem C9_witness :
    (personasStep "fresh" (Event.ActionDeletePersona translatorPersona.id)
        baseCtx).1.active_persona = baseCtx.active_persona ∧
    (personasStep "fresh" (Event.ActionDeletePersona translatorPersona.id)
        baseCtx).1.personas_context.personas = [] := by
  have h := C9_delete_persona_frame "fresh" translatorPersona.id baseCtx
    ⟨translatorPersona, by simp [baseCtx], rfl⟩
  refine ⟨h.1, ?_⟩
  obtain ⟨i, hi, herase, _⟩ := h.2.2.2.2.2.2.2.2.2.2.2
  have : i = 0 := by
    have : baseCtx.personas_context.personas.findIdx? (fun q => q.id = translatorPersona.id)
        = some 0 := by decide
    rw [this] at hi
    exact (Option.some_injective _ hi).symm
  subst this
  simpa [baseCtx] using herase

/-- C10: an inbound remote-control message with a configured server
password but an absent or different provided password dispatches no event
and reports failure; with no configured password or a matching one, the
action's events are dispatched in order and the response reports the
dispatch outcome; and applying websocket settings stores port 4456 for a
requested port of 0 and drops blank passwords to `None`. -/
theorem C10_remote_control (config : WebsocketServerConfig)
    (command : WebsocketCommand) (send : Event → Except String Unit) :
    ((∀ pw, config.password = some pw →
        (command.password = none ∨ ∃ q, command.password = some q ∧ q ≠ pw) →
        (process_message config (Except.ok command) send).2 = [] ∧
        (process_message config (Except.ok command) send).1.1 = false) ∧
     ((config.password = none ∨ config.password = command.password) →
        ((∀ e, send e = Except.ok ()) →
          process_message config (Except.ok command) send =
            ((true, WsResponseMsg.executed command.action),
             eventsForAction command.action)) ∧
        ((process_message config (Except.ok command) send).1.1 = true ↔
          (execute_action send command.action).1 = Except.ok ()))) ∧
    (∀ (ctx : AppStateContext) (settings : WebsocketServerSettingsPayload),
      (update_websocket_server_settings_fn ctx settings).websocket_server_context.enabled =
        settings.enabled ∧
      (update_websocket_server_settings_fn ctx settings).websocket_server_context.port =
        (if settings.port = 0 then 4456 else settings.port) ∧
      ((update_websocket_server_settings_fn ctx settings).websocket_server_context.password
          = none ↔
        (settings.password = none ∨ ∃ s, settings.password = some s ∧ rustTrim s = ""))) := by
  constructor
  · constructor
    · intro pw hpw hbad
      rcases hbad with hnone | ⟨q, hq, hne⟩
      · simp [process_message, verify_password, hpw, hnone]
      · simp [process_message, verify_password, hpw, hq, Ne.symm hne]
    · intro hok
      have hverify : verify_password config command.password = Except.ok () := by
        rcases hok with h | h
        · simp [verify_password, h]
        · cases hcp : config.password with
          | none => simp [verify_password, hcp]
          | some pw =>
            rw [hcp] at h
            simp [verify_password, hcp, ← h]
      constructor
      · intro hsend
        have hseq : ∀ evs, sendSeq send evs = (Except.ok (), evs) := by
          intro evs
          induction evs with
          | nil => rfl
          | cons e rest ih => simp [sendSeq, hsend e, ih]
        simp [process_message, hverify, execute_action, hseq]
      · simp only [process_message, hverify]
        cases hx : execute_action send command.action with
        | mk r ds => cases r <;> simp [hx]
  · intro ctx settings
    refine ⟨rfl, rfl, ?_⟩
    cases hs : settings.password with
    | none => simp [update_websocket_server_settings_fn, hs]
    | some s =>
      by_cases ht : rustTrim s = "" <;>
        simp [update_websocket_server_settings_fn, hs, Option.filter, ht]

/-- Witness for C10: a configured password with a wrong attempt dispatches
nothing; a matching attempt dispatches the action's events. -/
theorem C10_witness :
    (process_message ⟨4456, some "secret"⟩
        (Except.ok ⟨RemoteAction.CopyText, some "wrong"⟩)
        (fun _ => Except.ok ())).2 = [] ∧
    process_message ⟨4456, some "secret"⟩
        (Except.ok ⟨RemoteAction.ToggleRecording, some "secret"⟩)
        (fun _ => Except.ok ()) =
      ((true, WsResponseMsg.executed RemoteAction.ToggleRecording),
       [Event.ActionResetRecordingShortcutTimer, Event.ActionRecording]) ∧
    (update_websocket_server_settings_fn baseCtx
        ⟨true, 0, some "  "⟩).websocket_server_context.port = 4456 := by
  refine ⟨?_, ?_, ?_⟩
  · exact ((C10_remote_control ⟨4456, some "secret"⟩
      ⟨RemoteAction.CopyText, some "wrong"⟩ (fun _ => Except.ok ())).1.1 "secret" rfl
      (Or.inr ⟨"wrong", rfl, by decide⟩)).1
  · exact ((C10_remote_control ⟨4456, some "secret"⟩
      ⟨RemoteAction.ToggleRecording, some "secret"⟩ (fun _ => Except.ok ())).1.2
      (Or.inr rfl)).1 (fun _ => rfl)
  · have := ((C10_remote_control ⟨4456, some "secret"⟩
      ⟨RemoteAction.CopyText, none⟩ (fun _ => Except.ok ())).2 baseCtx
      ⟨true, 0, some "  "⟩).2.1
    simpa using this

theorem start_transformation_pending (env : ConvEnv) (ctx : AppStateContext)
    (text : String) (tcx : TransformationContext) :
    (start_transformation env ctx text tcx).1.conversation_context.pending_tool_call_ids
      = [] := by
  unfold start_transformation
  cases hp : ctx.active_persona <;> cases hm : ctx.conversation_model <;>
    simp [hp, hm] <;> split <;> simp

theorem tool_call_result_arm_spawn (ctx : AppStateContext) (r : ToolCallResult) :
    Effect.spawnModelCall ∈ (tool_call_result_arm ctx r).2 →
    (tool_call_result_arm ctx r).1.conversation_context.pending_tool_call_ids = [] := by
  intro hm
  by_cases hidle : ctx.conversation_context.state = ConversationState.Idle
  · simp [tool_call_result_arm, hidle] at hm
  · by_cases hpend : List.filter (fun id => !decide (id = r.tool_call_id))
        ctx.conversation_context.pending_tool_call_ids = []
    · cases hcm : ctx.conversation_model with
      | none => simp [tool_call_result_arm, hidle, hpend, hcm] at hm
      | some m =>
        simp [tool_call_result_arm, hidle, hpend, hcm, List.isEmpty_iff]
    · simp [tool_call_result_arm, hidle, List.isEmpty_iff, hpend] at hm

theorem tool_call_arm_no_model_spawn (env : ConvEnv) (ctx : AppStateContext)
    (tc : ChunkToolCall) : Effect.spawnModelCall ∉ (tool_call_arm env ctx tc).2 := by
  unfold tool_call_arm
  dsimp only
  repeat' split
  all_goals simp

theorem transformation_success_arm_no_model_spawn (ctx : AppStateContext) :
    Effect.spawnModelCall ∉ (transformation_success_arm ctx).2 := by
  unfold transformation_success_arm
  dsimp only
  repeat' split
  all_goals simp

theorem add_chunk_no_model_spawn (now : Nat) (c : ConversationContext) (chunk : String) :
    Effect.spawnModelCall ∉ (add_chunk now c chunk).2 := by
  unfold add_chunk
  repeat' split
  all_goals simp

theorem start_transcription_step_no_model_spawn (ctx : AppStateContext) :
    Effect.spawnModelCall ∉ Effect.stopRecordingCmd :: (start_transcription_step ctx).2 := by
  unfold start_transcription_step
  repeat' split
  all_goals simp

set_option maxHeartbeats 2000000 in
/-- C1: whenever one invocation of the conversation listener spawns a new
chat-completion turn, the pending tool-call id list of the resulting state
is empty — the model is never re-invoked while `pending_tool_call_ids` is
non-empty, and in the `ActionTransformationToolCallResult` arm the next
model call is only spawned after the arriving id has been removed and the
list has emptied. -/
theorem C1_no_model_call_while_pending (env : ConvEnv) (ev : Event)
    (ctx : AppStateContext)
    (hm : Effect.spawnModelCall ∈ (convStep env ev ctx).2) :
    (convStep env ev ctx).1.conversation_context.pending_tool_call_ids = [] := by
  cases ev <;> cases hstate : ctx.conversation_context.state <;>
    simp only [convStep, hstate] at hm ⊢ <;>
    first
      | (simp at hm; done)
      | exact tool_call_result_arm_spawn _ _ hm
      | exact absurd hm (tool_call_arm_no_model_spawn _ _ _)
      | exact absurd hm (transformation_success_arm_no_model_spawn _)
      | exact absurd hm (add_chunk_no_model_spawn env.now ctx.conversation_context _)
      | exact absurd hm (start_transcription_step_no_model_spawn ctx)
      | exact start_transformation_pending env _ _ _
      | (simp [start_recording] at hm; done)
      | (simp [cancel_recording] at hm; done)
      | (((repeat' split at hm) <;> simp at hm); done)

/-- Witness for C1: a tool-call result arriving for the single pending id
spawns the next model call with the pending list emptied. -/
theorem C1_witness :
    (convStep ⟨0, "a.wav", none⟩
        (Event.ActionTransformationToolCallResult ⟨"call-1", "ok", 0⟩)
        { baseCtx with conversation_context :=
            { emptyConvCtx with
              state := ConversationState.Transforming
              pending_tool_call_ids := ["call-1"] } }).1.conversation_context.pending_tool_call_ids
      = [] :=
  C1_no_model_call_while_pending _ _ _ (by decide)

theorem start_transformation_spec (env : ConvEnv) (c : AppStateContext) (t : String)
    (tcx : TransformationContext) :
    (start_transformation env c t tcx).1.active_persona = c.active_persona ∧
    (start_transformation env c t tcx).1.conversation_model = c.conversation_model ∧
    (start_transformation env c t tcx).1.conversation_context.state =
      (if c.active_persona.isNone || c.conversation_model.isNone
       then ConversationState.Idle else ConversationState.Transforming) ∧
    (start_transformation env c t tcx).1.conversation_context.conversation.getLast? =
      some (ConversationMessage.textMsg
        ⟨(if tcx.is_text_message then none
          else c.conversation_context.current_audio_file_path),
         "user", [MsgContent.text t], env.now⟩) ∧
    ((c.active_persona.isNone || c.conversation_model.isNone) = true →
      Effect.pasteText t ∈ (start_transformation env c t tcx).2) := by
  unfold start_transformation
  dsimp only
  cases hap : c.active_persona with
  | none => simp [hap]
  | some p =>
    by_cases hs : hasSystemMessage c.conversation_context.conversation <;>
      cases hcm : c.conversation_model <;>
        simp [hap, hcm, hs] <;>
          rw [← List.cons_append, List.getLast?_concat]

/-- C8: on `ActionTranscriptionSuccess(text)` in `Transcribing`, the
resulting state is `Transforming` exactly when (after voice-command
binding) an active persona and a conversation model are both set, and
`Idle` otherwise with the forwarded text pasted; in both cases the
forwarded text is appended to the conversation as the final user
message. -/
theorem C8_transcription_success (env : ConvEnv) (text : String)
    (ctx : AppStateContext)
    (hstate : ctx.conversation_context.state = ConversationState.Transcribing) :
    ((convStep env (Event.ActionTranscriptionSuccess text) ctx).1.conversation_context.state
        = ConversationState.Transforming ↔
      ((convStep env (Event.ActionTranscriptionSuccess text) ctx).1.active_persona.isSome ∧
        ctx.conversation_model.isSome)) ∧
    ((convStep env (Event.ActionTranscriptionSuccess text) ctx).1.conversation_context.state
        = ConversationState.Transforming ∨
      (convStep env (Event.ActionTranscriptionSuccess text) ctx).1.conversation_context.state
        = ConversationState.Idle) ∧
    ((convStep env (Event.ActionTranscriptionSuccess text) ctx).1.conversation_context.state
        = ConversationState.Idle →
      Effect.pasteText
          (get_persona_and_text_from_transcription text ctx.personas_context.personas).2 ∈
        (convStep env (Event.ActionTranscriptionSuccess text) ctx).2) ∧
    (convStep env
        (Event.ActionTranscriptionSuccess text) ctx).1.conversation_context.conversation.getLast?
      = some (ConversationMessage.textMsg
          ⟨ctx.conversation_context.current_audio_file_path, "user",
           [MsgContent.text
             (get_persona_and_text_from_transcription text ctx.personas_context.personas).2],
           env.now⟩) := by
  simp only [convStep, hstate]
  rcases hg : get_persona_and_text_from_transcription text ctx.personas_context.personas
    with ⟨newP, t2⟩
  cases newP with
  | none =>
    have hspec := start_transformation_spec env ctx t2 ⟨false⟩
    obtain ⟨hap, hcm, hst, hlast, hpaste⟩ := hspec
    simp only [hg]
    rw [show (if (none : Option Persona).isSome = true
        then (ctx_update_active_persona ctx none, [Effect.emitChangePersonaByVoice])
        else (ctx, [])) = (ctx, ([] : List Effect)) from by simp]
    dsimp only
    refine ⟨?_, ?_, ?_, ?_⟩
    · rw [hst, hap]
      cases hap2 : ctx.active_persona <;> cases hcm2 : ctx.conversation_model <;>
        simp [hap2, hcm2]
    · rw [hst]
      split <;> simp
    · intro hidle
      rw [hst] at hidle
      have hgo : (ctx.active_persona.isNone || ctx.conversation_model.isNone) = true := by
        by_contra hq
        rw [if_neg (by simpa using hq)] at hidle
        exact ConversationState.noConfusion hidle
      simpa using hpaste hgo
    · exact hlast
  | some p =>
    have hspec := start_transformation_spec env (ctx_update_active_persona ctx (some p)) t2 ⟨false⟩
    obtain ⟨hap, hcm, hst, hlast, hpaste⟩ := hspec
    simp only [hg]
    rw [show (if (some p).isSome = true
        then (ctx_update_active_persona ctx (some p), [Effect.emitChangePersonaByVoice])
        else (ctx, [])) =
        (ctx_update_active_persona ctx (some p), [Effect.emitChangePersonaByVoice]) from by simp]
    dsimp only
    have hapv : (ctx_update_active_persona ctx (some p)).active_persona = some p := rfl
    have hcmv : (ctx_update_active_persona ctx (some p)).conversation_model =
      ctx.conversation_model := rfl
    have haudio : (ctx_update_active_persona ctx
        (some p)).conversation_context.current_audio_file_path =
      ctx.conversation_context.current_audio_file_path := rfl
    refine ⟨?_, ?_, ?_, ?_⟩
    · rw [hst, hap, hapv, hcmv]
      cases hcm2 : ctx.conversation_model <;> simp [hcm2]
    · rw [hst]
      split <;> simp
    · intro hidle
      rw [hst] at hidle
      have hgo : ((ctx_update_active_persona ctx (some p)).active_persona.isNone ||
          (ctx_update_active_persona ctx (some p)).conversation_model.isNone) = true := by
        by_contra hq
        rw [if_neg (by simpa using hq)] at hidle
        exact ConversationState.noConfusion hidle
      simpa using hpaste hgo
    · simpa [haudio] using hlast

/-- Witness for C8: the example transcript with the Translator persona and
a conversation model set lands in `Transforming`. -/
theorem C8_witness :
    (convStep ⟨7, "a.wav", none⟩
        (Event.ActionTranscriptionSuccess "hey translate good morning")
        { baseCtx with conversation_context :=
            { emptyConvCtx with
              state := ConversationState.Transcribing } }).1.conversation_context.state
      = ConversationState.Transforming :=
  (C8_transcription_success ⟨7, "a.wav", none⟩ "hey translate good morning"
      { baseCtx with conversation_context :=
          { emptyConvCtx with
            state := ConversationState.Transcribing } } rfl).1.mpr
    ⟨by decide, by decide⟩

/-- C2, claim as stated is false on two points.  A persona with a blank
`voice_command` is never matched even though the normalized transcript
starts with the (empty) normalized command, and a matched persona does not
always get the command words trimmed: for `"Hey, translate good morning"`
the persona matches (normalization strips the comma) but the original-cased
leading words `"hey, translate"` do not contain `"hey translate"`, so the
transcript is forwarded unchanged instead of `"good morning"`. -/
theorem C2_counterexample :
    ((get_persona_and_text_from_transcription "hey"
        [{ translatorPersona with voice_command := "" }]).1 = none ∧
      rustStartsWith (specNormalize "hey")
        (specNormalize ({ translatorPersona with voice_command := "" }).voice_command)
        = true) ∧
    ((get_persona_and_text_from_transcription "Hey, translate good morning"
        [translatorPersona]).1 = some translatorPersona ∧
      (get_persona_and_text_from_transcription "Hey, translate good morning"
        [translatorPersona]).2 = "Hey, translate good morning") := by
  exact ⟨⟨by decide, by decide⟩, ⟨by decide, by decide⟩⟩

/-- C2 amended: the matched persona is the first one whose `voice_command`
is non-blank and whose spec-normalized command (lowercased, spaces, periods
and commas stripped) prefixes the normalized transcript; the example
transcript `"hey translate good morning"` against the Translator persona
returns that persona and the trimmed text `"good morning"`, while command
words are only trimmed when the original-cased leading words contain the
command words — otherwise the transcript is forwarded unchanged. -/
theorem C2_voice_command_matching (text : String) (personas : List Persona) :
    (get_persona_and_text_from_transcription text personas).1 =
      personas.find? (specVoiceMatch text) ∧
    get_persona_and_text_from_transcription "hey translate good morning"
        [translatorPersona] = (some translatorPersona, "good morning") ∧
    get_persona_and_text_from_transcription "Hey, translate good morning"
        [translatorPersona] =
      (some translatorPersona, "Hey, translate good morning") := by
  refine ⟨?_, by decide, by decide⟩
  have hpt : personas.find? (personaMatches text) = personas.find? (specVoiceMatch text) := by
    congr 1
    funext p
    unfold personaMatches specVoiceMatch specNormalize rustStartsWith
    by_cases h : rustTrim p.voice_command = "" <;> simp [h]
  unfold get_persona_and_text_from_transcription
  rw [hpt]
  cases hf : personas.find? (specVoiceMatch text) with
  | none => rfl
  | some p =>
    dsimp only
    repeat' split
    all_goals rfl

theorem updateFirstWhere_comp (p : α → Bool) (f g : α → α)
    (hpres : ∀ x, p x = true → p (g x) = true) :
    ∀ l : List α, updateFirstWhere p f (updateFirstWhere p g l) =
      updateFirstWhere p (fun x => f (g x)) l := by
  intro l
  induction l with
  | nil => rfl
  | cons x xs ih =>
    by_cases hx : p x = true
    · simp [updateFirstWhere, hx, hpres x hx]
    · simp [updateFirstWhere, hx, ih]

theorem updateFirstWhere_congr (p : α → Bool) (f g : α → α) :
    ∀ l : List α, ∀ x, l.find? p = some x → f x = g x →
      updateFirstWhere p f l = updateFirstWhere p g l := by
  intro l
  induction l with
  | nil => intro x hx; simp at hx
  | cons y ys ih =>
    intro x hx hfg
    by_cases hy : p y = true
    · rw [List.find?_cons_of_pos _ hy] at hx
      obtain rfl : y = x := by simpa using hx
      simp [updateFirstWhere, hy, hfg]
    · rw [List.find?_cons_of_neg _ (by simpa using hy)] at hx
      simp only [updateFirstWhere, if_neg hy]
      rw [ih x hx hfg]

/-- In the id-rewritten config list, the first config carrying the new key
is the rewritten one, provided every key-sharing config shares the id. -/
theorem find?_key_updateFirstWhere (tool ex : MCPServerConfig) :
    ∀ configs : List MCPServerConfig,
      configs.find? (fun t => t.id = tool.id) = some ex →
      (∀ c ∈ configs, c.key = tool.key → c.id = tool.id) →
      (updateFirstWhere (fun t => t.id = tool.id)
          (fun ex0 => { tool with state := ex0.state }) configs).find?
        (fun t => t.key = tool.key) = some { tool with state := ex.state } := by
  intro configs
  induction configs with
  | nil => intro h; simp at h
  | cons c cs ih =>
    intro hfind hnc
    by_cases hc : (c.id = tool.id)
    · rw [List.find?_cons_of_pos _ (by simpa using hc)] at hfind
      obtain rfl : c = ex := by simpa using hfind
      simp [updateFirstWhere, hc, List.find?_cons_of_pos]
    · rw [List.find?_cons_of_neg _ (by simpa using hc)] at hfind
      have hck : ¬ (c.key = tool.key) := fun hk => hc (hnc c (by simp) hk)
      have hred : updateFirstWhere (fun t => t.id = tool.id)
          (fun ex0 => { tool with state := ex0.state }) (c :: cs) =
          c :: updateFirstWhere (fun t => t.id = tool.id)
            (fun ex0 => { tool with state := ex0.state }) cs := by
        simp [updateFirstWhere, hc]
      rw [hred, List.find?_cons_of_neg _ (by simpa using hck)]
      exact ih hfind (fun d hd hk => hnc d (by simp [hd]) hk)

/-- A sample MCP server config. -/
def sampleTool : MCPServerConfig :=
  { id := "1", name := "Weather", key := "weather", description := "d"
    kind := MCPServerKind.External "http://localhost", enabled := false
    state := MCPServerState.Disabled }

/-- C3, claim as stated is false: re-adding a config whose key is already
taken by a config with the *same* id is rejected with a user error and a
no-op, even though no config with a different id shares the key — the add
handler checks key uniqueness against all configs regardless of id. -/
theorem C3_counterexample :
    ((mcpStep true true (Event.ActionAddTool sampleTool)
        { baseCtx with mcp_context := ⟨[sampleTool]⟩ }).1.mcp_context.server_configs
      = [sampleTool]) ∧
    ((mcpStep true true (Event.ActionAddTool sampleTool)
        { baseCtx with mcp_context := ⟨[sampleTool]⟩ }).1.errors
      = [ErrMsg.duplicateToolKey "weather"]) ∧
    (¬ ∃ ex ∈ [sampleTool], ex.key = sampleTool.key ∧ ex.id ≠ sampleTool.id) := by
  refine ⟨by decide, by decide, by decide⟩

/-- C3 amended: adding or updating a config whose key collides with a
*different* id's key pushes a user error and leaves the config list
unchanged; adding rejects any key collision (also with the same id) and
otherwise appends the config with state reset to `Disabled`; updating
without a collision replaces the config with the matching id by the new
config (keeping the stored state for a stopped tool, and ending `Enabled`
or `Disabled` according to the new enabled flag for a running tool once the
spawned disable/enable operations succeed), with no error pushed. -/
theorem C3_tool_key_uniqueness (ctx : AppStateContext) (tool : MCPServerConfig)
    (disableOk enableOk : Bool) :
    ((∃ ex ∈ ctx.mcp_context.server_configs, ex.key = tool.key ∧ ex.id ≠ tool.id) →
      (mcpStep disableOk enableOk (Event.ActionAddTool tool)
          ctx).1.mcp_context.server_configs = ctx.mcp_context.server_configs ∧
      (mcpStep disableOk enableOk (Event.ActionAddTool tool) ctx).1.errors
        = ctx.errors ++ [ErrMsg.duplicateToolKey tool.key] ∧
      (mcpStep disableOk enableOk (Event.ActionUpdateTool tool)
          ctx).1.mcp_context.server_configs = ctx.mcp_context.server_configs ∧
      (mcpStep disableOk enableOk (Event.ActionUpdateTool tool) ctx).1.errors
        = ctx.errors ++ [ErrMsg.duplicateToolKey tool.key]) ∧
    ((¬ ∃ ex ∈ ctx.mcp_context.server_configs, ex.key = tool.key) →
      (mcpStep disableOk enableOk (Event.ActionAddTool tool)
          ctx).1.mcp_context.server_configs
        = ctx.mcp_context.server_configs ++ [{ tool with state := MCPServerState.Disabled }] ∧
      (mcpStep disableOk enableOk (Event.ActionAddTool tool) ctx).1.errors = ctx.errors) ∧
    (∀ ex, ctx.mcp_context.server_configs.find? (fun t => t.id = tool.id) = some ex →
      (¬ ∃ c ∈ ctx.mcp_context.server_configs, c.key = tool.key ∧ c.id ≠ tool.id) →
      (mcpStep true true (Event.ActionUpdateTool tool) ctx).1.mcp_context.server_configs
        = updateFirstWhere (fun t => t.id = tool.id)
            (fun ex0 =>
              { tool with state :=
                  if ex0.enabled then
                    (if tool.enabled then MCPServerState.Enabled else MCPServerState.Disabled)
                  else ex0.state })
            ctx.mcp_context.server_configs ∧
      (mcpStep true true (Event.ActionUpdateTool tool) ctx).1.errors = ctx.errors) := by
  refine ⟨?_, ?_, ?_⟩
  · intro hcoll
    obtain ⟨ex, hex, hkey, hid⟩ := hcoll
    have hcAdd : ∃ x ∈ ctx.mcp_context.server_configs, x.key = tool.key := ⟨ex, hex, hkey⟩
    have hcUpd : ∃ x ∈ ctx.mcp_context.server_configs, x.key = tool.key ∧ ¬ x.id = tool.id :=
      ⟨ex, hex, hkey, hid⟩
    simp [mcpStep, add_tool_arm, update_tool_arm, pushErr, hcAdd, hcUpd]
  · intro hno
    have hany2 : ctx.mcp_context.server_configs.any
        (fun existing => existing.key = tool.key) = false := by
      rw [List.any_eq_false]
      intro c hc
      simp only [decide_eq_true_eq]
      exact fun hk => hno ⟨c, hc, hk⟩
    have hfindkey : ctx.mcp_context.server_configs.find?
        (fun t => t.key = tool.key) = none := by
      rw [List.find?_eq_none]
      intro c hc
      simp only [decide_eq_true_eq]
      exact fun hk => hno ⟨c, hc, hk⟩
    cases htool : tool.enabled with
    | false => simp [mcpStep, add_tool_arm, hany2, htool]
    | true =>
      simp [mcpStep, add_tool_arm, hany2, htool, handle_enable_tool, hfindkey]
  · intro ex hfind hnocoll
    have hany1 : ctx.mcp_context.server_configs.any
        (fun existing => existing.key = tool.key && existing.id ≠ tool.id) = false := by
      rw [List.any_eq_false]
      intro c hc
      simp only [Bool.and_eq_true, decide_eq_true_eq, not_and]
      intro hk
      simp only [ne_eq, decide_not, Bool.not_eq_true', decide_eq_false_iff_not, not_not]
      by_contra hne
      exact hnocoll ⟨c, hc, hk, by simpa using hne⟩
    have hpres : ∀ x : MCPServerConfig,
        (decide (x.id = tool.id)) = true → True := fun _ _ => trivial
    cases hexe : ex.enabled with
    | true =>
      cases htool : tool.enabled with
      | true =>
        simp only [mcpStep, update_tool_arm, hany1, Bool.false_eq_true, if_false, hfind,
          hexe, if_true, htool, mcpUpdateById, pushErr, Bool.not_true, Bool.and_false]
        refine ⟨?_, by simp⟩
        rw [updateFirstWhere_comp _ _ _ (by intro x hx; simpa using hx),
            updateFirstWhere_comp _ _ _ (by intro x hx; simpa using hx)]
        exact updateFirstWhere_congr _ _ _ _ ex hfind (by simp [hexe, htool])
      | false =>
        simp only [mcpStep, update_tool_arm, hany1, Bool.false_eq_true, if_false, hfind,
          hexe, if_true, htool, mcpUpdateById, pushErr, Bool.not_true, Bool.and_false]
        refine ⟨?_, by simp⟩
        rw [updateFirstWhere_comp _ _ _ (by intro x hx; simpa using hx)]
        exact updateFirstWhere_congr _ _ _ _ ex hfind (by simp [hexe, htool])
    | false =>
      cases htool : tool.enabled with
      | false =>
        simp only [mcpStep, update_tool_arm, hany1, Bool.false_eq_true, if_false, hfind,
          hexe, htool, mcpUpdateById]
        refine ⟨?_, by simp⟩
        exact updateFirstWhere_congr _ _ _ _ ex hfind (by simp [hexe])
      | true =>
        have hkeyfind := find?_key_updateFirstWhere tool ex ctx.mcp_context.server_configs
          hfind (by
            intro c hc hk
            by_contra hne
            exact hnocoll ⟨c, hc, hk, hne⟩)
        simp only [htool] at hkeyfind
        simp only [mcpStep, update_tool_arm, hany1, Bool.false_eq_true, if_false, hfind,
          hexe, htool, mcpUpdateById, handle_enable_tool, hkeyfind]
        refine ⟨?_, by simp⟩
        exact updateFirstWhere_congr _ _ _ _ ex hfind (by simp [hexe])

/-- Witness for C3's amended theorem: a different-id key collision is a
rejected no-op, a fresh key is appended, and an update without collision
replaces the entry with the matching id. -/
theorem C3_witness :
    ((mcpStep true true (Event.ActionAddTool { sampleTool with id := "2" })
        { baseCtx with mcp_context := ⟨[sampleTool]⟩ }).1.mcp_context.server_configs
      = [sampleTool]) ∧
    ((mcpStep true true (Event.ActionAddTool sampleTool)
        baseCtx).1.mcp_context.server_configs
      = [{ sampleTool with state := MCPServerState.Disabled }]) ∧
    ((mcpStep true true (Event.ActionUpdateTool { sampleTool with name := "W2" })
        { baseCtx with mcp_context := ⟨[sampleTool]⟩ }).1.mcp_context.server_configs
      = [{ sampleTool with name := "W2" }]) := by
  refine ⟨?_, ?_, ?_⟩
  · exact ((C3_tool_key_uniqueness { baseCtx with mcp_context := ⟨[sampleTool]⟩ }
      { sampleTool with id := "2" } true true).1
      ⟨sampleTool, by simp, rfl, by decide⟩).1
  · have h := (C3_tool_key_uniqueness baseCtx sampleTool true true).2.1 (by decide)
    simpa [baseCtx] using h.1
  · have h := ((C3_tool_key_uniqueness { baseCtx with mcp_context := ⟨[sampleTool]⟩ }
      { sampleTool with name := "W2" } true true).2.2 sampleTool (by decide) (by decide))
    rw [h.1]
    decide

theorem mig1_preserves (d : AppStateContextDump) :
    (migAddCustomizeShortcutsChallenge d).1.shortcuts = d.shortcuts ∧
    (migAddCustomizeShortcutsChallenge d).1.transcription_model = d.transcription_model ∧
    (migAddCustomizeShortcutsChallenge d).1.personas_context = d.personas_context ∧
    (migAddCustomizeShortcutsChallenge d).1.models_context = d.models_context := by
  unfold migAddCustomizeShortcutsChallenge
  split <;> exact ⟨rfl, rfl, rfl, rfl⟩

theorem mig1_has (d : AppStateContextDump) :
    (migAddCustomizeShortcutsChallenge d).1.challenge_context.challenges.any
      (fun ch => ch.id = ChallengeName.CustomizeShortcuts) = true := by
  unfold migAddCustomizeShortcutsChallenge
  split
  · next h => simpa using h
  · simp [create_customize_shortcuts_challenge]

theorem mig1_noop_of_has (d : AppStateContextDump)
    (h : d.challenge_context.challenges.any
      (fun ch => ch.id = ChallengeName.CustomizeShortcuts) = true) :
    migAddCustomizeShortcutsChallenge d = (d, false) := by
  unfold migAddCustomizeShortcutsChallenge
  simp [h]

theorem mig2_preserves (d : AppStateContextDump) :
    (migSinglePersonaShortcut d).1.challenge_context = d.challenge_context ∧
    (migSinglePersonaShortcut d).1.transcription_model = d.transcription_model ∧
    (migSinglePersonaShortcut d).1.personas_context = d.personas_context ∧
    (migSinglePersonaShortcut d).1.models_context = d.models_context := by
  unfold migSinglePersonaShortcut
  split <;> exact ⟨rfl, rfl, rfl, rfl⟩

theorem mig2_post_len (d : AppStateContextDump) :
    ¬ (migSinglePersonaShortcut d).1.shortcuts.personas.length = 1 := by
  unfold migSinglePersonaShortcut
  split
  · simp [shortcutsDefault]
  · next h => simpa using h

theorem mig2_noop_of_len (d : AppStateContextDump)
    (h : ¬ d.shortcuts.personas.length = 1) :
    migSinglePersonaShortcut d = (d, false) := by
  unfold migSinglePersonaShortcut
  simp [h]

theorem mig3_preserves (fresh : Nat → String) (d : AppStateContextDump) :
    (migPersonasDuplicatedId fresh d).1.shortcuts = d.shortcuts ∧
    (migPersonasDuplicatedId fresh d).1.transcription_model = d.transcription_model ∧
    (migPersonasDuplicatedId fresh d).1.challenge_context = d.challenge_context ∧
    (migPersonasDuplicatedId fresh d).1.models_context = d.models_context := by
  unfold migPersonasDuplicatedId
  exact ⟨rfl, rfl, rfl, rfl⟩

theorem mig4_preserves (d : AppStateContextDump) :
    (migTranscriptionModelIds d).1.shortcuts = d.shortcuts ∧
    (migTranscriptionModelIds d).1.challenge_context = d.challenge_context ∧
    (migTranscriptionModelIds d).1.personas_context = d.personas_context := by
  unfold migTranscriptionModelIds
  exact ⟨rfl, rfl, rfl⟩

theorem mig4Model_idem (m : TranscriptionModel) :
    (mig4Model (mig4Model m).1).1 = (mig4Model m).1 := by
  by_cases hp : m.provider = TranscriptionProvider.WhisperLocal ∧ m.is_local = false
  · by_cases h1 : m.model = "use_openai" ∨ m.model = "whisper-1"
    · rcases h1 with h1 | h1 <;>
        simp [mig4Model, hp.1, hp.2, h1]
    · push_neg at h1
      by_cases h2 : m.model = "use_mistral" ∨ m.model = "voxtral-mini-2507"
      · rcases h2 with h2 | h2 <;>
          simp [mig4Model, hp.1, hp.2, h2]
      · push_neg at h2
        by_cases h3 : rustEndsWith m.model ".bin" = true
        · simp [mig4Model, hp.1, hp.2, h1.1, h1.2, h2.1, h2.2, h3]
        · simp [mig4Model, hp.1, hp.2, h1.1, h1.2, h2.1, h2.2, h3]
  · by_cases h1 : m.model = "use_openai"
    · simp [mig4Model, hp, h1]
    · by_cases h2 : m.model = "use_mistral"
      · simp [mig4Model, hp, h1, h2]
      · simp [mig4Model, hp, h1, h2]

theorem mig3Go_mem_id (fresh : Nat → String) (l : List Persona) :
    ∀ (seen : List String) (used : Nat) (x : String),
      x ∈ ((mig3Go fresh l seen used).1.map (fun p => p.id)) →
      (x ∈ l.map (fun p => p.id) ∧ x ∉ seen) ∨
        ∃ i, used ≤ i ∧ i < used + l.length ∧ x = fresh i := by
  induction l with
  | nil => intro seen used x h; simp [mig3Go] at h
  | cons p ps ih =>
    intro seen used x hx
    by_cases hp : p.id ∈ seen
    · rcases hgo : mig3Go fresh ps seen (used + 1) with ⟨rest, b⟩
      simp only [mig3Go, if_pos hp, hgo, List.map_cons, List.mem_cons] at hx
      rcases hx with hx | hx
      · exact Or.inr ⟨used, le_refl _, by simp, hx⟩
      · rcases ih seen (used + 1) x (by rw [hgo]; simpa using hx) with
          ⟨hmem, hns⟩ | ⟨i, hi1, hi2, hi3⟩
        · exact Or.inl ⟨by simp [hmem], hns⟩
        · exact Or.inr ⟨i, by omega, by simp only [List.length_cons]; omega, hi3⟩
    · rcases hgo : mig3Go fresh ps (seen ++ [p.id]) used with ⟨rest, b⟩
      simp only [mig3Go, if_neg hp, hgo, List.map_cons, List.mem_cons] at hx
      rcases hx with hx | hx
      · exact Or.inl ⟨by simp [hx], hx ▸ hp⟩
      · rcases ih (seen ++ [p.id]) used x (by rw [hgo]; simpa using hx) with
          ⟨hmem, hns⟩ | ⟨i, hi1, hi2, hi3⟩
        · exact Or.inl ⟨by simp [hmem], fun hc => hns (by simp [hc])⟩
        · exact Or.inr ⟨i, hi1, by simp only [List.length_cons]; omega, hi3⟩

theorem mig3Go_nodup (fresh : Nat → String) (l : List Persona) :
    ∀ (seen : List String) (used : Nat),
      (∀ i j, used ≤ i → i < used + l.length → used ≤ j → j < used + l.length →
        i ≠ j → fresh i ≠ fresh j) →
      (∀ i, used ≤ i → i < used + l.length → fresh i ∉ l.map (fun p => p.id)) →
      ((mig3Go fresh l seen used).1.map (fun p => p.id)).Nodup := by
  induction l with
  | nil => intro seen used _ _; simp [mig3Go]
  | cons p ps ih =>
    intro seen used hinj hnotin
    by_cases hp : p.id ∈ seen
    · rcases hgo : mig3Go fresh ps seen (used + 1) with ⟨rest, b⟩
      simp only [mig3Go, if_pos hp, hgo, List.map_cons, List.nodup_cons]
      constructor
      · intro hmem
        rcases mig3Go_mem_id fresh ps seen (used + 1) (fresh used)
            (by rw [hgo]; simpa using hmem) with ⟨hmem2, _⟩ | ⟨i, hi1, hi2, hi3⟩
        · exact hnotin used (le_refl _) (by simp) (by simp [hmem2])
        · exact hinj used i (le_refl _) (by simp) (by omega)
            (by simp only [List.length_cons]; omega) (by omega) hi3
      · have := ih seen (used + 1)
          (fun i j h1 h2 h3 h4 hne => hinj i j (by omega)
            (by simp only [List.length_cons]; omega) (by omega)
            (by simp only [List.length_cons]; omega) hne)
          (fun i h1 h2 hmem => hnotin i (by omega)
            (by simp only [List.length_cons]; omega) (by simp [hmem]))
        rw [hgo] at this
        exact this
    · rcases hgo : mig3Go fresh ps (seen ++ [p.id]) used with ⟨rest, b⟩
      simp only [mig3Go, if_neg hp, hgo, List.map_cons, List.nodup_cons]
      constructor
      · intro hmem
        rcases mig3Go_mem_id fresh ps (seen ++ [p.id]) used p.id
            (by rw [hgo]; simpa using hmem) with ⟨_, hns⟩ | ⟨i, hi1, hi2, hi3⟩
        · exact hns (by simp)
        · exact hnotin i hi1 (by simp only [List.length_cons]; omega)
            (by simp [← hi3])
      · have := ih (seen ++ [p.id]) used
          (fun i j h1 h2 h3 h4 hne => hinj i j h1
            (by simp only [List.length_cons]; omega) h3
            (by simp only [List.length_cons]; omega) hne)
          (fun i h1 h2 hmem => hnotin i h1
            (by simp only [List.length_cons]; omega) (by simp [hmem]))
        rw [hgo] at this
        exact this

theorem mig3Go_nochange (fresh : Nat → String) (l : List Persona) :
    ∀ (seen : List String) (used : Nat),
      ((l.map (fun p => p.id)).Nodup) →
      (∀ p ∈ l, p.id ∉ seen) →
      mig3Go fresh l seen used = (l, false) := by
  induction l with
  | nil => intro seen used _ _; rfl
  | cons p ps ih =>
    intro seen used hnd hdisj
    have hp : p.id ∉ seen := hdisj p (List.mem_cons_self p ps)
    have hnd2 : (∀ x ∈ ps, ¬ x.id = p.id) ∧ (ps.map (fun q => q.id)).Nodup := by
      simpa using hnd
    have hstep := ih (seen ++ [p.id]) used hnd2.2 (by
      intro q hq
      simp only [List.mem_append, List.mem_singleton]
      rintro (h | h)
      · exact hdisj q (List.mem_cons_of_mem _ hq) h
      · exact hnd2.1 q hq h)
    simp only [mig3Go, if_neg hp, hstep]

theorem map_mig4Model_idem (l : List TranscriptionModel) :
    (l.map (fun m => (mig4Model m).1)).map (fun m => (mig4Model m).1) =
      l.map (fun m => (mig4Model m).1) := by
  induction l with
  | nil => rfl
  | cons m ms ih => simp only [List.map_cons, mig4Model_idem, ih]

theorem migTranscriptionModelIds_idem (d : AppStateContextDump) :
    (migTranscriptionModelIds (migTranscriptionModelIds d).1).1 =
      (migTranscriptionModelIds d).1 := by
  unfold migTranscriptionModelIds
  dsimp only
  rcases htm : d.transcription_model with _ | t
  · simp [List.map_map, Function.comp, map_mig4Model_idem, mig4Model_idem]
  · by_cases h1 : t = "use_openai"
    · simp [h1, List.map_map, Function.comp, map_mig4Model_idem, mig4Model_idem]
    · by_cases h2 : t = "use_mistral"
      · simp [h1, h2, List.map_map, Function.comp, map_mig4Model_idem, mig4Model_idem]
      · simp [h1, h2, List.map_map, Function.comp, map_mig4Model_idem, mig4Model_idem]

/-- A dump that `MigrateTranscriptionModelIds` has already transformed (it
is a fixed point of the migration): a non-local model whose id ends in
`.bin` and whose provider is already `WhisperLocal`. -/
def c5dump : AppStateContextDump :=
  { shortcuts := shortcutsDefault
    transcription_model := none
    personas_context := ⟨[]⟩
    challenge_context := ⟨[create_customize_shortcuts_challenge]⟩
    models_context := ⟨[{ name := "Whisper Tiny"
                          model := "ggml-tiny.bin"
                          provider := TranscriptionProvider.WhisperLocal
                          is_local := false }]⟩ }

/-- **C5 counterexample**: re-applying `MigrateTranscriptionModelIds` to a
dump it has already transformed (here a fixed point: the migration maps
`c5dump` to `c5dump` itself) nevertheless *reports* a change: the
provider-fixup branch fires again on a non-local `.bin` model and returns
`modified = true`, refuting the claim's "reports no change" part (the dump
itself is unchanged). -/
theorem C5_counterexample :
    (migTranscriptionModelIds c5dump).1 = c5dump ∧
    (migTranscriptionModelIds c5dump).2 = true := by
  exact ⟨rfl, rfl⟩

theorem mig3_personas (fresh : Nat → String) (x : AppStateContextDump) :
    (migPersonasDuplicatedId fresh x).1.personas_context.personas =
      (mig3Go fresh x.personas_context.personas [] 0).1 := rfl

theorem mig3_noop_of_nodup (fresh : Nat → String) (x : AppStateContextDump)
    (h : (x.personas_context.personas.map (fun p => p.id)).Nodup) :
    migPersonasDuplicatedId fresh x = (x, false) := by
  unfold migPersonasDuplicatedId
  rw [mig3Go_nochange fresh _ [] 0 h (by intro p _ hc; simp at hc)]

/-- **C5** (corrected): the *pipeline* is idempotent on the dump value —
running `run_migrations` twice yields the same dump as running it once —
whenever the first run's fresh-uuid supply is injective below the persona
count and avoids the dump's existing persona ids (as `Uuid::new_v4` is,
with probability 1).  The claim's stronger "each migration re-applied
reports no change" is refuted by `C5_counterexample`:
`MigrateTranscriptionModelIds` re-reports `modified = true` on any dump
holding a non-local `.bin` model even when it changes nothing. -/
theorem C5_migrations_idem (fresh1 fresh2 : Nat → String) (d : AppStateContextDump)
    (hinj : ∀ i < d.personas_context.personas.length,
      ∀ j < d.personas_context.personas.length, i ≠ j → fresh1 i ≠ fresh1 j)
    (hnotin : ∀ i < d.personas_context.personas.length,
      fresh1 i ∉ d.personas_context.personas.map (fun p => p.id)) :
    run_migrations fresh2 (run_migrations fresh1 d) = run_migrations fresh1 d := by
  have hch : (run_migrations fresh1 d).challenge_context.challenges.any
      (fun ch => ch.id = ChallengeName.CustomizeShortcuts) = true := by
    unfold run_migrations
    rw [(mig4_preserves _).2.1, (mig3_preserves _ _).2.2.1, (mig2_preserves _).1]
    exact mig1_has d
  have hlen : ¬ (run_migrations fresh1 d).shortcuts.personas.length = 1 := by
    unfold run_migrations
    rw [(mig4_preserves _).1, (mig3_preserves _ _).1]
    exact mig2_post_len _
  have hpers : (run_migrations fresh1 d).personas_context.personas =
      (mig3Go fresh1 d.personas_context.personas [] 0).1 := by
    unfold run_migrations
    rw [(mig4_preserves _).2.2, mig3_personas,
      (mig2_preserves _).2.2.1, (mig1_preserves _).2.2.1]
  have hnod : ((run_migrations fresh1 d).personas_context.personas.map
      (fun p => p.id)).Nodup := by
    rw [hpers]
    exact mig3Go_nodup fresh1 d.personas_context.personas [] 0
      (fun i j h1 h2 h3 h4 hne => hinj i (by omega) j (by omega) hne)
      (fun i h1 h2 => hnotin i (by omega))
  show (migTranscriptionModelIds (migPersonasDuplicatedId fresh2
      (migSinglePersonaShortcut (migAddCustomizeShortcutsChallenge
        (run_migrations fresh1 d)).1).1).1).1 = run_migrations fresh1 d
  rw [mig1_noop_of_has _ hch]
  dsimp only
  rw [mig2_noop_of_len _ hlen]
  dsimp only
  rw [mig3_noop_of_nodup fresh2 _ hnod]
  exact migTranscriptionModelIds_idem
    ((migPersonasDuplicatedId fresh1
      (migSinglePersonaShortcut (migAddCustomizeShortcutsChallenge d).1).1).1)

/-- A dump exercising all four migrations: no customize-shortcuts
challenge, a single persona shortcut, duplicated persona ids and legacy
model ids. -/
def c5wdump : AppStateContextDump :=
  { shortcuts := { shortcutsDefault with personas := ["F9"] }
    transcription_model := some "use_openai"
    personas_context := ⟨[{ translatorPersona with id := "dup" },
                          { translatorPersona with id := "dup" }]⟩
    challenge_context := ⟨[]⟩
    models_context := ⟨[{ name := "Whisper"
                          model := "use_mistral"
                          provider := TranscriptionProvider.WhisperLocal
                          is_local := false }]⟩ }

/-- A concrete injective fresh-uuid supply for the two personas of
`c5wdump`. -/
def c5fresh1 : Nat → String := fun n => if n = 0 then "fresh-a" else "fresh-b"

/-- Witness for `C5_migrations_idem` at a dump that every migration
actually rewrites. -/
theorem C5_witness :
    run_migrations c5fresh1 (run_migrations c5fresh1 c5wdump) =
      run_migrations c5fresh1 c5wdump :=
  C5_migrations_idem c5fresh1 c5fresh1 c5wdump (by decide) (by decide)

theorem updateFirstWhere_forall2 (p : α → Bool) (f : α → α) (R : α → α → Prop)
    (l : List α) (hrefl : ∀ x ∈ l, R x x) (hupd : ∀ x ∈ l, p x = true → R x (f x)) :
    List.Forall₂ R l (updateFirstWhere p f l) := by
  induction l with
  | nil => exact List.Forall₂.nil
  | cons a l ih =>
    by_cases hp : p a = true
    · simp only [updateFirstWhere, if_pos hp]
      exact List.Forall₂.cons (hupd a (List.mem_cons_self a l) hp)
        (List.forall₂_same.mpr (fun x hx => hrefl x (List.mem_cons_of_mem _ hx)))
    · simp only [updateFirstWhere, if_neg hp]
      exact List.Forall₂.cons (hrefl a (List.mem_cons_self a l))
        (ih (fun x hx => hrefl x (List.mem_cons_of_mem _ hx))
          (fun x hx hpx => hupd x (List.mem_cons_of_mem _ hx) hpx))

theorem updateFirstWhere_decomp (p : α → Bool) (f : α → α) (l : List α) :
    updateFirstWhere p f l = l ∨
      ∃ l1 x l2, l = l1 ++ x :: l2 ∧ (∀ y ∈ l1, p y = false) ∧ p x = true ∧
        updateFirstWhere p f l = l1 ++ f x :: l2 := by
  induction l with
  | nil => exact Or.inl rfl
  | cons a l ih =>
    by_cases hp : p a = true
    · exact Or.inr ⟨[], a, l, rfl, by simp, hp, by simp [updateFirstWhere, if_pos hp]⟩
    · rcases ih with h | ⟨l1, x, l2, hsplit, hall, hx, hres⟩
      · exact Or.inl (by simp [updateFirstWhere, if_neg hp, h])
      · refine Or.inr ⟨a :: l1, x, l2, by simp [hsplit], ?_, hx, ?_⟩
        · intro y hy
          rcases List.mem_cons.mp hy with hy | hy
          · subst hy; exact Bool.eq_false_iff.mpr hp
          · exact hall y hy
        · simp [updateFirstWhere, if_neg hp, hres]

theorem updateFirstWhere_mem (p : α → Bool) (f : α → α) (l : List α)
    (x : α) (hx : x ∈ updateFirstWhere p f l) :
    x ∈ l ∨ ∃ y ∈ l, p y = true ∧ x = f y := by
  induction l with
  | nil => simp [updateFirstWhere] at hx
  | cons a l ih =>
    by_cases hp : p a = true
    · simp only [updateFirstWhere, if_pos hp, List.mem_cons] at hx
      rcases hx with hx | hx
      · exact Or.inr ⟨a, List.mem_cons_self a l, hp, hx⟩
      · exact Or.inl (List.mem_cons_of_mem _ hx)
    · simp only [updateFirstWhere, if_neg hp, List.mem_cons] at hx
      rcases hx with hx | hx
      · exact Or.inl (hx ▸ List.mem_cons_self a l)
      · rcases ih hx with h | ⟨y, hy, hpy, hxy⟩
        · exact Or.inl (List.mem_cons_of_mem _ h)
        · exact Or.inr ⟨y, List.mem_cons_of_mem _ hy, hpy, hxy⟩

/-- A requirement's progress-goal target is positive (trivially true for
occurred-style requirements); `record_challenge_progress` is only monotone
under this assumption, which all challenges shipped by the app satisfy. -/
def targetPos (r : ChallengeRequirement) : Bool :=
  match r.condition with
  | ChallengeCondition.ProgressGoal t => decide (0 < t)
  | _ => true

theorem applyReqUpdate_facts (now : Nat) (ev : Event) (r : ChallengeRequirement)
    (h1 : progVal r ≤ 1) (h2 : targetPos r = true) :
    progVal r ≤ progVal (applyReqUpdate now ev r) ∧
    progVal (applyReqUpdate now ev r) ≤ 1 ∧
    (applyReqUpdate now ev r).event = r.event ∧
    (applyReqUpdate now ev r).condition = r.condition := by
  unfold applyReqUpdate
  split
  all_goals try exact ⟨le_refl _, h1, rfl, rfl⟩
  all_goals try exact ⟨by simpa [progVal] using h1, by simp [progVal], rfl, rfl⟩
  rename_i text1 text target heqe heqc
  have ht : 0 < target := by
    simp only [targetPos, heqc, decide_eq_true_eq] at h2
    exact h2
  have hwc : (0 : Rat) ≤ ((rustSplitWhitespace text).length : Rat) := Nat.cast_nonneg _
  refine ⟨?_, ?_, rfl, rfl⟩
  · dsimp only
    simp only [progVal, Option.getD_some] at h1 ⊢
    exact le_inf (le_add_of_nonneg_right (div_nonneg hwc ht.le)) h1
  · dsimp only
    simp only [progVal, Option.getD_some]
    exact inf_le_right

theorem forall2_mem_right {R : α → β → Prop} {l : List α} {m : List β}
    (h : List.Forall₂ R l m) : ∀ b ∈ m, ∃ a ∈ l, R a b := by
  induction h with
  | nil => intro b hb; simp at hb
  | cons hab htail ih =>
    intro b hb
    rcases List.mem_cons.mp hb with hb | hb
    · exact ⟨_, List.mem_cons_self _ _, by rwa [hb]⟩
    · rcases ih b hb with ⟨a, ha, hr⟩
      exact ⟨a, List.mem_cons_of_mem _ ha, hr⟩

theorem forall2_mem_left {R : α → β → Prop} {l : List α} {m : List β}
    (h : List.Forall₂ R l m) : ∀ a ∈ l, ∃ b ∈ m, R a b := by
  induction h with
  | nil => intro a ha; simp at ha
  | cons hab htail ih =>
    intro a ha
    rcases List.mem_cons.mp ha with ha | ha
    · exact ⟨_, List.mem_cons_self _ _, by rwa [ha]⟩
    · rcases ih a ha with ⟨b, hb, hr⟩
      exact ⟨b, List.mem_cons_of_mem _ hb, hr⟩

theorem forall2_map_eq {R : α → β → Prop} (k1 : α → γ) (k2 : β → γ)
    (hk : ∀ a b, R a b → k2 b = k1 a) :
    ∀ {l : List α} {m : List β}, List.Forall₂ R l m → m.map k2 = l.map k1 := by
  intro l m h
  induction h with
  | nil => rfl
  | cons hab _ ih => simp only [List.map_cons, ih, hk _ _ hab]

theorem forall2_trans {R : α → β → Prop} {S : β → γ → Prop} {T : α → γ → Prop}
    (h : ∀ a b c, R a b → S b c → T a c) :
    ∀ {l : List α} {m : List β} {n : List γ},
      List.Forall₂ R l m → List.Forall₂ S m n → List.Forall₂ T l n := by
  intro l m n h1
  induction h1 generalizing n with
  | nil => intro h2; cases h2; exact List.Forall₂.nil
  | cons hab htail ih =>
    intro h2
    cases h2 with
    | cons hbc htail2 => exact List.Forall₂.cons (h _ _ _ hab hbc) (ih htail2)

theorem find?_key_of_nodup [DecidableEq β] (key : α → β) :
    ∀ (l : List α), ((l.map key).Nodup) → ∀ x ∈ l, ∀ name : β, key x = name →
      l.find? (fun y => key y = name) = some x := by
  intro l
  induction l with
  | nil => intro _ x hx; simp at hx
  | cons a l ih =>
    intro hnd x hx name hkey
    have hnd2 : key a ∉ l.map key ∧ (l.map key).Nodup := by simpa using hnd
    by_cases ha : key a = name
    · rw [List.find?_cons_of_pos _ (by simpa using ha)]
      rcases List.mem_cons.mp hx with hx | hx
      · rw [hx]
      · have : key a ∈ l.map key := by
          rw [ha, ← hkey]; exact List.mem_map_of_mem key hx
        exact absurd this hnd2.1
    · rw [List.find?_cons_of_neg _ (by simpa using ha)]
      rcases List.mem_cons.mp hx with hx | hx
      · exact absurd (hx ▸ hkey) ha
      · exact ih hnd2.2 x hx name hkey

/-- Per-requirement step relation: progress can only grow, stays clamped
at `1`, and the requirement's identity (event, condition) is untouched. -/
def reqRel (oldR newR : ChallengeRequirement) : Prop :=
  progVal oldR ≤ progVal newR ∧ progVal newR ≤ 1 ∧
    newR.event = oldR.event ∧ newR.condition = oldR.condition

/-- Per-challenge step relation for one `challengeStep` under event `ev`:
the id survives, the requirements are pairwise related by `reqRel`, a
completed challenge's requirements are frozen, at most the first
incomplete requirement changed, and the status can switch to `Completed`
only on an `ActionChallengeCompleted` event naming this challenge. -/
def C6R (ev : Event) (oldCh newCh : Challenge) : Prop :=
  newCh.id = oldCh.id ∧
  List.Forall₂ reqRel oldCh.requirements newCh.requirements ∧
  (oldCh.status = ChallengeStatus.Completed → newCh.requirements = oldCh.requirements) ∧
  (newCh.requirements = oldCh.requirements ∨
    ∃ l1 x x2 l2, oldCh.requirements = l1 ++ x :: l2 ∧
      (∀ y ∈ l1, reqIncomplete y = false) ∧ reqIncomplete x = true ∧
      newCh.requirements = l1 ++ x2 :: l2) ∧
  (newCh.status = ChallengeStatus.Completed → oldCh.status = ChallengeStatus.Completed ∨
    ev = Event.ActionChallengeCompleted oldCh.id)

theorem record_challenge_forall2 (now : Nat) (ev : Event) (cs : List Challenge)
    (htgt : ∀ ch ∈ cs, ∀ r ∈ ch.requirements, targetPos r = true)
    (hle : ∀ ch ∈ cs, ∀ r ∈ ch.requirements, progVal r ≤ 1) :
    List.Forall₂ (fun a b => C6R ev a b ∧ b.status = a.status) cs
      (record_challenge_progress now ev cs) := by
  unfold record_challenge_progress
  rw [List.forall₂_map_right_iff, List.forall₂_same]
  intro ch hch
  by_cases hcomp : ch.status = ChallengeStatus.Completed
  · rw [if_pos hcomp]
    exact ⟨⟨rfl,
      List.forall₂_same.mpr (fun r hr => ⟨le_refl _, hle ch hch r hr, rfl, rfl⟩),
      fun _ => rfl, Or.inl rfl, fun h => Or.inl h⟩, rfl⟩
  · rw [if_neg hcomp]
    refine ⟨⟨rfl, ?_, fun h => absurd h hcomp, ?_, fun h => Or.inl h⟩, rfl⟩
    · exact updateFirstWhere_forall2 _ _ _ ch.requirements
        (fun r hr => ⟨le_refl _, hle ch hch r hr, rfl, rfl⟩)
        (fun r hr _ => applyReqUpdate_facts now ev r (hle ch hch r hr) (htgt ch hch r hr))
    · rcases updateFirstWhere_decomp reqIncomplete (applyReqUpdate now ev)
          ch.requirements with h | ⟨l1, x, l2, hsp, hall, hx, hres⟩
      · exact Or.inl h
      · exact Or.inr ⟨l1, x, applyReqUpdate now ev x, l2, hsp, hall, hx, hres⟩

theorem checkStatuses_forall2 (cs : List Challenge) :
    List.Forall₂ (fun m b => b.id = m.id ∧ b.requirements = m.requirements ∧
      (b.status = ChallengeStatus.Completed → m.status = ChallengeStatus.Completed))
      cs (checkChallengeStatuses cs) := by
  unfold checkChallengeStatuses
  rw [List.forall₂_map_right_iff, List.forall₂_same]
  intro ch hch
  split_ifs with h1 h2 h3
  · exact ⟨rfl, rfl, fun h => h⟩
  · exact ⟨rfl, rfl, fun h => h⟩
  · exact ⟨rfl, rfl, fun h => by simp at h⟩
  · exact ⟨rfl, rfl, fun h => h⟩

theorem challenge_track_step (now : Nat) (ev : Event) (cs : List Challenge)
    (htgt : ∀ ch ∈ cs, ∀ r ∈ ch.requirements, targetPos r = true)
    (hle : ∀ ch ∈ cs, ∀ r ∈ ch.requirements, progVal r ≤ 1)
    (hnd : (cs.map (fun ch => ch.id)).Nodup) :
    List.Forall₂ (C6R ev) cs
      (checkChallengeStatuses (record_challenge_progress now ev cs)) ∧
    ∀ name ∈ checkChallengeEmissions (record_challenge_progress now ev cs),
      ∃ ch, (checkChallengeStatuses (record_challenge_progress now ev cs)).find?
          (fun c => c.id = name) = some ch ∧
        ∀ r ∈ ch.requirements, progVal r = 1 := by
  have hrec := record_challenge_forall2 now ev cs htgt hle
  have hst := checkStatuses_forall2 (record_challenge_progress now ev cs)
  have hcomp : List.Forall₂ (C6R ev) cs
      (checkChallengeStatuses (record_challenge_progress now ev cs)) := by
    refine forall2_trans ?_ hrec hst
    rintro a m b ⟨⟨hid, hreq, hfr, hdec, hstat⟩, hsteq⟩ ⟨hid2, hreq2, hstat2⟩
    refine ⟨hid2.trans hid, hreq2 ▸ hreq, fun h => hreq2.trans (hfr h),
      ?_, fun h => hstat (hsteq ▸ hstat2 h)⟩
    rw [hreq2]
    exact hdec
  refine ⟨hcomp, ?_⟩
  intro name hname
  have hmem : ∃ chm ∈ record_challenge_progress now ev cs,
      (chm.status ≠ ChallengeStatus.Completed ∧
        ∀ r ∈ chm.requirements, reqIncomplete r = false) ∧ chm.id = name := by
    unfold checkChallengeEmissions at hname
    rcases List.mem_map.mp hname with ⟨chm, hin, hid⟩
    rcases List.mem_filter.mp hin with ⟨hin2, hq⟩
    refine ⟨chm, hin2, ⟨?_, ?_⟩, hid⟩
    · intro h; simp [h] at hq
    · intro r hr
      have := (Bool.and_eq_true_iff.mp hq).2
      rw [List.all_eq_true] at this
      have := this r hr
      simpa using this
  rcases hmem with ⟨chm, hin, ⟨hnc, hall⟩, hid⟩
  rcases forall2_mem_left hst chm hin with ⟨b, hb, hbid, hbreq, hbstat⟩
  have hle2 : ∀ r ∈ chm.requirements, progVal r ≤ 1 := by
    rcases forall2_mem_right hrec chm hin with ⟨a, ha, ⟨_, hreqs, _, _, _⟩, _⟩
    intro r hr
    rcases forall2_mem_right hreqs r hr with ⟨r0, hr0, hrel⟩
    exact hrel.2.1
  have hprog : ∀ r ∈ b.requirements, progVal r = 1 := by
    intro r hr
    rw [hbreq] at hr
    have h1 : ¬ progVal r < 1 := by
      have := hall r hr
      simpa [reqIncomplete] using this
    exact le_antisymm (hle2 r hr) (not_lt.mp h1)
  have hids : ((checkChallengeStatuses (record_challenge_progress now ev cs)).map
      (fun ch => ch.id)).Nodup := by
    rw [forall2_map_eq (fun ch => ch.id) (fun ch => ch.id)
        (fun a b h => h.1) hcomp]
    exact hnd
  exact ⟨b, find?_key_of_nodup (fun ch => ch.id) _ hids b hb name (hbid.trans hid),
    hprog⟩

theorem challenge_complete_step (now : Nat) (name : ChallengeName)
    (cs : List Challenge)
    (hle : ∀ ch ∈ cs, ∀ r ∈ ch.requirements, progVal r ≤ 1) :
    List.Forall₂ (C6R (Event.ActionChallengeCompleted name)) cs
      (completeChallenge now name cs) := by
  unfold completeChallenge
  refine updateFirstWhere_forall2 _ _ _ cs (fun x hx => ?_) (fun x hx hpx => ?_)
  · exact ⟨rfl,
      List.forall₂_same.mpr (fun r hr => ⟨le_refl _, hle x hx r hr, rfl, rfl⟩),
      fun _ => rfl, Or.inl rfl, fun h => Or.inl h⟩
  · have hxid : x.id = name := by simpa using hpx
    exact ⟨rfl,
      List.forall₂_same.mpr (fun r hr => ⟨le_refl _, hle x hx r hr, rfl, rfl⟩),
      fun _ => rfl, Or.inl rfl, fun _ => Or.inr (by rw [hxid])⟩

theorem challenge_refl_forall2 (ev : Event) (cs : List Challenge)
    (hle : ∀ ch ∈ cs, ∀ r ∈ ch.requirements, progVal r ≤ 1) :
    List.Forall₂ (C6R ev) cs cs :=
  List.forall₂_same.mpr (fun ch hch =>
    ⟨rfl, List.forall₂_same.mpr (fun r hr => ⟨le_refl _, hle ch hch r hr, rfl, rfl⟩),
      fun _ => rfl, Or.inl rfl, fun h => Or.inl h⟩)

set_option maxHeartbeats 1000000 in
/-- **C6**: under one step of the challenge listener, requirement progress
never decreases and never exceeds `1` (progress goals add
`word_count / target` clamped at `1`, occurred requirements jump to `1`),
requirement identity is preserved and at most the first incomplete
requirement of a not-yet-completed challenge is rewritten, a status can
become `Completed` only through an `ActionChallengeCompleted` event naming
that challenge, and every completion event the step emits names a
challenge all of whose requirements have reached exactly `1` (the premises
— positive goal targets, progress initially clamped and distinct challenge
names — hold for every challenge list the app ships). -/
theorem C6_challenge_monotonicity (now : Nat) (ev : Event) (cs : List Challenge)
    (htgt : ∀ ch ∈ cs, ∀ r ∈ ch.requirements, targetPos r = true)
    (hle : ∀ ch ∈ cs, ∀ r ∈ ch.requirements, progVal r ≤ 1)
    (hnd : (cs.map (fun ch => ch.id)).Nodup) :
    List.Forall₂ (C6R ev) cs (challengeStep now ev cs).1 ∧
    ∀ name ∈ (challengeStep now ev cs).2,
      ∃ ch, (challengeStep now ev cs).1.find? (fun c => c.id = name) = some ch ∧
        ∀ r ∈ ch.requirements, progVal r = 1 := by
  cases ev <;>
    first
      | exact ⟨(challenge_track_step now _ cs htgt hle hnd).1,
          (challenge_track_step now _ cs htgt hle hnd).2⟩
      | exact ⟨challenge_complete_step now _ cs hle,
          by intro name hn; simp [challengeStep] at hn⟩
      | exact ⟨challenge_refl_forall2 _ cs hle,
          by intro name hn; simp [challengeStep] at hn⟩

/-- Witness for `C6_challenge_monotonicity`: the shipped
customize-shortcuts challenge receiving the shortcut-update event it
tracks. -/
theorem C6_witness :
    List.Forall₂ (C6R (Event.ShortcutUpdate shortcutsDefault))
        [create_customize_shortcuts_challenge]
        (challengeStep 7 (Event.ShortcutUpdate shortcutsDefault)
          [create_customize_shortcuts_challenge]).1 ∧
    ∀ name ∈ (challengeStep 7 (Event.ShortcutUpdate shortcutsDefault)
        [create_customize_shortcuts_challenge]).2,
      ∃ ch, (challengeStep 7 (Event.ShortcutUpdate shortcutsDefault)
          [create_customize_shortcuts_challenge]).1.find?
          (fun c => c.id = name) = some ch ∧
        ∀ r ∈ ch.requirements, progVal r = 1 :=
  C6_challenge_monotonicity 7 (Event.ShortcutUpdate shortcutsDefault)
    [create_customize_shortcuts_challenge] (by decide) (by decide) (by decide)

mutual

theorem Json.beq_refl : ∀ a : Json, Json.beq a a = true
  | Json.null => rfl
  | Json.bool b => by simp [Json.beq]
  | Json.num n => by simp [Json.beq]
  | Json.str s => by simp [Json.beq]
  | Json.arr xs => by simp [Json.beq, Json.beqList_refl xs]
  | Json.obj fs => by simp [Json.beq, Json.beqFields_refl fs]

theorem Json.beqList_refl : ∀ xs : List Json, Json.beqList xs xs = true
  | [] => rfl
  | x :: xs => by simp [Json.beqList, Json.beq_refl x, Json.beqList_refl xs]

theorem Json.beqFields_refl : ∀ fs : List (String × Json), Json.beqFields fs fs = true
  | [] => rfl
  | (k, v) :: fs => by
    simp [Json.beqFields, Json.beq_refl v, Json.beqFields_refl fs]

end

mutual

theorem Json.beq_sound : ∀ a b : Json, Json.beq a b = true → a = b
  | Json.null, Json.null, _ => rfl
  | Json.bool a, Json.bool b, h => by simpa [Json.beq] using h
  | Json.num a, Json.num b, h => by simpa [Json.beq] using h
  | Json.str a, Json.str b, h => by simpa [Json.beq] using h
  | Json.arr xs, Json.arr ys, h => by
    have := Json.beqList_sound xs ys (by simpa [Json.beq] using h)
    rw [this]
  | Json.obj fs, Json.obj gs, h => by
    have := Json.beqFields_sound fs gs (by simpa [Json.beq] using h)
    rw [this]
  | Json.null, Json.bool _, h => by simp [Json.beq] at h
  | Json.null, Json.num _, h => by simp [Json.beq] at h
  | Json.null, Json.str _, h => by simp [Json.beq] at h
  | Json.null, Json.arr _, h => by simp [Json.beq] at h
  | Json.null, Json.obj _, h => by simp [Json.beq] at h
  | Json.bool _, Json.null, h => by simp [Json.beq] at h
  | Json.bool _, Json.num _, h => by simp [Json.beq] at h
  | Json.bool _, Json.str _, h => by simp [Json.beq] at h
  | Json.bool _, Json.arr _, h => by simp [Json.beq] at h
  | Json.bool _, Json.obj _, h => by simp [Json.beq] at h
  | Json.num _, Json.null, h => by simp [Json.beq] at h
  | Json.num _, Json.bool _, h => by simp [Json.beq] at h
  | Json.num _, Json.str _, h => by simp [Json.beq] at h
  | Json.num _, Json.arr _, h => by simp [Json.beq] at h
  | Json.num _, Json.obj _, h => by simp [Json.beq] at h
  | Json.str _, Json.null, h => by simp [Json.beq] at h
  | Json.str _, Json.bool _, h => by simp [Json.beq] at h
  | Json.str _, Json.num _, h => by simp [Json.beq] at h
  | Json.str _, Json.arr _, h => by simp [Json.beq] at h
  | Json.str _, Json.obj _, h => by simp [Json.beq] at h
  | Json.arr _, Json.null, h => by simp [Json.beq] at h
  | Json.arr _, Json.bool _, h => by simp [Json.beq] at h
  | Json.arr _, Json.num _, h => by simp [Json.beq] at h
  | Json.arr _, Json.str _, h => by simp [Json.beq] at h
  | Json.arr _, Json.obj _, h => by simp [Json.beq] at h
  | Json.obj _, Json.null, h => by simp [Json.beq] at h
  | Json.obj _, Json.bool _, h => by simp [Json.beq] at h
  | Json.obj _, Json.num _, h => by simp [Json.beq] at h
  | Json.obj _, Json.str _, h => by simp [Json.beq] at h
  | Json.obj _, Json.arr _, h => by simp [Json.beq] at h

theorem Json.beqList_sound : ∀ xs ys : List Json, Json.beqList xs ys = true → xs = ys
  | [], [], _ => rfl
  | [], _ :: _, h => by simp [Json.beqList] at h
  | _ :: _, [], h => by simp [Json.beqList] at h
  | x :: xs, y :: ys, h => by
    have h2 : Json.beq x y = true ∧ Json.beqList xs ys = true := by
      simpa [Json.beqList, Bool.and_eq_true] using h
    rw [Json.beq_sound x y h2.1, Json.beqList_sound xs ys h2.2]

theorem Json.beqFields_sound :
    ∀ fs gs : List (String × Json), Json.beqFields fs gs = true → fs = gs
  | [], [], _ => rfl
  | [], _ :: _, h => by simp [Json.beqFields] at h
  | _ :: _, [], h => by simp [Json.beqFields] at h
  | (k, v) :: fs, (k2, v2) :: gs, h => by
    have h2 : (k = k2 ∧ Json.beq v v2 = true) ∧ Json.beqFields fs gs = true := by
      simpa [Json.beqFields, Bool.and_eq_true] using h
    rw [h2.1.1, Json.beq_sound v v2 h2.1.2, Json.beqFields_sound fs gs h2.2]

end

instance : DecidableEq Json := fun a b =>
  if h : Json.beq a b = true then isTrue (Json.beq_sound a b h)
  else isFalse (fun he => h (he ▸ Json.beq_refl a))

theorem char_toNat_inj {a b : Char} (h : a.toNat = b.toNat) : a = b :=
  Char.ext (UInt32.ext h)

theorem charsLtB_irrefl : ∀ l : List Char, charsLtB l l = false := by
  intro l
  induction l with
  | nil => rfl
  | cons a l ih => simp [charsLtB, ih]

theorem charsLtB_trans : ∀ (a b c : List Char),
    charsLtB a b = true → charsLtB b c = true → charsLtB a c = true := by
  intro a
  induction a with
  | nil =>
    intro b c h1 h2
    cases b with
    | nil => simp [charsLtB] at h1
    | cons y ys =>
      cases c with
      | nil => simp [charsLtB] at h2
      | cons z zs => simp [charsLtB]
  | cons x xs ih =>
    intro b c h1 h2
    cases b with
    | nil => simp [charsLtB] at h1
    | cons y ys =>
      cases c with
      | nil => simp [charsLtB] at h2
      | cons z zs =>
        simp only [charsLtB] at h1 h2 ⊢
        split at h1
        · rename_i hxy
          split at h2
          · rename_i hyz
            rw [if_pos (by omega)]
          · split at h2
            · simp at h2
            · rename_i hyz hzy
              rw [if_pos (by omega)]
        · split at h1
          · simp at h1
          · rename_i hxy hyx
            split at h2
            · rename_i hyz
              rw [if_pos (by omega)]
            · split at h2
              · simp at h2
              · rename_i hyz hzy
                rw [if_neg (by omega), if_neg (by omega)]
                exact ih ys zs h1 h2

theorem charsLtB_connex : ∀ (a b : List Char),
    charsLtB a b = false → charsLtB b a = false → a = b := by
  intro a
  induction a with
  | nil =>
    intro b h1 _
    cases b with
    | nil => rfl
    | cons y ys => simp [charsLtB] at h1
  | cons x xs ih =>
    intro b h1 h2
    cases b with
    | nil => simp [charsLtB] at h2
    | cons y ys =>
      simp only [charsLtB] at h1 h2
      split at h1
      · simp at h1
      · split at h1
        · rename_i hxy hyx
          rw [if_pos hyx] at h2
          simp at h2
        · rename_i hxy hyx
          rw [if_neg (by omega), if_neg (by omega)] at h2
          have hx : x = y := char_toNat_inj (by omega)
          rw [hx, ih ys h1 h2]

theorem strLtB_irrefl (a : String) : strLtB a a = false := charsLtB_irrefl a.data

theorem strLtB_trans {a b c : String} (h1 : strLtB a b = true)
    (h2 : strLtB b c = true) : strLtB a c = true :=
  charsLtB_trans a.data b.data c.data h1 h2

theorem strLtB_connex {a b : String} (h1 : strLtB a b = false)
    (h2 : strLtB b a = false) : a = b := by
  cases a with
  | mk la =>
    cases b with
    | mk lb =>
      have := charsLtB_connex la lb h1 h2
      rw [this]

theorem strLtB_ne {a b : String} (h : strLtB a b = true) : a ≠ b := by
  intro he
  rw [he, strLtB_irrefl] at h
  simp at h

theorem strLtB_asymm {a b : String} (h : strLtB a b = true) : strLtB b a = false := by
  by_contra hc
  have h2 : strLtB b a = true := by
    cases hb : strLtB b a
    · exact absurd hb hc
    · rfl
  exact absurd (strLtB_trans h h2) (by simp [strLtB_irrefl])

theorem sortedKeys_cons : ∀ (k : String) (v : Json) (t : List (String × Json)),
    sortedKeys ((k, v) :: t) = true ↔
      (∀ kv ∈ t, strLtB k kv.1 = true) ∧ sortedKeys t = true := by
  intro k v t
  induction t generalizing k v with
  | nil => simp [sortedKeys]
  | cons h2 t2 ih =>
    rcases h2 with ⟨k2, v2⟩
    constructor
    · intro h
      have hparts : strLtB k k2 = true ∧ sortedKeys ((k2, v2) :: t2) = true := by
        simpa [sortedKeys, Bool.and_eq_true] using h
      have htail := (ih k2 v2).mp hparts.2
      refine ⟨?_, hparts.2⟩
      intro kv hkv
      rcases List.mem_cons.mp hkv with hkv | hkv
      · rw [hkv]; exact hparts.1
      · exact strLtB_trans hparts.1 (htail.1 kv hkv)
    · intro ⟨hall, htail⟩
      have h1 : strLtB k k2 = true := hall (k2, v2) (List.mem_cons_self _ _)
      simpa [sortedKeys, Bool.and_eq_true] using ⟨h1, htail⟩

theorem getField?_none_of_all_gt (k : String) (m : List (String × Json))
    (h : ∀ kv ∈ m, strLtB k kv.1 = true) : getField? m k = none := by
  unfold getField?
  rw [List.find?_eq_none.mpr]
  · rfl
  · intro kv hkv
    simp only [decide_eq_true_eq]
    intro he
    exact strLtB_ne (h kv hkv) he.symm

theorem sorted_ext : ∀ (m1 m2 : List (String × Json)),
    sortedKeys m1 = true → sortedKeys m2 = true →
    (∀ k, getField? m1 k = getField? m2 k) → m1 = m2 := by
  intro m1
  induction m1 with
  | nil =>
    intro m2 _ _ hext
    cases m2 with
    | nil => rfl
    | cons kv t =>
      have := hext kv.1
      simp [getField?, List.find?_cons] at this
  | cons kv1 t1 ih =>
    intro m2 hs1 hs2 hext
    rcases kv1 with ⟨k1, v1⟩
    cases m2 with
    | nil =>
      have := hext k1
      simp [getField?, List.find?_cons] at this
    | cons kv2 t2 =>
      rcases kv2 with ⟨k2, v2⟩
      have hs1c := (sortedKeys_cons k1 v1 t1).mp hs1
      have hs2c := (sortedKeys_cons k2 v2 t2).mp hs2
      have hk : k1 = k2 := by
        by_cases h12 : strLtB k1 k2 = true
        · exfalso
          have hl : getField? ((k1, v1) :: t1) k1 = some v1 := by
            simp [getField?, List.find?_cons]
          have hr : getField? ((k2, v2) :: t2) k1 = none := by
            apply getField?_none_of_all_gt
            intro kv hkv
            rcases List.mem_cons.mp hkv with hkv | hkv
            · rw [hkv]
              exact h12
            · exact strLtB_trans h12 (hs2c.1 kv hkv)
          rw [hext k1, hr] at hl
          simp at hl
        · by_cases h21 : strLtB k2 k1 = true
          · exfalso
            have hr : getField? ((k2, v2) :: t2) k2 = some v2 := by
              simp [getField?, List.find?_cons]
            have hl : getField? ((k1, v1) :: t1) k2 = none := by
              apply getField?_none_of_all_gt
              intro kv hkv
              rcases List.mem_cons.mp hkv with hkv | hkv
              · rw [hkv]; exact h21
              · exact strLtB_trans h21 (hs1c.1 kv hkv)
            rw [← hext k2, hl] at hr
            simp at hr
          · exact strLtB_connex (Bool.eq_false_iff.mpr h12) (Bool.eq_false_iff.mpr h21)
      subst hk
      have hv : v1 = v2 := by
        have := hext k1
        simp [getField?, List.find?_cons] at this
        exact this
      subst hv
      have htt : t1 = t2 := by
        apply ih t2 hs1c.2 hs2c.2
        intro k
        by_cases hkk : k = k1
        · subst hkk
          rw [getField?_none_of_all_gt k t1 hs1c.1,
            getField?_none_of_all_gt k t2 hs2c.1]
        · have := hext k
          simpa [getField?, List.find?_cons, hkk, Ne.symm hkk] using this
      rw [htt]

/-- Replace the value at the first occurrence of key `k` (the shape
`updateFieldWith` takes on a present key). -/
def setField (k : String) (v : Json) (fs : List (String × Json)) :
    List (String × Json) :=
  updateFirstWhere (fun kv => kv.1 = k) (fun kv => (kv.1, v)) fs

theorem getField?_cons (k2 : String) (v2 : Json) (rest : List (String × Json))
    (k : String) :
    getField? ((k2, v2) :: rest) k = if k2 = k then some v2 else getField? rest k := by
  by_cases h : k2 = k <;> simp [getField?, List.find?_cons, h]

theorem updateFieldWith_eq (k : String) (g : Json → Option Json) :
    ∀ (fs : List (String × Json)) (v : Json), getField? fs k = some v →
      updateFieldWith k g fs = (g v).map (fun v2 => setField k v2 fs) := by
  intro fs
  induction fs with
  | nil => intro v hv; simp [getField?] at hv
  | cons kv2 rest ih =>
    intro v hv
    rcases kv2 with ⟨k2, v2⟩
    by_cases h : k2 = k
    · rw [getField?_cons, if_pos h] at hv
      have hv2 : v2 = v := by injection hv
      subst hv2
      simp [updateFieldWith, h, setField, updateFirstWhere]
    · rw [getField?_cons, if_neg h] at hv
      simp only [updateFieldWith, if_neg h, ih v hv, setField, updateFirstWhere]
      cases g v <;> simp [h]

theorem getField?_setField_self (k : String) (v2 : Json) :
    ∀ (fs : List (String × Json)) (v : Json), getField? fs k = some v →
      getField? (setField k v2 fs) k = some v2 := by
  intro fs
  induction fs with
  | nil => intro v hv; simp [getField?] at hv
  | cons kv rest ih =>
    intro v hv
    rcases kv with ⟨k1, v1⟩
    by_cases h : k1 = k
    · simp only [setField, updateFirstWhere]
      rw [if_pos (by simpa using h), getField?_cons, if_pos h]
    · rw [getField?_cons, if_neg h] at hv
      simp only [setField, updateFirstWhere]
      rw [if_neg (by simpa using h), getField?_cons, if_neg h]
      exact ih v hv

theorem getField?_setField_ne (k k2 : String) (v : Json) (hne : k2 ≠ k) :
    ∀ fs : List (String × Json),
      getField? (setField k v fs) k2 = getField? fs k2 := by
  intro fs
  induction fs with
  | nil => rfl
  | cons kv rest ih =>
    rcases kv with ⟨k1, v1⟩
    by_cases h : k1 = k
    · simp only [setField, updateFirstWhere]
      rw [if_pos (by simpa using h), getField?_cons, getField?_cons]
      subst h
      rw [if_neg (fun hc => hne hc.symm), if_neg (fun hc => hne hc.symm)]
    · simp only [setField, updateFirstWhere]
      rw [if_neg (by simpa using h), getField?_cons, getField?_cons]
      by_cases h2 : k1 = k2
      · rw [if_pos h2, if_pos h2]
      · rw [if_neg h2, if_neg h2]
        exact ih

theorem setField_setField (k : String) (v2 v3 : Json) :
    ∀ fs : List (String × Json),
      setField k v3 (setField k v2 fs) = setField k v3 fs := by
  intro fs
  induction fs with
  | nil => rfl
  | cons kv rest ih =>
    rcases kv with ⟨k1, v1⟩
    by_cases h : k1 = k
    · simp [setField, updateFirstWhere, h]
    · simp only [setField, updateFirstWhere] at ih ⊢
      simp [updateFirstWhere, h, ih]

theorem setField_self (k : String) :
    ∀ (fs : List (String × Json)) (v : Json), getField? fs k = some v →
      setField k v fs = fs := by
  intro fs
  induction fs with
  | nil => intro v hv; simp [getField?] at hv
  | cons kv rest ih =>
    intro v hv
    rcases kv with ⟨k1, v1⟩
    by_cases h : k1 = k
    · rw [getField?_cons, if_pos h] at hv
      have hv1 : v1 = v := by injection hv
      subst hv1
      simp only [setField, updateFirstWhere]
      rw [if_pos (by simpa using h)]
    · rw [getField?_cons, if_neg h] at hv
      simp only [setField, updateFirstWhere]
      rw [if_neg (by simpa using h)]
      have := ih v hv
      simp only [setField] at this
      rw [this]

theorem setField_append (k : String) (v lv : Json)
    (done rest : List (String × Json)) (hdone : ∀ kv ∈ done, kv.1 ≠ k) :
    setField k v (done ++ (k, lv) :: rest) = done ++ (k, v) :: rest := by
  induction done with
  | nil =>
    simp only [List.nil_append, setField, updateFirstWhere]
    rw [if_pos (by simp)]
  | cons kv2 done2 ih =>
    simp only [List.cons_append, setField, updateFirstWhere]
    rw [if_neg (by simpa using hdone kv2 (List.mem_cons_self _ _))]
    have := ih (fun kv hkv => hdone kv (List.mem_cons_of_mem _ hkv))
    simp only [setField] at this
    simp only [List.append_eq]
    rw [this]

theorem filter_remove_key (k : String) (lv : Json) :
    ∀ (done rest : List (String × Json)), (∀ kv ∈ done, kv.1 ≠ k) →
      (∀ kv ∈ rest, kv.1 ≠ k) →
      (done ++ (k, lv) :: rest).filter (fun kv => kv.1 ≠ k) = done ++ rest := by
  intro done
  induction done with
  | nil =>
    intro rest _ hrest
    simp only [List.nil_append, List.filter_cons]
    rw [if_neg (by simp)]
    exact List.filter_eq_self.mpr (fun kv hkv => by simpa using hrest kv hkv)
  | cons kv2 done2 ih =>
    intro rest hdone hrest
    simp only [List.cons_append, List.filter_cons]
    rw [if_pos (by simpa using hdone kv2 (List.mem_cons_self _ _))]
    rw [ih rest (fun kv hkv => hdone kv (List.mem_cons_of_mem _ hkv)) hrest]

theorem getField?_append_of_notin (k : String) (l1 l2 : List (String × Json))
    (h : ∀ kv ∈ l1, kv.1 ≠ k) : getField? (l1 ++ l2) k = getField? l2 k := by
  induction l1 with
  | nil => rfl
  | cons kv rest ih =>
    rcases kv with ⟨k1, v1⟩
    rw [List.cons_append, getField?_cons,
      if_neg (by simpa using h (k1, v1) (List.mem_cons_self _ _))]
    exact ih (fun kv hkv => h kv (List.mem_cons_of_mem _ hkv))

theorem canonicalFields_mem :
    ∀ fs : List (String × Json), Json.canonicalFields fs = true →
      ∀ kv ∈ fs, Json.canonical kv.2 = true := by
  intro fs
  induction fs with
  | nil => intro _ kv hkv; simp at hkv
  | cons kv2 rest ih =>
    intro h kv hkv
    rcases kv2 with ⟨k2, v2⟩
    have hp : Json.canonical v2 = true ∧ Json.canonicalFields rest = true := by
      simpa [Json.canonicalFields, Bool.and_eq_true] using h
    rcases List.mem_cons.mp hkv with hkv | hkv
    · rw [hkv]; exact hp.1
    · exact ih hp.2 kv hkv

theorem canonicalList_mem :
    ∀ xs : List Json, Json.canonicalList xs = true →
      ∀ x ∈ xs, Json.canonical x = true := by
  intro xs
  induction xs with
  | nil => intro _ x hx; simp at hx
  | cons y rest ih =>
    intro h x hx
    have hp : Json.canonical y = true ∧ Json.canonicalList rest = true := by
      simpa [Json.canonicalList, Bool.and_eq_true] using h
    rcases List.mem_cons.mp hx with hx | hx
    · rw [hx]; exact hp.1
    · exact ih hp.2 x hx

theorem getField?_canonical (fs : List (String × Json)) (k : String) (v : Json)
    (hc : Json.canonicalFields fs = true) (hv : getField? fs k = some v) :
    Json.canonical v = true := by
  unfold getField? at hv
  rcases hmap : fs.find? (fun kv => kv.1 = k) with _ | kv
  · rw [hmap] at hv; simp at hv
  · rw [hmap] at hv
    have hkv : kv ∈ fs := List.mem_of_find?_eq_some hmap
    have : kv.2 = v := by simpa using hv
    rw [← this]
    exact canonicalFields_mem fs hc kv hkv

theorem updateNthWith_eq (g : Json → Option Json) :
    ∀ (xs : List Json) (i : Nat) (x : Json), xs.get? i = some x →
      updateNthWith g i xs = (g x).map (fun v2 => xs.set i v2) := by
  intro xs
  induction xs with
  | nil => intro i x hx; simp at hx
  | cons y ys ih =>
    intro i x hx
    cases i with
    | zero =>
      have hxy : y = x := by simpa using hx
      subst hxy
      simp only [updateNthWith]
      cases g y <;> simp
    | succ n =>
      have hx2 : ys.get? n = some x := by simpa using hx
      simp only [updateNthWith, ih n x hx2]
      cases g x <;> simp

theorem get?_append_length (x : Json) :
    ∀ (pre xs : List Json), (pre ++ x :: xs).get? pre.length = some x := by
  intro pre
  induction pre with
  | nil => intro xs; rfl
  | cons y ys ih => intro xs; simpa using ih xs

theorem set_append_length (x y : Json) :
    ∀ (pre xs : List Json), (pre ++ x :: xs).set pre.length y = pre ++ y :: xs := by
  intro pre
  induction pre with
  | nil => intro xs; rfl
  | cons z zs ih => intro xs; simp [ih xs]

theorem insertAt_length (v : Json) :
    ∀ pre : List Json, insertAt v pre.length pre = pre ++ [v] := by
  intro pre
  induction pre with
  | nil => rfl
  | cons y ys ih => simp [insertAt, ih]

theorem eraseIdx_append (x : Json) :
    ∀ (ra t : List Json), (ra ++ x :: t).eraseIdx ra.length = ra ++ t := by
  intro ra
  induction ra with
  | nil => intro t; rfl
  | cons y ys ih => intro t; simp [List.eraseIdx, ih t]

/-- The operations `json_patch::diff` can emit: never an `add` or `remove`
at the document root. -/
def opOk : PatchOp → Prop
  | PatchOp.add [] _ => False
  | PatchOp.remove [] => False
  | _ => True

theorem opOk_prefixed (st : PathStep) (op : PatchOp) : opOk (prefixOp st op) := by
  cases op <;> simp [prefixOp, opOk]

theorem diff_ops_ok : ∀ (a b : Json) (op : PatchOp), op ∈ Json.diff a b → opOk op := by
  intro a b op hop
  have hobjR : ∀ lf rf, op ∈ diffObjR lf rf → opOk op := by
    intro lf rf h
    rcases List.mem_filterMap.mp h with ⟨kv, _, hkv⟩
    split at hkv
    · simp at hkv
    · have : op = PatchOp.add [PathStep.key kv.1] kv.2 := by
        injection hkv with h2
        rw [← h2]
      rw [this]; trivial
  have harr : ∀ la ra, op ∈ arrTailOps la ra → opOk op := by
    intro la ra h
    unfold arrTailOps at h
    rcases List.mem_append.mp h with h | h
    · have := List.eq_of_mem_replicate h
      rw [this]; trivial
    · rcases List.mem_map.mp h with ⟨iv, _, hiv⟩
      rw [← hiv]; trivial
  have hfieldsL : ∀ lf rf, op ∈ Json.diffFieldsL lf rf → opOk op := by
    intro lf
    induction lf with
    | nil => intro rf h; simp [Json.diffFieldsL] at h
    | cons kv rest ih =>
      intro rf h
      rcases kv with ⟨k, lv⟩
      rw [Json.diffFieldsL] at h
      rcases List.mem_append.mp h with h | h
      · split at h
        · rcases List.mem_map.mp h with ⟨op2, _, hop2⟩
          rw [← hop2]; exact opOk_prefixed _ _
        · have : op = PatchOp.remove [PathStep.key k] := by simpa using h
          rw [this]; trivial
      · exact ih rf h
  have helems : ∀ i la ra, op ∈ Json.diffElems i la ra → opOk op := by
    intro i la
    induction la generalizing i with
    | nil => intro ra h; simp [Json.diffElems] at h
    | cons x xs ih =>
      intro ra h
      cases ra with
      | nil => simp [Json.diffElems] at h
      | cons y ys =>
        rw [Json.diffElems] at h
        rcases List.mem_append.mp h with h | h
        · rcases List.mem_map.mp h with ⟨op2, _, hop2⟩
          rw [← hop2]; exact opOk_prefixed _ _
        · exact ih (i + 1) ys h
  match a, b with
  | Json.obj lf, Json.obj rf =>
    rw [Json.diff] at hop
    rcases List.mem_append.mp hop with h | h
    · exact hfieldsL lf rf h
    · exact hobjR lf rf h
  | Json.arr la, Json.arr ra =>
    rw [Json.diff] at hop
    rcases List.mem_append.mp hop with h | h
    · exact helems 0 la ra h
    · exact harr la ra h
  | Json.null, Json.null | Json.null, Json.bool _ | Json.null, Json.num _
  | Json.null, Json.str _ | Json.null, Json.arr _ | Json.null, Json.obj _
  | Json.bool _, Json.null | Json.bool _, Json.bool _ | Json.bool _, Json.num _
  | Json.bool _, Json.str _ | Json.bool _, Json.arr _ | Json.bool _, Json.obj _
  | Json.num _, Json.null | Json.num _, Json.bool _ | Json.num _, Json.num _
  | Json.num _, Json.str _ | Json.num _, Json.arr _ | Json.num _, Json.obj _
  | Json.str _, Json.null | Json.str _, Json.bool _ | Json.str _, Json.num _
  | Json.str _, Json.str _ | Json.str _, Json.arr _ | Json.str _, Json.obj _
  | Json.arr _, Json.null | Json.arr _, Json.bool _ | Json.arr _, Json.num _
  | Json.arr _, Json.str _ | Json.arr _, Json.obj _
  | Json.obj _, Json.null | Json.obj _, Json.bool _ | Json.obj _, Json.num _
  | Json.obj _, Json.str _ | Json.obj _, Json.arr _ =>
    simp only [Json.diff] at hop
    split at hop
    · simp at hop
    · rw [List.mem_singleton] at hop
      rw [hop]; trivial

theorem applyOp_prefix_key (k : String) (op : PatchOp) (fs : List (String × Json))
    (v : Json) (hok : opOk op) (hv : getField? fs k = some v) :
    applyOp (prefixOp (PathStep.key k) op) (Json.obj fs) =
      (applyOp op v).map (fun v2 => Json.obj (setField k v2 fs)) := by
  cases op with
  | add p v0 =>
    cases p with
    | nil => simp [opOk] at hok
    | cons q qs =>
      simp only [prefixOp, applyOp, applyAdd]
      rw [updateFieldWith_eq k _ fs v hv]
      cases applyAdd (q :: qs) v0 v <;> simp
  | remove p =>
    cases p with
    | nil => simp [opOk] at hok
    | cons q qs =>
      simp only [prefixOp, applyOp, applyRemove]
      rw [updateFieldWith_eq k _ fs v hv]
      cases applyRemove (q :: qs) v <;> simp
  | replace p v0 =>
    simp only [prefixOp, applyOp, applyReplace]
    rw [updateFieldWith_eq k _ fs v hv]
    cases applyReplace p v0 v <;> simp

theorem get?_set_self (i : Nat) (vm : Json) :
    ∀ (xs : List Json) (v : Json), xs.get? i = some v →
      (xs.set i vm).get? i = some vm := by
  induction i with
  | zero =>
    intro xs v hv
    cases xs with
    | nil => simp at hv
    | cons y ys => simp
  | succ n ih =>
    intro xs v hv
    cases xs with
    | nil => simp at hv
    | cons y ys =>
      simp only [List.set]
      have := ih ys v (by simpa using hv)
      simpa using this

theorem set_eq_self_of_get? :
    ∀ (i : Nat) (xs : List Json) (v : Json), xs.get? i = some v →
      xs.set i v = xs := by
  intro i
  induction i with
  | zero =>
    intro xs v hv
    cases xs with
    | nil => simp at hv
    | cons y ys =>
      have : y = v := by simpa using hv
      simp [this]
  | succ n ih =>
    intro xs v hv
    cases xs with
    | nil => simp at hv
    | cons y ys =>
      simp only [List.set]
      rw [ih ys v (by simpa using hv)]

theorem applyOp_prefix_idx (i : Nat) (op : PatchOp) (xs : List Json)
    (v : Json) (hok : opOk op) (hv : xs.get? i = some v) :
    applyOp (prefixOp (PathStep.idx i) op) (Json.arr xs) =
      (applyOp op v).map (fun v2 => Json.arr (xs.set i v2)) := by
  cases op with
  | add p v0 =>
    cases p with
    | nil => simp [opOk] at hok
    | cons q qs =>
      simp only [prefixOp, applyOp, applyAdd]
      rw [updateNthWith_eq _ xs i v hv]
      cases applyAdd (q :: qs) v0 v <;> simp
  | remove p =>
    cases p with
    | nil => simp [opOk] at hok
    | cons q qs =>
      simp only [prefixOp, applyOp, applyRemove]
      rw [updateNthWith_eq _ xs i v hv]
      cases applyRemove (q :: qs) v <;> simp
  | replace p v0 =>
    simp only [prefixOp, applyOp, applyReplace]
    rw [updateNthWith_eq _ xs i v hv]
    cases applyReplace p v0 v <;> simp

theorem applyPatch_prefix_key (k : String) :
    ∀ (ops : List PatchOp) (fs : List (String × Json)) (v v2 : Json),
      (∀ op ∈ ops, opOk op) → getField? fs k = some v →
      applyPatch ops v = some v2 →
      applyPatch (ops.map (prefixOp (PathStep.key k))) (Json.obj fs) =
        some (Json.obj (setField k v2 fs)) := by
  intro ops
  induction ops with
  | nil =>
    intro fs v v2 _ hv hp
    have hvv : v = v2 := by simpa [applyPatch] using hp
    subst hvv
    simp [applyPatch, setField_self k fs v hv]
  | cons op rest ih =>
    intro fs v v2 hok hv hp
    rw [applyPatch] at hp
    split at hp
    · rename_i vm hm
      simp only [List.map_cons, applyPatch]
      rw [applyOp_prefix_key k op fs v (hok op (List.mem_cons_self _ _)) hv, hm]
      simp only [Option.map_some']
      have hrest := ih (setField k vm fs) vm v2
        (fun op2 h2 => hok op2 (List.mem_cons_of_mem _ h2))
        (getField?_setField_self k vm fs v hv) hp
      rw [setField_setField] at hrest
      exact hrest
    · simp at hp

theorem applyPatch_prefix_idx (i : Nat) :
    ∀ (ops : List PatchOp) (xs : List Json) (v v2 : Json),
      (∀ op ∈ ops, opOk op) → xs.get? i = some v →
      applyPatch ops v = some v2 →
      applyPatch (ops.map (prefixOp (PathStep.idx i))) (Json.arr xs) =
        some (Json.arr (xs.set i v2)) := by
  intro ops
  induction ops with
  | nil =>
    intro xs v v2 _ hv hp
    have hvv : v = v2 := by simpa [applyPatch] using hp
    subst hvv
    simp [applyPatch, set_eq_self_of_get? i xs v hv]
  | cons op rest ih =>
    intro xs v v2 hok hv hp
    rw [applyPatch] at hp
    split at hp
    · rename_i vm hm
      simp only [List.map_cons, applyPatch]
      rw [applyOp_prefix_idx i op xs v (hok op (List.mem_cons_self _ _)) hv, hm]
      simp only [Option.map_some']
      have hrest := ih (xs.set i vm) vm v2
        (fun op2 h2 => hok op2 (List.mem_cons_of_mem _ h2))
        (get?_set_self i vm xs v hv) hp
      rw [List.set_set] at hrest
      exact hrest
    · simp at hp

theorem applyPatch_append :
    ∀ (p1 p2 : List PatchOp) (doc : Json),
      applyPatch (p1 ++ p2) doc = (applyPatch p1 doc).bind (applyPatch p2) := by
  intro p1
  induction p1 with
  | nil => intro p2 doc; simp [applyPatch]
  | cons op rest ih =>
    intro p2 doc
    simp only [List.cons_append, applyPatch]
    rcases hm : applyOp op doc with _ | d2
    · simp
    · exact ih p2 d2

/-- The object produced by the left-to-right pass of `diff` on objects:
keys the right also has take the right's (patched) value, keys it lacks
are dropped. -/
def mergeFields : List (String × Json) → List (String × Json) → List (String × Json)
  | [], _ => []
  | (k, _) :: rest, rf =>
    match getField? rf k with
    | some rv => (k, rv) :: mergeFields rest rf
    | none => mergeFields rest rf

/-- The array produced by the indexwise pass of `diff` on arrays: the
common prefix takes the right's values, the longer left tail survives. -/
def mergeElems : List Json → List Json → List Json
  | [], _ => []
  | xs, [] => xs
  | _ :: xs, y :: ys => y :: mergeElems xs ys

theorem diffFieldsL_apply (N : Nat)
    (IH : ∀ l r : Json, sizeOf l ≤ N → Json.canonical l = true →
      Json.canonical r = true → applyPatch (Json.diff l r) l = some r)
    (rf : List (String × Json)) (hcrf : Json.canonicalFields rf = true) :
    ∀ (todo done : List (String × Json)),
      (∀ kv ∈ todo, sizeOf kv.2 ≤ N) →
      Json.canonicalFields todo = true →
      (∀ kv ∈ done, ∀ kv2 ∈ todo, kv.1 ≠ kv2.1) →
      (todo.map Prod.fst).Nodup →
      applyPatch (Json.diffFieldsL todo rf) (Json.obj (done ++ todo)) =
        some (Json.obj (done ++ mergeFields todo rf)) := by
  intro todo
  induction todo with
  | nil =>
    intro done _ _ _ _
    simp [Json.diffFieldsL, applyPatch, mergeFields]
  | cons kv rest ih =>
    intro done hsz hct hdisj hnd
    rcases kv with ⟨k, lv⟩
    have hknotdone : ∀ kv2 ∈ done, kv2.1 ≠ k :=
      fun kv2 h2 => hdisj kv2 h2 (k, lv) (List.mem_cons_self _ _)
    have hknotrest : ∀ kv2 ∈ rest, kv2.1 ≠ k := by
      intro kv2 h2 he
      have : k ∈ rest.map Prod.fst := he ▸ List.mem_map_of_mem Prod.fst h2
      exact (List.nodup_cons.mp (by simpa using hnd)).1 this
    have hlv : getField? (done ++ (k, lv) :: rest) k = some lv := by
      rw [getField?_append_of_notin k done _ hknotdone, getField?_cons, if_pos rfl]
    have hclv : Json.canonical lv = true :=
      (Bool.and_eq_true_iff.mp (by simpa [Json.canonicalFields] using hct)).1
    have hcrest : Json.canonicalFields rest = true :=
      (Bool.and_eq_true_iff.mp (by simpa [Json.canonicalFields] using hct)).2
    rw [Json.diffFieldsL, applyPatch_append]
    rcases hrv : getField? rf k with _ | rv
    · have hrm : applyPatch [PatchOp.remove [PathStep.key k]]
          (Json.obj (done ++ (k, lv) :: rest)) = some (Json.obj (done ++ rest)) := by
        simp only [applyPatch, applyOp, applyRemove]
        rw [if_pos (by
          rw [List.any_eq_true]
          exact ⟨(k, lv), List.mem_append_right _ (List.mem_cons_self _ _), by simp⟩)]
        rw [filter_remove_key k lv done rest hknotdone hknotrest]
      rw [hrm]
      rw [Option.some_bind]
      have := ih done (fun kv2 h2 => hsz kv2 (List.mem_cons_of_mem _ h2)) hcrest
        (fun kv2 h2 kv3 h3 => hdisj kv2 h2 kv3 (List.mem_cons_of_mem _ h3))
        ((List.nodup_cons.mp (by simpa using hnd)).2)
      rw [this]
      simp [mergeFields, hrv]
    · have hinner : applyPatch (Json.diff lv rv) lv = some rv :=
        IH lv rv (hsz (k, lv) (List.mem_cons_self _ _)) hclv
          (getField?_canonical rf k rv hcrf hrv)
      have hphase : applyPatch ((Json.diff lv rv).map (prefixOp (PathStep.key k)))
          (Json.obj (done ++ (k, lv) :: rest)) =
          some (Json.obj (done ++ (k, rv) :: rest)) := by
        rw [applyPatch_prefix_key k (Json.diff lv rv) _ lv rv
          (fun op2 h2 => diff_ops_ok lv rv op2 h2) hlv hinner]
        rw [setField_append k rv lv done rest hknotdone]
      rw [hphase]
      rw [Option.some_bind]
      have := ih (done ++ [(k, rv)]) (fun kv2 h2 => hsz kv2 (List.mem_cons_of_mem _ h2))
        hcrest
        (by
          intro kv2 h2 kv3 h3
          rcases List.mem_append.mp h2 with h2 | h2
          · exact hdisj kv2 h2 kv3 (List.mem_cons_of_mem _ h3)
          · have : kv2 = (k, rv) := by simpa using h2
            rw [this]
            exact fun he => hknotrest kv3 h3 he.symm)
        ((List.nodup_cons.mp (by simpa using hnd)).2)
      rw [List.append_assoc] at this
      simp only [List.singleton_append] at this
      rw [this]
      simp [mergeFields, hrv]

theorem sk_nodup : ∀ m : List (String × Json), sortedKeys m = true →
    (m.map Prod.fst).Nodup := by
  intro m
  induction m with
  | nil => intro _; simp
  | cons kv rest ih =>
    intro h
    rcases kv with ⟨k, v⟩
    have hc := (sortedKeys_cons k v rest).mp h
    rw [List.map_cons, List.nodup_cons]
    refine ⟨?_, ih hc.2⟩
    intro hmem
    rcases List.mem_map.mp hmem with ⟨kv2, hkv2, hke⟩
    exact strLtB_ne (hc.1 kv2 hkv2) hke.symm

theorem mergeFields_mem : ∀ (lf rf : List (String × Json)) (kv : String × Json),
    kv ∈ mergeFields lf rf → kv.1 ∈ lf.map Prod.fst := by
  intro lf
  induction lf with
  | nil => intro rf kv h; simp [mergeFields] at h
  | cons kv1 rest ih =>
    intro rf kv h
    rcases kv1 with ⟨k1, lv1⟩
    rw [mergeFields] at h
    rcases hrv : getField? rf k1 with _ | rv
    · rw [hrv] at h
      exact List.mem_cons_of_mem _ (ih rf kv h)
    · rw [hrv] at h
      rcases List.mem_cons.mp h with h | h
      · rw [h]; simp
      · exact List.mem_cons_of_mem _ (ih rf kv h)

theorem mergeFields_sorted : ∀ (lf rf : List (String × Json)),
    sortedKeys lf = true → sortedKeys (mergeFields lf rf) = true := by
  intro lf
  induction lf with
  | nil => intro rf _; rfl
  | cons kv1 rest ih =>
    intro rf hs
    rcases kv1 with ⟨k1, lv1⟩
    have hc := (sortedKeys_cons k1 lv1 rest).mp hs
    rw [mergeFields]
    rcases hrv : getField? rf k1 with _ | rv
    · exact ih rf hc.2
    · rw [sortedKeys_cons]
      refine ⟨?_, ih rf hc.2⟩
      intro kv2 hkv2
      rcases List.mem_map.mp (mergeFields_mem rest rf kv2 hkv2) with ⟨kv3, hkv3, hke⟩
      exact hke ▸ hc.1 kv3 hkv3

theorem filter_sorted (p : String × Json → Bool) :
    ∀ m : List (String × Json), sortedKeys m = true →
      sortedKeys (m.filter p) = true := by
  intro m
  induction m with
  | nil => intro _; rfl
  | cons kv rest ih =>
    intro hs
    rcases kv with ⟨k, v⟩
    have hc := (sortedKeys_cons k v rest).mp hs
    rw [List.filter_cons]
    split
    · rw [sortedKeys_cons]
      refine ⟨?_, ih hc.2⟩
      intro kv2 hkv2
      exact hc.1 kv2 (List.mem_of_mem_filter hkv2)
    · exact ih hc.2

theorem getField?_rest_none (k1 : String) (rest : List (String × Json))
    (hnotin : k1 ∉ rest.map Prod.fst) : getField? rest k1 = none := by
  unfold getField?
  rw [List.find?_eq_none.mpr]
  · rfl
  · intro kv hkv hdec
    exact hnotin (by
      have h2 : kv.1 = k1 := by simpa using hdec
      exact h2 ▸ List.mem_map_of_mem Prod.fst hkv)

theorem getField?_mergeFields :
    ∀ (lf rf : List (String × Json)), ((lf.map Prod.fst).Nodup) → ∀ k,
      getField? (mergeFields lf rf) k =
        match getField? lf k with
        | some _ => getField? rf k
        | none => none := by
  intro lf
  induction lf with
  | nil => intro rf _ k; simp [mergeFields, getField?]
  | cons kv1 rest ih =>
    intro rf hnd k
    rcases kv1 with ⟨k1, lv1⟩
    rw [List.map_cons, List.nodup_cons] at hnd
    have hrnone : getField? rest k1 = none := getField?_rest_none k1 rest hnd.1
    rw [mergeFields]
    rcases hrv : getField? rf k1 with _ | rv
    · show getField? (mergeFields rest rf) k =
        match getField? ((k1, lv1) :: rest) k with
        | some _ => getField? rf k
        | none => none
      by_cases hk : k1 = k
      · subst hk
        rw [ih rf hnd.2 k1, hrnone, getField?_cons, if_pos rfl]
        simp [hrv]
      · rw [ih rf hnd.2 k, getField?_cons, if_neg hk]
    · show getField? ((k1, rv) :: mergeFields rest rf) k =
        match getField? ((k1, lv1) :: rest) k with
        | some _ => getField? rf k
        | none => none
      by_cases hk : k1 = k
      · subst hk
        rw [getField?_cons, if_pos rfl, getField?_cons, if_pos rfl]
        simp [hrv]
      · rw [getField?_cons, if_neg hk, ih rf hnd.2 k, getField?_cons, if_neg hk]

theorem getField?_filter_key (q : String → Bool) :
    ∀ (rf : List (String × Json)), ((rf.map Prod.fst).Nodup) → ∀ k,
      getField? (rf.filter (fun kv => q kv.1)) k =
        match getField? rf k with
        | some v => if q k then some v else none
        | none => none := by
  intro rf
  induction rf with
  | nil => intro _ k; simp [getField?]
  | cons kv1 rest ih =>
    intro hnd k
    rcases kv1 with ⟨k1, v1⟩
    rw [List.map_cons, List.nodup_cons] at hnd
    have hrnone : getField? rest k1 = none := getField?_rest_none k1 rest hnd.1
    rw [List.filter_cons]
    by_cases hq : q k1 = true
    · rw [if_pos (by simpa using hq)]
      by_cases hk : k1 = k
      · subst hk
        rw [getField?_cons, if_pos rfl, getField?_cons, if_pos rfl]
        simp [hq]
      · rw [getField?_cons, if_neg hk, ih hnd.2 k, getField?_cons, if_neg hk]
    · rw [if_neg (by simpa using hq)]
      by_cases hk : k1 = k
      · subst hk
        rw [ih hnd.2 k1, hrnone, getField?_cons, if_pos rfl]
        simp [hq]
      · rw [ih hnd.2 k, getField?_cons, if_neg hk]

theorem mergeFields_eq_filter (lf rf : List (String × Json))
    (hlf : sortedKeys lf = true) (hrf : sortedKeys rf = true) :
    mergeFields lf rf = rf.filter (fun kv => (getField? lf kv.1).isSome) := by
  apply sorted_ext _ _ (mergeFields_sorted lf rf hlf)
    (filter_sorted _ rf hrf)
  intro k
  rw [getField?_mergeFields lf rf (sk_nodup lf hlf) k,
    getField?_filter_key (fun k2 => (getField? lf k2).isSome) rf (sk_nodup rf hrf) k]
  cases getField? lf k <;> cases getField? rf k <;> simp

theorem insertKey_front (k : String) (v : Json) (m : List (String × Json))
    (h : ∀ kv ∈ m, strLtB k kv.1 = true) : insertKey k v m = (k, v) :: m := by
  cases m with
  | nil => rfl
  | cons kv2 rest =>
    rcases kv2 with ⟨k2, v2⟩
    have hlt : strLtB k k2 = true := h (k2, v2) (List.mem_cons_self _ _)
    rw [insertKey, if_neg (strLtB_ne hlt), if_pos hlt]

theorem insertKey_behind (k k2 : String) (v v2 : Json) (m : List (String × Json))
    (hlt : strLtB k k2 = true) :
    insertKey k2 v2 ((k, v) :: m) = (k, v) :: insertKey k2 v2 m := by
  rw [insertKey, if_neg (fun he => strLtB_ne hlt he.symm),
    if_neg (by simp [strLtB_asymm hlt])]

theorem diffObjR_mem (lf rf : List (String × Json)) (op : PatchOp)
    (h : op ∈ diffObjR lf rf) :
    ∃ k2 v2, op = PatchOp.add [PathStep.key k2] v2 ∧ (k2, v2) ∈ rf ∧
      getField? lf k2 = none := by
  rcases List.mem_filterMap.mp h with ⟨kv, hkv, heq⟩
  split at heq
  · simp at heq
  · rename_i hns
    refine ⟨kv.1, kv.2, by injection heq with h2; rw [← h2], by simpa using hkv, ?_⟩
    rcases hg : getField? lf kv.1 with _ | v
    · rfl
    · rw [hg] at hns; simp at hns

theorem applyPatch_adds_behind (k : String) (v : Json) :
    ∀ (ops : List PatchOp) (m m2 : List (String × Json)),
      (∀ op ∈ ops, ∃ k2 v2, op = PatchOp.add [PathStep.key k2] v2 ∧
        strLtB k k2 = true) →
      applyPatch ops (Json.obj m) = some (Json.obj m2) →
      applyPatch ops (Json.obj ((k, v) :: m)) = some (Json.obj ((k, v) :: m2)) := by
  intro ops
  induction ops with
  | nil =>
    intro m m2 _ hp
    have : m = m2 := by
      have h2 : Json.obj m = Json.obj m2 := by simpa [applyPatch] using hp
      injection h2
    rw [this]
    simp [applyPatch]
  | cons op rest ih =>
    intro m m2 hsh hp
    rcases hsh op (List.mem_cons_self _ _) with ⟨k2, v2, hops, hlt⟩
    subst hops
    rw [applyPatch] at hp
    have hstep : applyOp (PatchOp.add [PathStep.key k2] v2) (Json.obj m) =
        some (Json.obj (insertKey k2 v2 m)) := by
      simp [applyOp, applyAdd]
    rw [hstep] at hp
    rw [applyPatch]
    have hstep2 : applyOp (PatchOp.add [PathStep.key k2] v2) (Json.obj ((k, v) :: m)) =
        some (Json.obj ((k, v) :: insertKey k2 v2 m)) := by
      simp [applyOp, applyAdd, insertKey_behind k k2 v v2 m hlt]
    rw [hstep2]
    exact ih (insertKey k2 v2 m) m2
      (fun op2 h2 => hsh op2 (List.mem_cons_of_mem _ h2)) hp

theorem diffObjR_apply (lf : List (String × Json)) :
    ∀ (rf : List (String × Json)), sortedKeys rf = true →
      applyPatch (diffObjR lf rf)
          (Json.obj (rf.filter (fun kv => (getField? lf kv.1).isSome))) =
        some (Json.obj rf) := by
  intro rf
  induction rf with
  | nil => intro _; simp [diffObjR, applyPatch]
  | cons kv1 rest ih =>
    intro hs
    rcases kv1 with ⟨k1, v1⟩
    have hc := (sortedKeys_cons k1 v1 rest).mp hs
    have hmemlift : ∀ op ∈ diffObjR lf rest, ∃ k2 v2,
        op = PatchOp.add [PathStep.key k2] v2 ∧ strLtB k1 k2 = true := by
      intro op hop
      rcases diffObjR_mem lf rest op hop with ⟨k2, v2, hops, hmem, _⟩
      exact ⟨k2, v2, hops, hc.1 (k2, v2) hmem⟩
    rcases hg : getField? lf k1 with _ | glv
    · have hops : diffObjR lf ((k1, v1) :: rest) =
          PatchOp.add [PathStep.key k1] v1 :: diffObjR lf rest := by
        simp [diffObjR, List.filterMap_cons, hg]
      have hfil : ((k1, v1) :: rest).filter (fun kv => (getField? lf kv.1).isSome) =
          rest.filter (fun kv => (getField? lf kv.1).isSome) := by
        rw [List.filter_cons, if_neg (by simp [hg])]
      rw [hops, hfil, applyPatch]
      have hstep : applyOp (PatchOp.add [PathStep.key k1] v1)
          (Json.obj (rest.filter (fun kv => (getField? lf kv.1).isSome))) =
          some (Json.obj ((k1, v1) ::
            rest.filter (fun kv => (getField? lf kv.1).isSome))) := by
        simp only [applyOp, applyAdd]
        rw [insertKey_front k1 v1 _ (fun kv hkv => hc.1 kv (List.mem_of_mem_filter hkv))]
      rw [hstep]
      exact applyPatch_adds_behind k1 v1 (diffObjR lf rest) _ rest hmemlift (ih hc.2)
    · have hops : diffObjR lf ((k1, v1) :: rest) = diffObjR lf rest := by
        simp [diffObjR, List.filterMap_cons, hg]
      have hfil : ((k1, v1) :: rest).filter (fun kv => (getField? lf kv.1).isSome) =
          (k1, v1) :: rest.filter (fun kv => (getField? lf kv.1).isSome) := by
        rw [List.filter_cons, if_pos (by simp [hg])]
      rw [hops, hfil]
      exact applyPatch_adds_behind k1 v1 (diffObjR lf rest) _ rest hmemlift (ih hc.2)

theorem diffElems_apply (N : Nat)
    (IH : ∀ l r : Json, sizeOf l ≤ N → Json.canonical l = true →
      Json.canonical r = true → applyPatch (Json.diff l r) l = some r) :
    ∀ (la ra pre : List Json),
      (∀ x ∈ la, sizeOf x ≤ N) →
      Json.canonicalList la = true → Json.canonicalList ra = true →
      applyPatch (Json.diffElems pre.length la ra) (Json.arr (pre ++ la)) =
        some (Json.arr (pre ++ mergeElems la ra)) := by
  intro la
  induction la with
  | nil =>
    intro ra pre _ _ _
    simp [Json.diffElems, applyPatch, mergeElems]
  | cons x xs ih =>
    intro ra pre hsz hcl hcr
    cases ra with
    | nil => simp [Json.diffElems, applyPatch, mergeElems]
    | cons y ys =>
      have hcx : Json.canonical x = true ∧ Json.canonicalList xs = true := by
        simpa [Json.canonicalList, Bool.and_eq_true] using hcl
      have hcy : Json.canonical y = true ∧ Json.canonicalList ys = true := by
        simpa [Json.canonicalList, Bool.and_eq_true] using hcr
      rw [Json.diffElems, applyPatch_append]
      have hinner : applyPatch (Json.diff x y) x = some y :=
        IH x y (hsz x (List.mem_cons_self _ _)) hcx.1 hcy.1
      have hphase : applyPatch ((Json.diff x y).map (prefixOp (PathStep.idx pre.length)))
          (Json.arr (pre ++ x :: xs)) = some (Json.arr (pre ++ y :: xs)) := by
        rw [applyPatch_prefix_idx pre.length (Json.diff x y) _ x y
          (fun op2 h2 => diff_ops_ok x y op2 h2) (get?_append_length x pre xs) hinner]
        rw [set_append_length x y pre xs]
      rw [hphase, Option.some_bind]
      have := ih ys (pre ++ [y]) (fun x2 h2 => hsz x2 (List.mem_cons_of_mem _ h2))
        hcx.2 hcy.2
      simp only [List.length_append, List.length_singleton, List.append_assoc,
        List.singleton_append] at this
      rw [mergeElems]
      exact this
  
theorem removes_apply :
    ∀ (t ra : List Json),
      applyPatch (List.replicate t.length (PatchOp.remove [PathStep.idx ra.length]))
        (Json.arr (ra ++ t)) = some (Json.arr ra) := by
  intro t
  induction t with
  | nil => intro ra; simp [applyPatch]
  | cons x t2 ih =>
    intro ra
    rw [List.length_cons, List.replicate_succ, applyPatch]
    have hstep : applyOp (PatchOp.remove [PathStep.idx ra.length])
        (Json.arr (ra ++ x :: t2)) = some (Json.arr (ra ++ t2)) := by
      simp only [applyOp, applyRemove]
      rw [if_pos (by simp), eraseIdx_append]
    rw [hstep]
    exact ih ra

theorem adds_apply_gen :
    ∀ (tail : List Json) (s c : Nat) (pre : List Json), c + s = pre.length →
      applyPatch ((List.enumFrom s tail).map
          (fun iv => PatchOp.add [PathStep.idx (c + iv.1)] iv.2))
        (Json.arr pre) = some (Json.arr (pre ++ tail)) := by
  intro tail
  induction tail with
  | nil => intro s c pre _; simp [applyPatch]
  | cons y ys ih =>
    intro s c pre hlen
    simp only [List.enumFrom, List.map_cons]
    rw [applyPatch]
    have hstep : applyOp (PatchOp.add [PathStep.idx (c + s)] y)
        (Json.arr pre) = some (Json.arr (pre ++ [y])) := by
      simp only [applyOp, applyAdd]
      rw [if_pos (by omega), hlen, insertAt_length]
    rw [hstep]
    have := ih (s + 1) c (pre ++ [y]) (by simp; omega)
    rw [List.append_assoc] at this
    simp only [List.singleton_append] at this
    exact this

theorem adds_apply (tail pre : List Json) :
    applyPatch (tail.enum.map
        (fun iv => PatchOp.add [PathStep.idx (pre.length + iv.1)] iv.2))
      (Json.arr pre) = some (Json.arr (pre ++ tail)) :=
  adds_apply_gen tail 0 pre.length pre (by simp)

theorem mergeElems_eq_take :
    ∀ (la ra : List Json), la.length ≤ ra.length →
      mergeElems la ra = ra.take la.length := by
  intro la
  induction la with
  | nil => intro ra _; simp [mergeElems]
  | cons x xs ih =>
    intro ra hle
    cases ra with
    | nil => simp at hle
    | cons y ys =>
      rw [mergeElems, List.length_cons, List.take_succ_cons,
        ih ys (by simpa using hle)]

theorem mergeElems_eq_append :
    ∀ (la ra : List Json), ra.length ≤ la.length →
      mergeElems la ra = ra ++ la.drop ra.length := by
  intro la
  induction la with
  | nil =>
    intro ra hle
    have : ra = [] := List.length_eq_zero.mp (by simpa using hle)
    subst this
    simp [mergeElems]
  | cons x xs ih =>
    intro ra hle
    cases ra with
    | nil => simp [mergeElems]
    | cons y ys =>
      rw [mergeElems, List.length_cons, List.cons_append, List.drop_succ_cons,
        ih ys (by simpa using hle)]

theorem diff_apply_leaf (a b : Json)
    (heq : Json.diff a b = if Json.beq a b then [] else [PatchOp.replace [] b]) :
    applyPatch (Json.diff a b) a = some b := by
  rw [heq]
  by_cases h : Json.beq a b = true
  · rw [if_pos h, Json.beq_sound a b h]
    simp [applyPatch]
  · rw [if_neg h]
    simp [applyPatch, applyOp, applyReplace]

theorem diff_apply_obj (N : Nat)
    (IH : ∀ l r : Json, sizeOf l ≤ N → Json.canonical l = true →
      Json.canonical r = true → applyPatch (Json.diff l r) l = some r)
    (lf rf : List (String × Json))
    (hsz : ∀ kv ∈ lf, sizeOf kv.2 ≤ N)
    (hca : Json.canonical (Json.obj lf) = true)
    (hcb : Json.canonical (Json.obj rf) = true) :
    applyPatch (Json.diff (Json.obj lf) (Json.obj rf)) (Json.obj lf) =
      some (Json.obj rf) := by
  have hcal : sortedKeys lf = true ∧ Json.canonicalFields lf = true := by
    simpa [Json.canonical, Bool.and_eq_true] using hca
  have hcar : sortedKeys rf = true ∧ Json.canonicalFields rf = true := by
    simpa [Json.canonical, Bool.and_eq_true] using hcb
  rw [Json.diff, applyPatch_append]
  have h1 := diffFieldsL_apply N IH rf hcar.2 lf [] hsz hcal.2
    (by intro kv h2 kv2 _; simp at h2) (sk_nodup lf hcal.1)
  simp only [List.nil_append] at h1
  rw [h1, Option.some_bind, mergeFields_eq_filter lf rf hcal.1 hcar.1]
  exact diffObjR_apply lf rf hcar.1

theorem diff_apply_arr (N : Nat)
    (IH : ∀ l r : Json, sizeOf l ≤ N → Json.canonical l = true →
      Json.canonical r = true → applyPatch (Json.diff l r) l = some r)
    (la ra : List Json)
    (hsz : ∀ x ∈ la, sizeOf x ≤ N)
    (hca : Json.canonical (Json.arr la) = true)
    (hcb : Json.canonical (Json.arr ra) = true) :
    applyPatch (Json.diff (Json.arr la) (Json.arr ra)) (Json.arr la) =
      some (Json.arr ra) := by
  have hcl : Json.canonicalList la = true := by simpa [Json.canonical] using hca
  have hcr : Json.canonicalList ra = true := by simpa [Json.canonical] using hcb
  rw [Json.diff, applyPatch_append]
  have h1 := diffElems_apply N IH la ra [] hsz hcl hcr
  simp only [List.nil_append, List.length_nil] at h1
  rw [h1, Option.some_bind]
  unfold arrTailOps
  dsimp only
  by_cases hle : la.length ≤ ra.length
  · rw [Nat.min_eq_left hle, mergeElems_eq_take la ra hle,
      Nat.sub_self, List.replicate_zero, List.nil_append]
    have hlen : la.length + 0 = (ra.take la.length).length := by
      rw [List.length_take]
      omega
    have := adds_apply_gen (ra.drop la.length) 0 la.length (ra.take la.length) hlen
    rw [List.take_append_drop] at this
    rw [List.enum]
    exact this
  · have hle2 : ra.length ≤ la.length := by omega
    rw [Nat.min_eq_right hle2, mergeElems_eq_append la ra hle2, applyPatch_append]
    have hc1 : la.length - ra.length = (la.drop ra.length).length := by
      rw [List.length_drop]
    rw [hc1]
    rw [removes_apply (la.drop ra.length) ra, Option.some_bind]
    rw [List.drop_length]
    simp [applyPatch]

theorem diff_apply_aux : ∀ (N : Nat) (a b : Json), sizeOf a ≤ N →
    Json.canonical a = true → Json.canonical b = true →
    applyPatch (Json.diff a b) a = some b := by
  intro N
  induction N with
  | zero =>
    intro a b hsz _ _
    exfalso
    cases a <;> simp at hsz
  | succ N ihN =>
    intro a b hsz hca hcb
    match a, b with
    | Json.obj lf, Json.obj rf =>
      apply diff_apply_obj N ihN lf rf ?_ hca hcb
      intro kv hkv
      have h1 : sizeOf kv < sizeOf lf := List.sizeOf_lt_of_mem hkv
      have h2 : sizeOf kv.2 < sizeOf kv := by
        rcases kv with ⟨k, v⟩
        simp
      have h3 : sizeOf (Json.obj lf) = 1 + sizeOf lf := by simp
      rw [h3] at hsz
      omega
    | Json.arr la, Json.arr ra =>
      apply diff_apply_arr N ihN la ra ?_ hca hcb
      intro x hx
      have h1 : sizeOf x < sizeOf la := List.sizeOf_lt_of_mem hx
      have h3 : sizeOf (Json.arr la) = 1 + sizeOf la := by simp
      rw [h3] at hsz
      omega
    | Json.null, Json.null | Json.null, Json.bool _ | Json.null, Json.num _
    | Json.null, Json.str _ | Json.null, Json.arr _ | Json.null, Json.obj _
    | Json.bool _, Json.null | Json.bool _, Json.bool _ | Json.bool _, Json.num _
    | Json.bool _, Json.str _ | Json.bool _, Json.arr _ | Json.bool _, Json.obj _
    | Json.num _, Json.null | Json.num _, Json.bool _ | Json.num _, Json.num _
    | Json.num _, Json.str _ | Json.num _, Json.arr _ | Json.num _, Json.obj _
    | Json.str _, Json.null | Json.str _, Json.bool _ | Json.str _, Json.num _
    | Json.str _, Json.str _ | Json.str _, Json.arr _ | Json.str _, Json.obj _
    | Json.arr _, Json.null | Json.arr _, Json.bool _ | Json.arr _, Json.num _
    | Json.arr _, Json.str _ | Json.arr _, Json.obj _
    | Json.obj _, Json.null | Json.obj _, Json.bool _ | Json.obj _, Json.num _
    | Json.obj _, Json.str _ | Json.obj _, Json.arr _ =>
      exact diff_apply_leaf _ _ (by simp [Json.diff])

theorem getField?_of_mem_nodup :
    ∀ (lf : List (String × Json)), ((lf.map Prod.fst).Nodup) →
      ∀ kv ∈ lf, getField? lf kv.1 = some kv.2 := by
  intro lf
  induction lf with
  | nil => intro _ kv hkv; simp at hkv
  | cons kv1 rest ih =>
    intro hnd kv hkv
    rcases kv1 with ⟨k1, v1⟩
    rw [List.map_cons, List.nodup_cons] at hnd
    rcases List.mem_cons.mp hkv with hkv | hkv
    · rw [hkv, getField?_cons, if_pos rfl]
    · have hne : k1 ≠ kv.1 := by
        intro he
        have hmm : kv.1 ∈ rest.map Prod.fst := List.mem_map.mpr ⟨kv, hkv, rfl⟩
        rw [← he] at hmm
        exact hnd.1 hmm
      rw [getField?_cons, if_neg hne]
      exact ih hnd.2 kv hkv

theorem getField?_isSome_of_mem (lf : List (String × Json)) (kv : String × Json)
    (hkv : kv ∈ lf) : (getField? lf kv.1).isSome = true := by
  unfold getField?
  rcases hf : lf.find? (fun kv2 => kv2.1 = kv.1) with _ | kv2
  · exfalso
    rw [List.find?_eq_none] at hf
    exact hf kv hkv (by simp)
  · rw [hf]
    rfl

theorem diffFieldsL_self (N : Nat)
    (IH : ∀ v : Json, sizeOf v ≤ N → Json.canonical v = true → Json.diff v v = []) :
    ∀ (todo lf : List (String × Json)),
      (∀ kv ∈ todo, sizeOf kv.2 ≤ N ∧ Json.canonical kv.2 = true ∧
        getField? lf kv.1 = some kv.2) →
      Json.diffFieldsL todo lf = [] := by
  intro todo
  induction todo with
  | nil => intro lf _; rfl
  | cons kv rest ih =>
    intro lf h
    rcases kv with ⟨k, v⟩
    have hh := h (k, v) (List.mem_cons_self _ _)
    rw [Json.diffFieldsL, hh.2.2]
    dsimp only
    rw [IH v hh.1 hh.2.1]
    simp only [List.map_nil, List.nil_append]
    exact ih lf (fun kv2 h2 => h kv2 (List.mem_cons_of_mem _ h2))

theorem diffElems_self (N : Nat)
    (IH : ∀ v : Json, sizeOf v ≤ N → Json.canonical v = true → Json.diff v v = []) :
    ∀ (la : List Json) (i : Nat),
      (∀ x ∈ la, sizeOf x ≤ N ∧ Json.canonical x = true) →
      Json.diffElems i la la = [] := by
  intro la
  induction la with
  | nil => intro i _; rfl
  | cons x xs ih =>
    intro i h
    have hh := h x (List.mem_cons_self _ _)
    rw [Json.diffElems, IH x hh.1 hh.2]
    simp only [List.map_nil, List.nil_append]
    exact ih (i + 1) (fun x2 h2 => h x2 (List.mem_cons_of_mem _ h2))

theorem diff_self_aux : ∀ (N : Nat) (a : Json), sizeOf a ≤ N →
    Json.canonical a = true → Json.diff a a = [] := by
  intro N
  induction N with
  | zero =>
    intro a hsz _
    exfalso
    cases a <;> simp at hsz
  | succ N ihN =>
    intro a hsz hca
    match a with
    | Json.obj lf =>
      have hcal : sortedKeys lf = true ∧ Json.canonicalFields lf = true := by
        simpa [Json.canonical, Bool.and_eq_true] using hca
      have hsz3 : sizeOf (Json.obj lf) = 1 + sizeOf lf := by simp
      rw [hsz3] at hsz
      rw [Json.diff]
      rw [diffFieldsL_self N ihN lf lf (by
        intro kv hkv
        have h1 : sizeOf kv < sizeOf lf := List.sizeOf_lt_of_mem hkv
        have h2 : sizeOf kv.2 < sizeOf kv := by
          rcases kv with ⟨k, v⟩
          simp
        refine ⟨by omega, canonicalFields_mem lf hcal.2 kv hkv, ?_⟩
        exact getField?_of_mem_nodup lf (sk_nodup lf hcal.1) kv hkv)]
      rw [List.nil_append]
      unfold diffObjR
      rw [List.filterMap_eq_nil]
      intro kv hkv
      rw [if_pos (getField?_isSome_of_mem lf kv hkv)]
    | Json.arr la =>
      have hcl : Json.canonicalList la = true := by simpa [Json.canonical] using hca
      have hsz3 : sizeOf (Json.arr la) = 1 + sizeOf la := by simp
      rw [hsz3] at hsz
      rw [Json.diff]
      rw [diffElems_self N ihN la 0 (by
        intro x hx
        have h1 : sizeOf x < sizeOf la := List.sizeOf_lt_of_mem hx
        exact ⟨by omega, canonicalList_mem la hcl x hx⟩)]
      rw [List.nil_append]
      unfold arrTailOps
      simp
    | Json.null | Json.bool _ | Json.num _ | Json.str _ =>
      simp only [Json.diff, Json.beq_refl, if_true]

theorem Json.diff_self (a : Json) (hca : Json.canonical a = true) :
    Json.diff a a = [] :=
  diff_self_aux (sizeOf a) a (le_refl _) hca

/-- **C4**: `json_patch::diff` round-trips — applying `diff(A, B)` to the
serialization of `A` (any canonical document, as `serde_json` emits:
objects key-sorted) yields exactly the serialization of `B` — and an
`update_self` whose closure leaves the context unchanged produces an empty
diff and sends no `Patch` message to any subscriber. -/
theorem C4_diff_patch_roundtrip :
    (∀ a b : Json, Json.canonical a = true → Json.canonical b = true →
      applyPatch (Json.diff a b) a = some b) ∧
    (∀ (toJson : AppStateContext → Json) (f : AppStateContext → AppStateContext)
      (ctx : AppStateContext) (subs : List Nat),
      Json.canonical (toJson ctx) = true → f ctx = ctx →
      update_self toJson f ctx subs = (ctx, [])) := by
  constructor
  · intro a b hca hcb
    exact diff_apply_aux (sizeOf a) a b (le_refl _) hca hcb
  · intro toJson f ctx subs hc hf
    unfold update_self notify_subscribers
    rw [hf]
    simp [Json.diff_self (toJson ctx) hc]

/-- A canonical document with a key to delete, a shared key whose array
value changes in place and grows, and room for a fresh key. -/
def c4A : Json :=
  Json.obj [("a", Json.num 1), ("b", Json.arr [Json.num 1, Json.num 2]),
            ("d", Json.str "gone")]

/-- The target document for the `C4` witness. -/
def c4B : Json :=
  Json.obj [("b", Json.arr [Json.num 1, Json.num 3, Json.num 4]),
            ("c", Json.str "new")]

theorem c4A_canonical : Json.canonical c4A = true := by
  simp only [c4A, Json.canonical, Json.canonicalList, Json.canonicalFields,
    sortedKeys, strLtB, charsLtB]
  decide

theorem c4B_canonical : Json.canonical c4B = true := by
  simp only [c4B, Json.canonical, Json.canonicalList, Json.canonicalFields,
    sortedKeys, strLtB, charsLtB]
  decide

/-- Witness for `C4_diff_patch_roundtrip`: a concrete diff/patch round
trip exercising removal, recursive replace, array growth and key insertion,
and a no-op `update_self` that notifies nobody. -/
theorem C4_witness :
    applyPatch (Json.diff c4A c4B) c4A = some c4B ∧
    update_self (fun _ => c4A) (fun ctx => ctx) baseCtx [7] = (baseCtx, []) :=
  ⟨C4_diff_patch_roundtrip.1 c4A c4B c4A_canonical c4B_canonical,
   C4_diff_patch_roundtrip.2 (fun _ => c4A) (fun ctx => ctx) baseCtx [7]
     c4A_canonical rfl⟩
